import Mathlib

/-!
# icebin: grid data model and conservative regridding kernel

A shallow embedding of `slib/icebin/Grid.hpp`, `slib/icebin/Grid.cpp` and
`slib/icebin/modele/hntr.hpp`.

Conventions of the embedding:

* `long` / `int` values are `Int`; the narrowing conversion `long → int`
  is `toInt`, the `size_t` field `_nfull` is a `Nat` below `2^64`.
* `double` values are rationals (exact arithmetic).
* `std::unordered_map<long, std::unique_ptr<T>>` is an association list in
  iteration order; `insert` of a fresh key appends.
* `Vertex *` held by a `Cell` is represented by the vertex it points to.
* `(*icebin_error)(...)` raises; fallible operations return `Except Error`.
-/

namespace icebin

/-! ## Machine integers -/

/-- Number of values of a `size_t`. -/
def SIZE_MOD : Nat := 2 ^ 64

/-- Value of `(size_t) z` for a signed `z`. -/
def toSizeT (z : Int) : Nat := (z % (SIZE_MOD : Int)).toNat

/-- Value of `(int) z` for a `long` `z` (two's complement narrowing). -/
def toInt (z : Int) : Int := (z + 2 ^ 31) % 2 ^ 32 - 2 ^ 31

/-- Errors raised through `icebin_error`. -/
inductive Error where
  | duplicateIdentifier (index : Int)
  | notFound (index : Int)
  | unsupportedVersion (version : Int)
deriving DecidableEq, Repr

/-! ## Vertex and Cell (Grid.hpp) -/

/-- Mirror of `struct Vertex`. -/
structure Vertex where
  index : Int
  x : ℚ
  y : ℚ
deriving DecidableEq, Repr

/-- Mirror of `class Cell`; `_vertices` lists the pointed-to vertices in boundary order. -/
structure Cell where
  _vertices : List Vertex
  index : Int
  native_area : ℚ
  i : Int
  j : Int
  k : Int
deriving DecidableEq, Repr

/-- `Cell::size()`. -/
def Cell.size (c : Cell) : Nat := c._vertices.length

/-- Entities a `GridMap` can hold: they expose a mutable `index` field. -/
class Indexed (T : Type) where
  index : T → Int
  setIndex : T → Int → T
  index_setIndex : ∀ (t : T) (n : Int), index (setIndex t n) = n

instance : Indexed Vertex where
  index v := v.index
  setIndex v n := { v with index := n }
  index_setIndex _ _ := rfl

instance : Indexed Cell where
  index c := c.index
  setIndex c n := { c with index := n }
  index_setIndex _ _ := rfl

/-! ## GridMap (Grid.hpp) -/

/-- Mirror of `class GridMap<CellT>`: `_cells` in iteration order, the `size_t`
field `_nfull` (initialised to `-1`, that is `2^64 - 1`) and `_max_realized_index`. -/
structure GridMap (T : Type) where
  _cells : List (Int × T)
  _nfull : Nat
  _max_realized_index : Int

namespace GridMap

variable {T : Type}

/-- A default-constructed `GridMap`. -/
def empty : GridMap T :=
  { _cells := [], _nfull := toSizeT (-1), _max_realized_index := -1 }

/-- Lookup in the underlying map (`_cells.find`). -/
def find? (m : GridMap T) (index : Int) : Option T :=
  (m._cells.find? (fun kv => kv.1 == index)).map Prod.snd

/-- `GridMap::at`: fails when the key is absent. -/
def «at» (m : GridMap T) (index : Int) : Except Error T :=
  match m.find? index with
  | some t => .ok t
  | none => .error (.notFound index)

/-- `GridMap::nrealized`. -/
def nrealized (m : GridMap T) : Nat := m._cells.length

/-- `GridMap::nfull`: `_nfull >= 0 ? _nfull : _max_realized_index+1`, the
comparison being one of the unsigned `_nfull` with `0`. -/
def nfull (m : GridMap T) : Nat :=
  if 0 ≤ m._nfull then m._nfull else toSizeT (m._max_realized_index + 1)

/-- `GridMap::clear`. -/
def clear (m : GridMap T) : GridMap T := { m with _cells := [] }

/-- `GridMap::erase` of the iterator standing at position `pos`. -/
def erase (m : GridMap T) (pos : Nat) : GridMap T :=
  { m with _cells := m._cells.eraseIdx pos }

/-- `GridMap::add`. Returns the map after the call together with the handle
of the stored entity, or the error raised for a repeated index. -/
def add [Indexed T] (m : GridMap T) (cell : T) : GridMap T × Except Error T :=
  -- if (cell.index < 0) cell.index = _cells.size();
  let cell := if Indexed.index cell < 0 then Indexed.setIndex cell (m._cells.length : Int) else cell
  -- _max_realized_index = std::max(_max_realized_index, cell.index);
  let m1 := { m with _max_realized_index := max m._max_realized_index (Indexed.index cell) }
  -- _cells.insert(std::make_pair(cell.index, std::move(ptr)))
  match m1.find? (Indexed.index cell) with
  | some _ => (m1, .error (.duplicateIdentifier (Indexed.index cell)))
  | none => ({ m1 with _cells := m1._cells ++ [(Indexed.index cell, cell)] }, .ok cell)

/-- States of a `GridMap` object: default construction followed by any
sequence of `add`, `erase`, `clear` and assignments to `_nfull`. -/
inductive Reachable [Indexed T] : GridMap T → Prop where
  | empty : Reachable GridMap.empty
  | add (m : GridMap T) (cell : T) : Reachable m → Reachable (m.add cell).1
  | erase (m : GridMap T) (pos : Nat) : Reachable m → Reachable (m.erase pos)
  | clear (m : GridMap T) : Reachable m → Reachable m.clear
  | setNfull (m : GridMap T) (n : Nat) : Reachable m → Reachable { m with _nfull := n }

/-- States reachable by `add` and `erase` calls only. -/
inductive ReachableAddErase [Indexed T] : GridMap T → Prop where
  | empty : ReachableAddErase GridMap.empty
  | add (m : GridMap T) (cell : T) : ReachableAddErase m → ReachableAddErase (m.add cell).1
  | erase (m : GridMap T) (pos : Nat) : ReachableAddErase m → ReachableAddErase (m.erase pos)

/-- States reachable by `add` calls that never supply an identifier. -/
inductive ReachableAuto [Indexed T] : GridMap T → Prop where
  | empty : ReachableAuto GridMap.empty
  | add (m : GridMap T) (cell : T) : Indexed.index cell < 0 → ReachableAuto m →
      ReachableAuto (m.add cell).1

end GridMap

/-! ## Grid (Grid.hpp, Grid.cpp) -/

/-- `Grid::Type`. -/
inductive GridType where
  | GENERIC | XY | LONLAT | EXCHANGE
deriving DecidableEq, Repr

/-- `Grid::Coordinates`. -/
inductive Coordinates where
  | XY | LONLAT
deriving DecidableEq, Repr

/-- `Grid::Parameterization`. -/
inductive Parameterization where
  | L0 | L1
deriving DecidableEq, Repr

/-- Mirror of `class Grid`. -/
structure Grid where
  vertices : GridMap Vertex
  cells : GridMap Cell
  type : GridType
  coordinates : Coordinates
  parameterization : Parameterization
  name : String
  _max_realized_cell_index : Int
  _max_realized_vertex_index : Int
  sproj : String

/-- `Grid::Grid()`. -/
def Grid.new : Grid :=
  { vertices := GridMap.empty, cells := GridMap.empty,
    type := .XY, coordinates := .XY, parameterization := .L0, name := "",
    _max_realized_cell_index := 0, _max_realized_vertex_index := 0, sproj := "" }

/-- `Grid::ndata`. The `else` branch evaluates `cells.nfull()` without a
`return`, so control flows off the end of the function and no value is
produced (`none`). -/
def Grid.ndata (g : Grid) : Option Nat :=
  if g.parameterization = Parameterization.L1 then
    some g.vertices.nfull
  else
    let _ := g.cells.nfull
    none

/-- State of the first loop of `Grid::filter_cells`. -/
structure CellLoopState where
  cells : List (Int × Cell)
  max_index : Int
  good_vertices : List Int

/-- Inner loop of `filter_cells`: `good_vertices.insert(vertex->index)` for each
vertex of a kept cell; the set has element type `int`. -/
def insertGoodVertices (good : List Int) (vs : List Vertex) : List Int :=
  vs.foldl (fun g v => g.insert (toInt v.index)) good

/-- First loop of `filter_cells` over the cells still to be visited: a kept cell
stays, updates the maximum and records its vertices; any other cell is erased. -/
def filterCellsLoop (include_cell : Cell → Bool) :
    List (Int × Cell) → Int → List Int → CellLoopState
  | [], mx, good => { cells := [], max_index := mx, good_vertices := good }
  | (key, cell) :: rest, mx, good =>
    if include_cell cell then
      let r := filterCellsLoop include_cell rest (max mx cell.index)
        (insertGoodVertices good cell._vertices)
      { r with cells := (key, cell) :: r.cells }
    else
      filterCellsLoop include_cell rest mx good

/-- Second loop of `filter_cells`: a vertex found in `good_vertices` stays and
updates the maximum, any other vertex is erased. -/
def filterVerticesLoop (good : List Int) :
    List (Int × Vertex) → Int → List (Int × Vertex) × Int
  | [], mx => ([], mx)
  | (key, vertex) :: rest, mx =>
    if toInt vertex.index ∈ good then
      let r := filterVerticesLoop good rest (max mx vertex.index)
      ((key, vertex) :: r.1, r.2)
    else
      filterVerticesLoop good rest mx

/-- `Grid::filter_cells`. -/
def Grid.filter_cells (g : Grid) (include_cell : Cell → Bool) : Grid :=
  -- Set counts so they won't change
  let cells1 := { g.cells with _nfull := g.cells.nfull }
  let vertices1 := { g.vertices with _nfull := g.vertices.nfull }
  -- Remove cells that don't fit our filter
  let r := filterCellsLoop include_cell cells1._cells (-1) []
  -- Remove vertices that don't fit our filter
  let rv := filterVerticesLoop r.good_vertices vertices1._cells (-1)
  { g with
    cells := { cells1 with _cells := r.cells }
    vertices := { vertices1 with _cells := rv.1 }
    _max_realized_cell_index := r.max_index
    _max_realized_vertex_index := rv.2 }

/-! ## Cell::proj_area (Grid.cpp) -/

/-- The optional projection `Proj_LL2XY const *proj`: `transform(x, y, x', y')`. -/
abbrev Proj := ℚ → ℚ → ℚ × ℚ

/-- Coordinates of a vertex as `proj_area` reads them: projected when `proj` is given. -/
def projPoint (proj : Option Proj) (v : Vertex) : ℚ × ℚ :=
  match proj with
  | some p => p v.x v.y
  | none => (v.x, v.y)

/-- Loop state of `proj_area`: `ret`, `x0`, `y0`. -/
structure AreaState where
  ret : ℚ
  x0 : ℚ
  y0 : ℚ

/-- One iteration of the loop of `proj_area`. -/
def areaStep (proj : Option Proj) (s : AreaState) (v : Vertex) : AreaState :=
  let p := projPoint proj v
  { ret := s.ret + ((s.x0 * p.2) - (p.1 * s.y0)), x0 := p.1, y0 := p.2 }

/-- `Cell::proj_area`. `end(-1)` is the last vertex; for a cell without
vertices that dereference is undefined and no value is produced. -/
def Cell.proj_area (c : Cell) (proj : Option Proj) : Option ℚ :=
  match c._vertices.getLast? with
  | none => none
  | some last =>
    let p0 := projPoint proj last
    let s := c._vertices.foldl (areaStep proj) { ret := 0, x0 := p0.1, y0 := p0.2 }
    -- ret *= .5
    some (s.ret * (1 / 2))

/-- Abscissa of vertex number `n` of a cell. -/
def Cell.vx (c : Cell) (n : Nat) : ℚ := (c._vertices.getD n ⟨0, 0, 0⟩).x

/-- Ordinate of vertex number `n` of a cell. -/
def Cell.vy (c : Cell) (n : Nat) : ℚ := (c._vertices.getD n ⟨0, 0, 0⟩).y

/-- Number of the vertex before vertex `n` on the closed ring of a cell. -/
def Cell.prevIx (c : Cell) (n : Nat) : Nat := if n = 0 then c.size - 1 else n - 1

/-- Point number `n` of a cell's ring as `proj_area` reads it (projected when `proj` is given). -/
def Cell.ringPoint (c : Cell) (proj : Option Proj) (n : Nat) : ℚ × ℚ :=
  projPoint proj (c._vertices.getD n ⟨0, 0, 0⟩)

/-- The shoelace sum of the (optionally projected) ring of a cell. -/
def Cell.shoelaceProj (c : Cell) (proj : Option Proj) : ℚ :=
  ∑ n in Finset.range c.size,
    ((c.ringPoint proj (c.prevIx n)).1 * (c.ringPoint proj n).2
      - (c.ringPoint proj n).1 * (c.ringPoint proj (c.prevIx n)).2)

/-! ## Hntr (modele/hntr.hpp) -/

/-- Mirror of `class HntrGrid` (the fields `Hntr::matrix` reads). -/
structure HntrGrid where
  im : Int
  jm : Int
  offi : ℚ
  dlat : ℚ

/-- `HntrGrid::size`. -/
def HntrGrid.size (g : HntrGrid) : Int := g.im * g.jm

/-- Mirror of `class Hntr`: the two grids and the overlap tables, which are
1-based arrays (`SINA` and `SINB` start at 0). -/
structure Hntr where
  Agrid : HntrGrid
  Bgrid : HntrGrid
  SINA : Int → ℚ
  SINB : Int → ℚ
  FMIN : Int → ℚ
  FMAX : Int → ℚ
  IMIN : Int → Int
  IMAX : Int → Int
  GMIN : Int → ℚ
  GMAX : Int → ℚ
  JMIN : Int → Int
  JMAX : Int → Int
  DATMIS : ℚ

/-- An entry handed to the accumulator: `accum.add({row, col}, value)`. -/
structure Entry where
  row : Int
  col : Int
  value : ℚ
deriving DecidableEq, Repr

/-- Iterations of `for (int i = lo; ...; ++i)` with `n` iterations left. -/
def forLoopAux {σ : Type} (body : Int → σ → σ) : Nat → Int → σ → σ
  | 0, _, s => s
  | n + 1, i, s => forLoopAux body n (i + 1) (body i s)

/-- The loop `for (int i = lo; i <= hi; ++i) body`. -/
def forLoop {σ : Type} (lo hi : Int) (body : Int → σ → σ) (s : σ) : σ :=
  forLoopAux body (hi + 1 - lo).toNat lo s

/-- Template `Hntr::matrix(accum, Bindex_clip, WTB)`; the accumulator is the
list of entries added so far. -/
def Hntr.matrix (h : Hntr) (accum : List Entry) (Bindex_clip : Int → Bool)
    (WTB : Int → ℚ) : List Entry :=
  forLoop 1 h.Bgrid.jm (fun JB accum =>
    let JAMIN := h.JMIN JB
    let JAMAX := h.JMAX JB
    forLoop 1 h.Bgrid.im (fun IB accum =>
      let IJB := IB + h.Bgrid.im * (JB - 1)
      let wtb_ijb := WTB IJB
      if !Bindex_clip (IJB - 1) then accum
      else
        let IAMIN := h.IMIN IB
        let IAMAX := h.IMAX IB
        forLoop JAMIN JAMAX (fun JA accum =>
          let G := h.SINA JA - h.SINA (JA - 1)
          let G := if JA = JAMIN then G - h.GMIN JB else G
          let G := if JA = JAMAX then G - h.GMAX JB else G
          forLoop IAMIN IAMAX (fun IAREV accum =>
            let IA := 1 + Int.tmod (IAREV - 1) h.Agrid.im
            let IJA := IA + h.Agrid.im * (JA - 1)
            let F : ℚ := 1
            let F := if IAREV = IAMIN then F - h.FMIN IB else F
            let F := if IAREV = IAMAX then F - h.FMAX IB else F
            accum ++ [⟨IJB - 1, IJA - 1, wtb_ijb * F * G⟩]) accum) accum) accum) accum

/-- Longitude fraction of the unfolded source column `IAREV` for destination column `IB`:
1, less `FMIN(IB)` at the first column of the range, less `FMAX(IB)` at the last. -/
def Hntr.lonFraction (h : Hntr) (IB IAREV : Int) : ℚ :=
  1 - (if IAREV = h.IMIN IB then h.FMIN IB else 0) - (if IAREV = h.IMAX IB then h.FMAX IB else 0)

/-- Latitude fraction of the source row `JA` for destination row `JB`:
`SINA(JA) - SINA(JA-1)`, less `GMIN(JB)` at the first row of the range, less `GMAX(JB)` at the last. -/
def Hntr.latFraction (h : Hntr) (JB JA : Int) : ℚ :=
  h.SINA JA - h.SINA (JA - 1) - (if JA = h.JMIN JB then h.GMIN JB else 0)
    - (if JA = h.JMAX JB then h.GMAX JB else 0)

/-- An overlap pair: destination row `JB`, destination column `IB`, source row `JA`,
unfolded source column `IAREV`. -/
structure Overlap where
  JB : Int
  IB : Int
  JA : Int
  IAREV : Int
deriving DecidableEq, Repr

/-- The overlap pairs of the tables: destination cells inside grid B that pass the
filter, with the source rows and unfolded source columns of their inclusive ranges. -/
def Hntr.IsOverlap (h : Hntr) (Bindex_clip : Int → Bool) (o : Overlap) : Prop :=
  1 ≤ o.JB ∧ o.JB ≤ h.Bgrid.jm ∧ 1 ≤ o.IB ∧ o.IB ≤ h.Bgrid.im ∧
  Bindex_clip (o.IB + h.Bgrid.im * (o.JB - 1) - 1) = true ∧
  h.JMIN o.JB ≤ o.JA ∧ o.JA ≤ h.JMAX o.JB ∧
  h.IMIN o.IB ≤ o.IAREV ∧ o.IAREV ≤ h.IMAX o.IB

/-- The entry the specification prescribes for an overlap pair: destination weight times
longitude fraction times latitude fraction, at the 0-based destination index and the
0-based index of the folded source cell. -/
def Hntr.entryOf (h : Hntr) (WTB : Int → ℚ) (o : Overlap) : Entry :=
  { row := o.IB + h.Bgrid.im * (o.JB - 1) - 1
    col := 1 + Int.tmod (o.IAREV - 1) h.Agrid.im + h.Agrid.im * (o.JA - 1) - 1
    value := WTB (o.IB + h.Bgrid.im * (o.JB - 1)) * h.lonFraction o.IB o.IAREV
      * h.latFraction o.JB o.JA }

/-- The integers `lo, lo+1, ..., hi`. -/
def intRange (lo hi : Int) : List Int :=
  (List.range (hi + 1 - lo).toNat).map (fun (n : Nat) => lo + Int.ofNat n)

/-- The overlap pairs in the order `Hntr::matrix` visits them: destination rows, then
destination columns (those passing the filter), then source rows, then unfolded source
columns. -/
def Hntr.overlapList (h : Hntr) (Bindex_clip : Int → Bool) : List Overlap :=
  (intRange 1 h.Bgrid.jm).flatMap fun JB =>
    (intRange 1 h.Bgrid.im).flatMap fun IB =>
      if Bindex_clip (IB + h.Bgrid.im * (JB - 1) - 1) = true then
        (intRange (h.JMIN JB) (h.JMAX JB)).flatMap fun JA =>
          (intRange (h.IMIN IB) (h.IMAX IB)).map fun IAREV => ⟨JB, IB, JA, IAREV⟩
      else []

/-- Modelled from the spec: the constructor of `HntrGrid` is not part of `hntr.hpp`; the
specification has grid descriptors with `im ≤ 0` or `jm ≤ 0` rejected at construction. -/
def HntrGrid.WellFormed (g : HntrGrid) : Prop := 0 < g.im ∧ 0 < g.jm

/-- Overlap tables with every row range inside grid A and every column range starting at
column 1 or later: `1 ≤ JMIN(JB) ≤ JMAX(JB) ≤ Agrid.jm` and `1 ≤ IMIN(IB) ≤ IMAX(IB)` for
every destination row `JB` and destination column `IB`. -/
def Hntr.RangesOk (h : Hntr) : Prop :=
  (∀ JB, 1 ≤ JB → JB ≤ h.Bgrid.jm →
    1 ≤ h.JMIN JB ∧ h.JMIN JB ≤ h.JMAX JB ∧ h.JMAX JB ≤ h.Agrid.jm) ∧
  (∀ IB, 1 ≤ IB → IB ≤ h.Bgrid.im → 1 ≤ h.IMIN IB ∧ h.IMIN IB ≤ h.IMAX IB)

/-! ## Concrete inputs -/

/-- Vertex with index 5. -/
def vertex5 : Vertex := ⟨5, 0, 0⟩

/-- Vertex with index `2^32 + 5`. -/
def vertexBig : Vertex := ⟨4294967301, 1, 1⟩

/-- A grid with the two vertices `vertex5` and `vertexBig` and one cell, of index 0,
whose only vertex is `vertexBig`. -/
def orphanGrid : Grid :=
  { Grid.new with
    vertices := { (GridMap.empty : GridMap Vertex) with
      _cells := [(5, vertex5), (4294967301, vertexBig)], _max_realized_index := 4294967301 }
    cells := { (GridMap.empty : GridMap Cell) with
      _cells := [(0, ⟨[vertexBig], 0, 0, -1, -1, -1⟩)], _max_realized_index := 0 } }

/-- The map obtained from a fresh `GridMap` by adding vertices with indices 0, 3 and 7. -/
def map037 : GridMap Vertex :=
  (((GridMap.empty.add ⟨0, 0, 0⟩).1.add ⟨3, 0, 0⟩).1.add ⟨7, 0, 0⟩).1

/-- The map obtained from a fresh `GridMap` by adding one vertex with explicit index 1. -/
def mapOne : GridMap Vertex := (GridMap.empty.add ⟨1, 0, 0⟩).1

/-- The map obtained from a fresh `GridMap` by adding two vertices that supply no index. -/
def mapAuto2 : GridMap Vertex := ((GridMap.empty.add ⟨-1, 0, 0⟩).1.add ⟨-1, 2, 3⟩).1

/-- A default-constructed grid (parameterization L0) whose cell map has full size 10. -/
def gridL0 : Grid :=
  { Grid.new with cells := { (GridMap.empty : GridMap Cell) with _nfull := 10 } }

/-- The unit square, counter-clockwise from the origin. -/
def unitSquareCCW : Cell :=
  ⟨[⟨0, 0, 0⟩, ⟨1, 1, 0⟩, ⟨2, 1, 1⟩, ⟨3, 0, 1⟩], 0, 0, -1, -1, -1⟩

/-- The unit square, clockwise from the origin. -/
def unitSquareCW : Cell :=
  ⟨[⟨0, 0, 0⟩, ⟨3, 0, 1⟩, ⟨2, 1, 1⟩, ⟨1, 1, 0⟩], 0, 0, -1, -1, -1⟩

/-- Modelled from the spec: the constructor of `Hntr`, which fills the tables, is not part of
`hntr.hpp`. Overlap tables between a source grid of 4 by 2 cells and a destination grid of 2 by 2
cells on the same global domain: destination column `IB` covers the whole source columns
`2*IB-1` and `2*IB`, destination row `JB` the whole source row `JB`, no fraction is cut off at
either end, and the sines of latitude of the row edges are `-1`, `0` and `1`. -/
def hntr42 : Hntr :=
  { Agrid := ⟨4, 2, 0, 5400⟩
    Bgrid := ⟨2, 2, 0, 5400⟩
    SINA := fun j => j - 1
    SINB := fun j => j - 1
    FMIN := fun _ => 0
    FMAX := fun _ => 0
    IMIN := fun i => 2 * i - 1
    IMAX := fun i => 2 * i
    GMIN := fun _ => 0
    GMAX := fun _ => 0
    JMIN := fun j => j
    JMAX := fun j => j
    DATMIS := 0 }

/-- A grid with three vertices (indices 0, 1, 2) and two cells: cell 0 on vertices 0 and 1,
cell 1 on vertices 1 and 2. -/
def twoCellGrid : Grid :=
  { Grid.new with
    vertices := { (GridMap.empty : GridMap Vertex) with
      _cells := [(0, ⟨0, 0, 0⟩), (1, ⟨1, 1, 0⟩), (2, ⟨2, 1, 1⟩)], _max_realized_index := 2 }
    cells := { (GridMap.empty : GridMap Cell) with
      _cells := [(0, ⟨[⟨0, 0, 0⟩, ⟨1, 1, 0⟩], 0, 0, -1, -1, -1⟩),
        (1, ⟨[⟨1, 1, 0⟩, ⟨2, 1, 1⟩], 1, 0, -1, -1, -1⟩)], _max_realized_index := 1 } }

/-- The entries of a list that lie in row `r`. -/
def entriesOfRow (es : List Entry) (r : Int) : List Entry :=
  es.filter (fun e => e.row = r)

/-- Sum of the values of the entries in row `r` (the row's weight sum). -/
def rowSum (es : List Entry) (r : Int) : ℚ :=
  ((entriesOfRow es r).map Entry.value).sum

/-! ## GridMap::sorted -/

/-- `GridMap::sorted`: the stored entities in iteration order, then `std::sort` with
`CmpPointers`, which compares the `index` fields. -/
def GridMap.sorted {T : Type} [Indexed T] (m : GridMap T) : List T :=
  (m._cells.map Prod.snd).insertionSort (fun a b => Indexed.index a ≤ Indexed.index b)

/-- A map holding the vertices of indices 7, 0 and 3, iterated in that order. -/
def map703 : GridMap Vertex :=
  (((GridMap.empty.add ⟨7, 1, 1⟩).1.add ⟨0, 2, 2⟩).1.add ⟨3, 4, 4⟩).1

/-! ## Persistence: Grid::nc_write, Grid::nc_read, Grid::ncio (Grid.cpp) -/

/-- The variables of the store that `Grid::nc_write` fills and `Grid::nc_read` reads, each as
the list of its rows: `vertices.index`, `vertices.xy`, `cells.index`, `cells.ijk`,
`cells.native_area`, `cells.vertex_refs` and `cells.vertex_refs_start`. -/
structure NcGridVars where
  vertices_index : List Int
  vertices_xy : List (ℚ × ℚ)
  cells_index : List Int
  cells_ijk : List (Int × Int × Int)
  cells_native_area : List ℚ
  cells_vertex_refs : List Int
  cells_vertex_refs_start : List Int
deriving DecidableEq, Repr

/-- The variables before anything is written. -/
def NcGridVars.empty : NcGridVars := ⟨[], [], [], [], [], [], []⟩

/-- `putVar` of one row at position `pos` of a variable. -/
def putRow {α : Type} (rows : List α) (pos : Nat) (v : α) : List α :=
  rows.take pos ++ [v] ++ rows.drop (pos + 1)

/-- State of the vertex loop of `nc_write`: the variables and the row counter `i`. -/
structure VertexWriteState where
  vars : NcGridVars
  i : Nat

/-- One iteration of the vertex loop of `nc_write`. -/
def writeVertex (s : VertexWriteState) (vertex : Vertex) : VertexWriteState :=
  { vars := { s.vars with
      vertices_index := putRow s.vars.vertices_index s.i vertex.index
      vertices_xy := putRow s.vars.vertices_xy s.i (vertex.x, vertex.y) }
    i := s.i + 1 }

/-- State of the cell loop of `nc_write`: the variables, the row counter `startp[0]` and the
reference counter `ivref[0]`. -/
structure CellWriteState where
  vars : NcGridVars
  startp0 : Nat
  ivref : Nat

/-- One iteration of the inner loop of `nc_write`: the index of one vertex of the cell goes to
position `ivref` of `vertex_refs`. -/
def writeVertexRef (s : CellWriteState) (vertex : Vertex) : CellWriteState :=
  { s with
    vars := { s.vars with
      cells_vertex_refs := putRow s.vars.cells_vertex_refs s.ivref vertex.index }
    ivref := s.ivref + 1 }

/-- One iteration of the cell loop of `nc_write`. -/
def writeCell (s : CellWriteState) (cell : Cell) : CellWriteState :=
  let s1 : CellWriteState := { s with
    vars := { s.vars with
      cells_index := putRow s.vars.cells_index s.startp0 cell.index
      cells_ijk := putRow s.vars.cells_ijk s.startp0 (cell.i, cell.j, cell.k)
      cells_native_area := putRow s.vars.cells_native_area s.startp0 cell.native_area
      cells_vertex_refs_start :=
        putRow s.vars.cells_vertex_refs_start s.startp0 (Int.ofNat s.ivref) } }
  let s2 := cell._vertices.foldl writeVertexRef s1
  { s2 with startp0 := s2.startp0 + 1 }

/-- `Grid::nc_write`: the vertices sorted by index, then the cells sorted by index with their
vertex references, then the sentinel of `vertex_refs_start`. -/
def Grid.nc_write (g : Grid) : NcGridVars :=
  let sv := g.vertices.sorted.foldl writeVertex { vars := NcGridVars.empty, i := 0 }
  let sc := g.cells.sorted.foldl writeCell { vars := sv.vars, startp0 := 0, ivref := 0 }
  { sc.vars with
    cells_vertex_refs_start :=
      putRow sc.vars.cells_vertex_refs_start sc.startp0 (Int.ofNat sc.ivref) }

/-- Value a `double` of the store has when it is read into an array of `long`
(`nc_read_blitz<long, 1>`): the fraction is dropped. -/
def doubleToLong (q : ℚ) : Int := if 0 ≤ q then ⌊q⌋ else ⌈q⌉

/-- Constructor `Vertex(double _x, double _y, int _index)`. -/
def Vertex.ctor (x y : ℚ) (index : Int) : Vertex := ⟨toInt index, x, y⟩

/-- One iteration of the vertex loop of `nc_read`: `vertices.add(Vertex(x, y, index))`. -/
def readVertex (vars : NcGridVars) (r : Except Error (GridMap Vertex)) (i : Nat) :
    Except Error (GridMap Vertex) :=
  match r with
  | .error e => .error e
  | .ok vertices =>
    let index := vars.vertices_index.getD i 0
    let x := (vars.vertices_xy.getD i (0, 0)).1
    let y := (vars.vertices_xy.getD i (0, 0)).2
    match vertices.add (Vertex.ctor x y index) with
    | (vertices1, .ok _) => .ok vertices1
    | (_, .error e) => .error e

/-- Inner loop of `nc_read`: `cell.add_vertex(vertices.at(vrefs(j)))` for `j` from
`vrefs_start(i)` to `vrefs_start(i+1) - 1`. -/
def readCellVertices (vars : NcGridVars) (vertices : GridMap Vertex) (i : Nat) :
    Except Error (List Vertex) :=
  forLoop (vars.cells_vertex_refs_start.getD i 0) (vars.cells_vertex_refs_start.getD (i + 1) 0 - 1)
    (fun j r =>
      match r with
      | .error e => .error e
      | .ok vs =>
        match vertices.«at» (vars.cells_vertex_refs.getD j.toNat 0) with
        | .ok v => .ok (vs ++ [v])
        | .error e => .error e)
    (.ok [])

/-- One iteration of the cell loop of `nc_read`. The arrays are read as `long`; `i`, `j`, `k`
are `int` fields and `native_area` is a `double` field. -/
def readCell (vars : NcGridVars) (vertices : GridMap Vertex) (r : Except Error (GridMap Cell))
    (i : Nat) : Except Error (GridMap Cell) :=
  match r with
  | .error e => .error e
  | .ok cells =>
    match readCellVertices vars vertices i with
    | .error e => .error e
    | .ok vs =>
      let cell : Cell :=
        { _vertices := vs
          index := vars.cells_index.getD i 0
          i := toInt (vars.cells_ijk.getD i (0, 0, 0)).1
          j := toInt (vars.cells_ijk.getD i (0, 0, 0)).2.1
          k := toInt (vars.cells_ijk.getD i (0, 0, 0)).2.2
          native_area := (doubleToLong (vars.cells_native_area.getD i 0) : ℚ) }
      match cells.add cell with
      | (cells1, .ok _) => .ok cells1
      | (_, .error e) => .error e

/-- `Grid::nc_read`: `clear()`, then the vertices, then the cells. -/
def Grid.nc_read (g : Grid) (vars : NcGridVars) : Except Error Grid :=
  match (List.range vars.vertices_index.length).foldl (readVertex vars) (.ok g.vertices.clear) with
  | .error e => .error e
  | .ok vertices =>
    match (List.range vars.cells_index.length).foldl (readCell vars vertices)
        (.ok g.cells.clear) with
    | .error e => .error e
    | .ok cells => .ok { g with vertices := vertices, cells := cells }

/-- The cells a fresh grid holds after reading back what `nc_write` emitted for `g`, in
ascending order of index; `none` when reading fails. -/
def Grid.readBackCells (g : Grid) : Option (List Cell) :=
  match Grid.new.nc_read g.nc_write with
  | .ok g1 => some g1.cells.sorted
  | .error _ => none

/-- The vertices a fresh grid holds after reading back what `nc_write` emitted for `g`, in
ascending order of index; `none` when reading fails. -/
def Grid.readBackVertices (g : Grid) : Option (List Vertex) :=
  match Grid.new.nc_read g.nc_write with
  | .ok g1 => some g1.vertices.sorted
  | .error _ => none

/-- A grid with three vertices and one triangular cell of native area `1/2`. -/
def triangleGrid : Grid :=
  { Grid.new with
    vertices := { (GridMap.empty : GridMap Vertex) with
      _cells := [(0, ⟨0, 0, 0⟩), (1, ⟨1, 1, 0⟩), (2, ⟨2, 0, 1⟩)], _max_realized_index := 2 }
    cells := { (GridMap.empty : GridMap Cell) with
      _cells := [(0, ⟨[⟨0, 0, 0⟩, ⟨1, 1, 0⟩, ⟨2, 0, 1⟩], 0, 1 / 2, 0, 0, -1⟩)],
      _max_realized_index := 0 } }

/-- `get_or_put_att(info_v, rw, "version", ncInt, version)`: in write mode the variable is
stored in the attribute, in read mode the attribute is loaded into the variable. Returns the
attribute and the variable after the call. -/
def get_or_put_att (rw : Char) (att : Int) (var : Int) : Int × Int :=
  if rw = 'w' then (var, var) else (att, att)

/-- The version handling of `Grid::ncio`, for the value `stored` of the attribute `version`
before the call: `int version = 2`, then `get_or_put_att`, then the check in read mode.
Returns the attribute after the call, or the error raised. -/
def Grid.ncio_version (rw : Char) (stored : Int) : Except Error Int :=
  let version := 2
  let r := get_or_put_att rw stored version
  if rw = 'r' ∧ r.2 ≠ 2 then .error (.unsupportedVersion r.2) else .ok r.1

/-! ## MatrixMaker.cpp: checksum_interp and the initial guess of ice_to_hp -/

/-- Mirror of `giss::VectorSparseMatrix`: dimensions and the entries in storage order. -/
structure VectorSparseMatrix where
  nrow : Int
  ncol : Int
  entries : List Entry

/-- Modelled from the spec: `VectorSparseMatrix::sum_per_row_map()` is not part of
`MatrixMaker.cpp`; the specification describes it as the mapping from a row to the total of
the values of its entries. The rows that have an entry, in ascending order as a `std::map`
iterates, each with its sum. -/
def VectorSparseMatrix.sum_per_row_map (mat : VectorSparseMatrix) : List (Int × ℚ) :=
  (((mat.entries.map Entry.row).dedup).insertionSort (fun a b => a ≤ b)).map
    (fun r => (r, rowSum mat.entries r))

/-- Loop state of `checksum_interp`: the flag `ret` and the lines printed (row and sum). -/
structure ChecksumState where
  ret : Bool
  printed : List (Int × ℚ)

/-- One iteration of the loop of `checksum_interp`. -/
def checksumStep (epsilon : ℚ) (s : ChecksumState) (rs : Int × ℚ) : ChecksumState :=
  if |rs.2 - 1| > epsilon then { ret := false, printed := s.printed ++ [rs] } else s

/-- The loop of `checksum_interp` over the row sums. -/
def checksumLoop (mat : VectorSparseMatrix) (epsilon : ℚ) : ChecksumState :=
  mat.sum_per_row_map.foldl (checksumStep epsilon) { ret := true, printed := [] }

/-- `checksum_interp`: the loop, then `return false;`. The value returned and the lines
printed. -/
def checksum_interp (mat : VectorSparseMatrix) (epsilon : ℚ) : Bool × List (Int × ℚ) :=
  let s := checksumLoop mat epsilon
  (false, s.printed)

/-- The 1 by 1 matrix with the single entry 1. -/
def identity1 : VectorSparseMatrix := ⟨1, 1, [⟨0, 0, 1⟩]⟩

/-- The shoelace term of the edge from `p` to `q`. -/
def crossTerm (p q : ℚ × ℚ) : ℚ := p.1 * q.2 - q.1 * p.2

/-- Sum of the shoelace terms along the path that starts at `p` and runs through the points
of the list. -/
def chainSum (p : ℚ × ℚ) : List (ℚ × ℚ) → ℚ
  | [] => 0
  | q :: rest => crossTerm p q + chainSum q rest

/-- Sum of the shoelace terms along the path through the points of the list. -/
def pathSum : List (ℚ × ℚ) → ℚ
  | [] => 0
  | p :: rest => chainSum p rest

/-- Sum of the shoelace terms around the ring of the points of the list, closed from the last
point to the first. -/
def ringSum (pts : List (ℚ × ℚ)) : ℚ :=
  match pts.getLast? with
  | none => 0
  | some last => chainSum last pts

/-- The unprojected coordinates of a vertex. -/
def Vertex.point (v : Vertex) : ℚ × ℚ := (v.x, v.y)

/-! ## MatrixMaker.cpp: I3XTranslator and the constraints of ice_to_hp -/

/-- The part of `HCIndex` (declared outside `MatrixMaker.cpp`) that `I3XTranslator` uses:
`ik_to_index(i1, k)` and `index_to_ik(i3, i1, k)`, the latter returning the pair `(i1, k)`. -/
structure HCIndex where
  ik_to_index : Int → Int → Int
  index_to_ik : Int → Int × Int

/-- Mirror of `class I3XTranslator`. -/
structure I3XTranslator where
  hc_index : HCIndex
  nhc : Int

/-- `I3XTranslator::i3x_to_i3`; `/` is the division of `int`. -/
def I3XTranslator.i3x_to_i3 (t : I3XTranslator) (i3x : Int) : Int :=
  let i1 := Int.tdiv i3x t.nhc
  let k := i3x - i1 * t.nhc
  t.hc_index.ik_to_index i1 k

/-- `I3XTranslator::i3_to_i3x`. -/
def I3XTranslator.i3_to_i3x (t : I3XTranslator) (i3 : Int) : Int :=
  let ik := t.hc_index.index_to_ik i3
  let i3x := ik.1 * t.nhc + ik.2
  i3x

/-- The loop of `ice_to_hp` that finds `max_k` over the used height points. -/
def maxHeightClass (hc : HCIndex) (used3 : List Int) : Int :=
  used3.foldl (fun max_k p3 => max (hc.index_to_ik p3).2 max_k) 0

/-- `I3XTranslator trans3x(&*hc_index, max_k + 1)` of `ice_to_hp`. -/
def trans3x (hc : HCIndex) (used3 : List Int) : I3XTranslator :=
  { hc_index := hc, nhc := maxHeightClass hc used3 + 1 }

/-- The loop of `ice_to_hp` that divides `Sp` by `area1p`: `ii.val() *= area1p_inv(i1p)`. -/
def scaleRows (Sp : List Entry) (area1p_inv : Int → ℚ) : List Entry :=
  Sp.map (fun ii => { ii with value := ii.value * area1p_inv ii.row })

/-- The loops of `ice_to_hp` that fill `qpt.C`: every element is set to 0, then
`qpt.C[i1p] -= f2p(i2p) * ii.val()` for every entry of `Sp`. -/
def constraintRhs (Sp : List Entry) (f2p : Int → ℚ) : Int → ℚ :=
  Sp.foldl (fun C ii => Function.update C ii.row (C ii.row - f2p ii.col * ii.value))
    (fun _ => 0)

/-- The product `Sp * f2p` at row `i1p`: the sum over the entries of `Sp` in that row of
`Sp(i1p, i2p) * f2p(i2p)`. -/
def rowDot (Sp : List Entry) (f2p : Int → ℚ) (i1p : Int) : ℚ :=
  ((entriesOfRow Sp i1p).map (fun ii => ii.value * f2p ii.col)).sum

/-- A height-class index with 4 height classes per cell: `i3 = 4 * i1 + k`. -/
def hcIndex4 : HCIndex :=
  { ik_to_index := fun i1 k => 4 * i1 + k
    index_to_ik := fun i3 => (i3 / 4, i3 % 4) }

/-! ## MatrixMaker.cpp: the sheet names attribute and parse_comma_list

A `std::string` is the list of its characters. -/

/-- The loop of `netcdf_define` that builds `sheet_names`, from the iterator position
`sheet` on: the name is appended, and a comma unless the next position is the end. The
loop dereferences `sheets.begin()` without a test, so an empty map is undefined
behaviour (`none`). -/
def sheetNamesLoop : List (List Char) → List Char → Option (List Char)
  | [], _ => none
  | [name], sheet_names => some (sheet_names ++ name)
  | name :: next :: rest, sheet_names =>
    sheetNamesLoop (next :: rest) (sheet_names ++ name ++ [','])

/-- The value of the attribute `sheetnames` written by `netcdf_define`. -/
def sheetNames (sheets : List (List Char)) : Option (List Char) :=
  sheetNamesLoop sheets []

/-- A `std::stringstream` that is only read: the characters not yet extracted and the state
bits `eofbit` and `failbit`. -/
structure StringStream where
  buf : List Char
  eofbit : Bool
  failbit : Bool
deriving DecidableEq, Repr

/-- `std::stringstream ss(list)`. -/
def StringStream.ofString (list : List Char) : StringStream :=
  { buf := list, eofbit := false, failbit := false }

/-- `ss.good()`: no state bit is set. -/
def StringStream.good (ss : StringStream) : Bool :=
  !ss.eofbit && !ss.failbit

/-- Extraction of `getline`: the characters before the first `delim`, and the characters
after it; `none` when the end of the buffer is reached before a delimiter. -/
def extractUntil (delim : Char) : List Char → List Char × Option (List Char)
  | [] => ([], none)
  | c :: cs =>
    if c = delim then ([], some cs)
    else ((c :: (extractUntil delim cs).1), (extractUntil delim cs).2)

/-- `getline(ss, substr, delim)` on a good stream: characters are extracted into `substr`
until the delimiter, which is extracted and discarded, or until the end of the stream,
which sets `eofbit`; `failbit` is set when nothing at all was extracted. -/
def getline (ss : StringStream) (delim : Char) : StringStream × List Char :=
  match extractUntil delim ss.buf with
  | (substr, some rest) => ({ buf := rest, eofbit := false, failbit := false }, substr)
  | (substr, none) => ({ buf := [], eofbit := true, failbit := substr.isEmpty }, substr)

/-- The loop `while (ss.good()) { getline(ss, substr, ','); result.push_back(substr); }`
with `fuel` iterations allowed; `none` when the fuel runs out. -/
def parseLoop : Nat → StringStream → List (List Char) → Option (List (List Char))
  | 0, _, _ => none
  | fuel + 1, ss, result =>
    if ss.good then
      parseLoop fuel (getline ss ',').1 (result ++ [(getline ss ',').2])
    else some result

/-- `parse_comma_list(list)`; the loop is given one iteration more than the string has
characters, and one more for the final test. -/
def parse_comma_list (list : List Char) : Option (List (List Char)) :=
  parseLoop (list.length + 2) (StringStream.ofString list) []

/-- The fields of a string as the claim describes them: the parts between consecutive
commas, the string start and the string end. -/
def splitFields : List Char → List (List Char)
  | [] => [[]]
  | c :: cs =>
    if c = ',' then [] :: splitFields cs
    else (c :: (splitFields cs).headD []) :: (splitFields cs).tail

/-! ## MatrixMaker.cpp: the packed vector spaces of ice_to_hp -/

/-- Modelled from the spec: `giss::IndexTranslator` and `giss::IndexTranslator2` are
included by `MatrixMaker.cpp` but are not part of the sources; the specification describes
them as built from the full-domain size (for the 2-key variant the size of each group) and
the set of identifiers used, assigning each used identifier a unique packed index in
`0 .. k-1`. The translator keeps the size it was given and the used identifiers in the order
in which their packed indices were assigned. -/
structure IndexTranslator (σ α : Type) where
  size_a : σ
  _b2a : List α

/-- Modelled from the spec: `IndexTranslator::init(size, used)`; the used identifiers get
the packed indices `0, 1, ...` in the iteration order of the set, given as the list `used`. -/
def IndexTranslator.init {σ α : Type} (size_a : σ) (used : List α) : IndexTranslator σ α :=
  { size_a := size_a, _b2a := used }

/-- Modelled from the spec: `nb()`, the number of packed indices. -/
def IndexTranslator.nb {σ α : Type} (t : IndexTranslator σ α) : Nat :=
  t._b2a.length

/-- Modelled from the spec: `a2b(a)`, the packed index of a full identifier; it fails
(`none`) for an identifier that is not in the used set. -/
def IndexTranslator.a2b {σ α : Type} [DecidableEq α] (t : IndexTranslator σ α) (a : α) :
    Option Nat :=
  if a ∈ t._b2a then some (t._b2a.indexOf a) else none

/-- Modelled from the spec: `b2a(b)`, the full identifier of a packed index; it fails
(`none`) for an index that is not below `nb()`. -/
def IndexTranslator.b2a {σ α : Type} (t : IndexTranslator σ α) (b : Nat) : Option α :=
  t._b2a[b]?

/-- The sets `used1`, `used2` and `used3` of `ice_to_hp`. -/
structure UsedSets where
  used1 : List Int
  used2 : List (Int × Int)
  used3 : List Int

/-- Inclusion of the three used sets. -/
def UsedSets.le (u v : UsedSets) : Prop :=
  u.used1 ⊆ v.used1 ∧ u.used2 ⊆ v.used2 ∧ u.used3 ⊆ v.used3

/-- What `ice_to_hp` reads of one ice sheet: its `index`, `n2()`, and the entries of the
matrices `S` (ice to atmosphere) and `XM` (height points to ice). -/
structure SheetMatrices where
  index : Int
  n2 : Nat
  S : List Entry
  XM : List Entry

/-- The loop of `ice_to_hp` over `RM0`: `used1.insert(ii.row()); used3.insert(ii.col())`. -/
def usedOfRM0 (RM0 : List Entry) (u : UsedSets) : UsedSets :=
  RM0.foldl (fun u ii =>
    { u with used1 := u.used1.insert ii.row, used3 := u.used3.insert ii.col }) u

/-- The loop of `ice_to_hp` over `S`:
`used1.insert(ii.row()); used2.insert(make_pair(sheet->index, ii.col()))`. -/
def usedOfS (index : Int) (S : List Entry) (u : UsedSets) : UsedSets :=
  S.foldl (fun u ii =>
    { u with used1 := u.used1.insert ii.row, used2 := u.used2.insert (index, ii.col) }) u

/-- The loop of `ice_to_hp` over `XM`:
`used2.insert(make_pair(sheet->index, ii.row())); used3.insert(ii.col())`. -/
def usedOfXM (index : Int) (XM : List Entry) (u : UsedSets) : UsedSets :=
  XM.foldl (fun u ii =>
    { u with used2 := u.used2.insert (index, ii.row), used3 := u.used3.insert ii.col }) u

/-- The sets `used1`, `used2`, `used3` after the loop over `RM0` and the loop over the ice
sheets of `f2s`. -/
def usedSets (RM0 : List Entry) (sheets : List SheetMatrices) : UsedSets :=
  sheets.foldl (fun u sheet => usedOfXM sheet.index sheet.XM (usedOfS sheet.index sheet.S u))
    (usedOfRM0 RM0 ⟨[], [], []⟩)

/-- The loop of `ice_to_hp` that fills `used3x`: `used3x.insert(trans3x.i3_to_i3x(*p3))`. -/
def usedSet3x (t : I3XTranslator) (used3 : List Int) : List Int :=
  used3.foldl (fun used3x p3 => used3x.insert (t.i3_to_i3x p3)) []

/-- The map `size2` of `ice_to_hp`: `size2[sheet->index] = sheet->n2()`. -/
def sizeMap2 (sheets : List SheetMatrices) : List (Int × Nat) :=
  sheets.map (fun sheet => (sheet.index, sheet.n2))

/-- The translators that `ice_to_hp` sets up: `trans3x`, `trans_1_1p`, `trans_2_2p` and
`trans_3x_3p`. -/
structure PackedSpaces where
  trans3x : I3XTranslator
  trans_1_1p : IndexTranslator Int Int
  trans_2_2p : IndexTranslator (List (Int × Nat)) (Int × Int)
  trans_3x_3p : IndexTranslator Int Int

/-- The set-up of the packed vector spaces in `ice_to_hp`, for the full sizes `n1()` and
`n3()`. -/
def packedSpaces (hc : HCIndex) (n1 n3 : Int) (RM0 : List Entry)
    (sheets : List SheetMatrices) : PackedSpaces :=
  let u := usedSets RM0 sheets
  let t := trans3x hc u.used3
  { trans3x := t
    trans_1_1p := IndexTranslator.init n1 u.used1
    trans_2_2p := IndexTranslator.init (sizeMap2 sheets) u.used2
    trans_3x_3p := IndexTranslator.init n3 (usedSet3x t u.used3) }

/-- `n1p = trans_1_1p.nb()`. -/
def PackedSpaces.n1p (p : PackedSpaces) : Nat := p.trans_1_1p.nb

/-- `n2p = trans_2_2p.nb()`. -/
def PackedSpaces.n2p (p : PackedSpaces) : Nat := p.trans_2_2p.nb

/-- `n3p = trans_3x_3p.nb()`. -/
def PackedSpaces.n3p (p : PackedSpaces) : Nat := p.trans_3x_3p.nb

/-- The arguments of `RMp.add` in the loop over `RM`: the translated row, the translated
column and the value. -/
def PackedSpaces.translateRM (p : PackedSpaces) (RM : List Entry) :
    List (Option Nat × Option Nat × ℚ) :=
  RM.map (fun ii =>
    (p.trans_1_1p.a2b ii.row, p.trans_3x_3p.a2b (p.trans3x.i3_to_i3x ii.col), ii.value))

/-- The arguments of `Sp.add` in the loop over the matrix `S` of one ice sheet. -/
def PackedSpaces.translateS (p : PackedSpaces) (index : Int) (S : List Entry) :
    List (Option Nat × Option Nat × ℚ) :=
  S.map (fun ii => (p.trans_1_1p.a2b ii.row, p.trans_2_2p.a2b (index, ii.col), ii.value))

/-- The arguments of `XMp.add` in the loop over the matrix `XM` of one ice sheet. -/
def PackedSpaces.translateXM (p : PackedSpaces) (index : Int) (XM : List Entry) :
    List (Option Nat × Option Nat × ℚ) :=
  XM.map (fun ii =>
    (p.trans_2_2p.a2b (index, ii.row), p.trans_3x_3p.a2b (p.trans3x.i3_to_i3x ii.col),
      ii.value))

/-- A translated entry whose row lies in `[0, nrow)` and whose column lies in `[0, ncol)`. -/
def InPacked (nrow ncol : Nat) (e : Option Nat × Option Nat × ℚ) : Prop :=
  (∃ r, e.1 = some r ∧ r < nrow) ∧ (∃ c, e.2.1 = some c ∧ c < ncol)

/-- One ice sheet with index 7: `S` has an entry at atmosphere cell 5 and ice cell 11, `XM`
an entry at ice cell 11 and height point 9. -/
def sheet7 : SheetMatrices :=
  { index := 7, n2 := 20, S := [⟨5, 11, 1⟩], XM := [⟨11, 9, 1⟩] }

/-! ## hntr.hpp: regrid1 -/

/-- Modelled from the spec: the body of `Hntr::regrid1` is not part of `hntr.hpp`, which only
declares it; the specification describes it as the dense equivalent of the algorithm of
`matrix`, accumulating per destination cell the sum of the weighted source values and the
sum of the weights, and setting cells of zero total weight to the missing-value constant.
This is the pass over the destination cells: the loops are those of `matrix`; for every
destination cell `WEIGHT` accumulates `F * G * WTA(IJA)` and `VALUE` accumulates
`F * G * WTA(IJA) * A(IJA)`, and `B(IJB)` is set to `DATMIS` when `WEIGHT` is 0 and to
`VALUE / WEIGHT` otherwise. The state is the array `B` and the total weight of each
destination cell, which the polar averaging needs. -/
def Hntr.regridCells (h : Hntr) (WTA A : Int → ℚ) (BW : (Int → ℚ) × (Int → ℚ)) :
    (Int → ℚ) × (Int → ℚ) :=
  forLoop 1 h.Bgrid.jm (fun JB BW =>
    let JAMIN := h.JMIN JB
    let JAMAX := h.JMAX JB
    forLoop 1 h.Bgrid.im (fun IB BW =>
      let IJB := IB + h.Bgrid.im * (JB - 1)
      let IAMIN := h.IMIN IB
      let IAMAX := h.IMAX IB
      let acc : ℚ × ℚ := forLoop JAMIN JAMAX (fun JA acc =>
        let G := h.SINA JA - h.SINA (JA - 1)
        let G := if JA = JAMIN then G - h.GMIN JB else G
        let G := if JA = JAMAX then G - h.GMAX JB else G
        forLoop IAMIN IAMAX (fun IAREV acc =>
          let IA := 1 + Int.tmod (IAREV - 1) h.Agrid.im
          let IJA := IA + h.Agrid.im * (JA - 1)
          let F : ℚ := 1
          let F := if IAREV = IAMIN then F - h.FMIN IB else F
          let F := if IAREV = IAMAX then F - h.FMAX IB else F
          (acc.1 + F * G * WTA IJA, acc.2 + F * G * WTA IJA * A IJA)) acc) (0, 0)
      (Function.update BW.1 IJB (if acc.1 = 0 then h.DATMIS else acc.2 / acc.1),
        Function.update BW.2 IJB acc.1)) BW) BW

/-- Modelled from the spec: the post-processing of one polar destination row `JB` that
`mean_polar` asks for. The specification has the individual values of the row replaced by
their weight-averaged longitudinal mean: every cell of the row gets the mean of the values
of the row, each weighted by the total weight `W` of its cell, and the missing-value
constant when the total weight of the row is 0. -/
def Hntr.polarMean (h : Hntr) (B W : Int → ℚ) (JB : Int) : Int → ℚ :=
  let acc : ℚ × ℚ := forLoop 1 h.Bgrid.im (fun IB acc =>
    let IJB := IB + h.Bgrid.im * (JB - 1)
    (acc.1 + W IJB, acc.2 + W IJB * B IJB)) (0, 0)
  let BMEAN := if acc.1 = 0 then h.DATMIS else acc.2 / acc.1
  forLoop 1 h.Bgrid.im (fun IB B =>
    let IJB := IB + h.Bgrid.im * (JB - 1)
    Function.update B IJB BMEAN) B

/-- Modelled from the spec: `Hntr::regrid1(WTA, A, B, mean_polar)`, declared in `hntr.hpp`
without its body. The pass over the destination cells, and then, when `mean_polar` is set,
the polar averaging of the polar-most destination rows: the first row, `JB = 1`, and the
last row, `JB = Bgrid.jm`. -/
def Hntr.regrid1 (h : Hntr) (WTA A B : Int → ℚ) (mean_polar : Bool) : Int → ℚ :=
  let BW := h.regridCells WTA A (B, fun _ => 0)
  if mean_polar then h.polarMean (h.polarMean BW.1 BW.2 1) BW.2 h.Bgrid.jm
  else BW.1

/-- The source cells overlapping the destination cell `(IB, JB)`: the source rows `JA` and
unfolded source columns `IAREV` of its inclusive ranges. -/
def Hntr.cellOverlaps (h : Hntr) (JB IB : Int) : List (Int × Int) :=
  (intRange (h.JMIN JB) (h.JMAX JB)).flatMap fun JA =>
    (intRange (h.IMIN IB) (h.IMAX IB)).map fun IAREV => (JA, IAREV)

/-- The 1-based index of the source cell in row `JA` and folded column of `IAREV`. -/
def Hntr.sourceIndex (h : Hntr) (JA IAREV : Int) : Int :=
  1 + Int.tmod (IAREV - 1) h.Agrid.im + h.Agrid.im * (JA - 1)

/-- The total weight `sum(WTA * F * G)` over the source cells overlapping `(IB, JB)`. -/
def Hntr.cellWeight (h : Hntr) (WTA : Int → ℚ) (JB IB : Int) : ℚ :=
  ((h.cellOverlaps JB IB).map fun p =>
    WTA (h.sourceIndex p.1 p.2) * h.lonFraction IB p.2 * h.latFraction JB p.1).sum

/-- The weighted total `sum(WTA * F * G * A)` over the source cells overlapping `(IB, JB)`. -/
def Hntr.cellValue (h : Hntr) (WTA A : Int → ℚ) (JB IB : Int) : ℚ :=
  ((h.cellOverlaps JB IB).map fun p =>
    WTA (h.sourceIndex p.1 p.2) * h.lonFraction IB p.2 * h.latFraction JB p.1
      * A (h.sourceIndex p.1 p.2)).sum

/-- Modelled from the spec: the constructor of `Hntr`, which fills the tables, is not part of
`hntr.hpp`. Overlap tables between a source grid of 2 by 1 cells and a destination grid of a
single cell on the same global domain: the destination cell covers both source cells
whole, and the sines of latitude of the row edges are `-1` and `1`. -/
def hntr21 : Hntr :=
  { Agrid := ⟨2, 1, 0, 10800⟩
    Bgrid := ⟨1, 1, 0, 10800⟩
    SINA := fun j => 2 * j - 1
    SINB := fun j => 2 * j - 1
    FMIN := fun _ => 0
    FMAX := fun _ => 0
    IMIN := fun _ => 1
    IMAX := fun _ => 2
    GMIN := fun _ => 0
    GMAX := fun _ => 0
    JMIN := fun _ => 1
    JMAX := fun _ => 1
    DATMIS := -999 }

/-- Modelled from the spec: the constructor of `Hntr`, which fills the tables, is not part of
`hntr.hpp`. Overlap tables between two equal grids of 2 by 1 cells on the same global domain:
destination column `IB` covers the whole source column `IB`, the single destination row
the whole source row, and the sines of latitude of the row edges are `-1` and `1`. -/
def hntr22 : Hntr :=
  { Agrid := ⟨2, 1, 0, 10800⟩
    Bgrid := ⟨2, 1, 0, 10800⟩
    SINA := fun j => 2 * j - 1
    SINB := fun j => 2 * j - 1
    FMIN := fun _ => 0
    FMAX := fun _ => 0
    IMIN := fun i => i
    IMAX := fun i => i
    GMIN := fun _ => 0
    GMAX := fun _ => 0
    JMIN := fun _ => 1
    JMAX := fun _ => 1
    DATMIS := -999 }

/-- The source field with the values 2 and 4 in the cells 1 and 2. -/
def field24 : Int → ℚ := fun IJA => if IJA = 1 then 2 else 4

/-! ## MatrixMaker.cpp: remove_small_constraints -/

/-- The sets `delete_row` and `delete_col` of `remove_small_constraints`. -/
structure DeleteSets where
  delete_row : List Int
  delete_col : List Int
deriving DecidableEq, Repr

/-- The two tests shared by the three loops of `remove_small_constraints`, after which the
loop continues with the next entry: the row is in `delete_row`, or the column is in
`delete_col`. -/
def DeleteSets.skips (ds : DeleteSets) (oi : Entry) : Bool :=
  decide (oi.row ∈ ds.delete_row) || decide (oi.col ∈ ds.delete_col)

/-- The element `v[i]` of a `std::vector<int>`; `none` when `i` is out of bounds. -/
def readAt (v : List Int) (i : Int) : Option Int :=
  if 0 ≤ i then v[i.toNat]? else none

/-- One iteration of the counting loop: `++row_count[oi.row()]` unless the entry is
skipped; `none` when `row_count` is indexed out of bounds. -/
def countStep (ds : DeleteSets) (row_count : List Int) (oi : Entry) : Option (List Int) :=
  if ds.skips oi then some row_count
  else
    match readAt row_count oi.row with
    | some n => some (row_count.set oi.row.toNat (n + 1))
    | none => none

/-- The counting loop over the entries that remain to be visited. -/
def countLoop (ds : DeleteSets) : List Entry → List Int → Option (List Int)
  | [], row_count => some row_count
  | oi :: rest, row_count =>
    match countStep ds row_count oi with
    | some row_count => countLoop ds rest row_count
    | none => none

/-- One iteration of the loop that adds to the deletion sets; the state is the two sets and
`num_deleted`. The sets grow while the loop runs. `none` when `row_count` is indexed out of
bounds. -/
def markStep (row_count : List Int) (min_row_count : Int) (st : DeleteSets × Int)
    (oi : Entry) : Option (DeleteSets × Int) :=
  if st.1.skips oi then some st
  else
    match readAt row_count oi.row with
    | some n =>
      if n < min_row_count then
        some (⟨st.1.delete_row.insert oi.row, st.1.delete_col.insert oi.col⟩, st.2 + 1)
      else some st
    | none => none

/-- The loop that adds to the deletion sets, over the entries that remain to be visited. -/
def markLoop (row_count : List Int) (min_row_count : Int) :
    List Entry → DeleteSets × Int → Option (DeleteSets × Int)
  | [], st => some st
  | oi :: rest, st =>
    match markStep row_count min_row_count st oi with
    | some st => markLoop row_count min_row_count rest st
    | none => none

/-- One round of the `for (;;)` loop of `remove_small_constraints`: `row_count` is cleared
and resized to `nrow` zeros, the rows are counted, and the deletion sets are extended; the
result is the new sets and `num_deleted`. The `int` counters are unbounded integers here. -/
def deletionRound (in_constraints : VectorSparseMatrix) (min_row_count : Int)
    (ds : DeleteSets) : Option (DeleteSets × Int) :=
  match countLoop ds in_constraints.entries (List.replicate in_constraints.nrow.toNat 0) with
  | some row_count => markLoop row_count min_row_count in_constraints.entries (ds, 0)
  | none => none

/-- How the `for (;;)` loop of `remove_small_constraints` ends: it stops with the final
deletion sets after a number of rounds, it indexes `row_count` out of bounds, or the rounds
allowed are used up. -/
inductive DeletionResult where
  | done (ds : DeleteSets) (rounds : Nat)
  | outOfBounds
  | outOfFuel
deriving DecidableEq, Repr

/-- The `for (;;)` loop of `remove_small_constraints` with `fuel` rounds allowed, after
`rounds` rounds: it stops after the round in which `num_deleted` is 0. -/
def deletionLoop (in_constraints : VectorSparseMatrix) (min_row_count : Int) :
    Nat → DeleteSets → Nat → DeletionResult
  | 0, _, _ => .outOfFuel
  | fuel + 1, ds, rounds =>
    match deletionRound in_constraints min_row_count ds with
    | none => .outOfBounds
    | some (ds, num_deleted) =>
      if num_deleted = 0 then .done ds (rounds + 1)
      else deletionLoop in_constraints min_row_count fuel ds (rounds + 1)

/-- Modelled from the spec: `giss::VectorSparseMatrix::set` is not part of
`MatrixMaker.cpp`; the specification has a matrix store its entries in a list to which an
entry is appended. `set(row, col, val)` stores the value at the coordinates: an entry
already stored at these coordinates is replaced, otherwise the entry is appended. -/
def VectorSparseMatrix.set (mat : VectorSparseMatrix) (row col : Int) (val : ℚ) :
    VectorSparseMatrix :=
  { mat with
    entries := mat.entries.filter (fun e => !(decide (e.row = row) && decide (e.col = col)))
      ++ [⟨row, col, val⟩] }

/-- The copying loop of `remove_small_constraints`. -/
def copyLoop (ds : DeleteSets) (entries : List Entry) (out_constraints : VectorSparseMatrix) :
    VectorSparseMatrix :=
  entries.foldl (fun out_constraints oi =>
    if ds.skips oi then out_constraints
    else out_constraints.set oi.row oi.col oi.value) out_constraints

/-- `remove_small_constraints(in_constraints, min_row_count)` with `fuel` rounds allowed for
the deletion loop; `none` when the loop does not stop with deletion sets. The output matrix
is created with the dimensions of the input. -/
def remove_small_constraints (fuel : Nat) (in_constraints : VectorSparseMatrix)
    (min_row_count : Int) : Option VectorSparseMatrix :=
  match deletionLoop in_constraints min_row_count fuel ⟨[], []⟩ 0 with
  | .done ds _ =>
    some (copyLoop ds in_constraints.entries ⟨in_constraints.nrow, in_constraints.ncol, []⟩)
  | _ => none

/-- A matrix whose row indices lie in `[0, nrow)`. -/
def VectorSparseMatrix.RowsInRange (mat : VectorSparseMatrix) : Prop :=
  ∀ e ∈ mat.entries, 0 ≤ e.row ∧ e.row < mat.nrow

/-- A matrix without duplicate coordinates. -/
def VectorSparseMatrix.NoDuplicates (mat : VectorSparseMatrix) : Prop :=
  (mat.entries.map (fun e => (e.row, e.col))).Nodup

/-- The entries of a list that the loops of `remove_small_constraints` do not skip. -/
def DeleteSets.kept (ds : DeleteSets) (entries : List Entry) : List Entry :=
  entries.filter (fun e => !ds.skips e)

/-- A constraint matrix of 3 rows and 3 columns: row 0 has the columns 0 and 1, row 1 the
column 2, row 2 the columns 0 and 1. -/
def constraints33 : VectorSparseMatrix :=
  ⟨3, 3, [⟨0, 0, 1⟩, ⟨0, 1, 2⟩, ⟨1, 2, 3⟩, ⟨2, 0, 4⟩, ⟨2, 1, 5⟩]⟩

/-! # Theorems -/

/-! ## Grid::filter_cells -/

theorem filterCellsLoop_cells (P : Cell → Bool) (l : List (Int × Cell)) (mx : Int)
    (good : List Int) :
    (filterCellsLoop P l mx good).cells = l.filter (fun kc => P kc.2) := by
  induction l generalizing mx good with
  | nil => rfl
  | cons kc rest ih =>
    obtain ⟨key, cell⟩ := kc
    by_cases hP : P cell = true
    · simp [filterCellsLoop, hP, ih]
    · simp [filterCellsLoop, hP, ih]

/-- The cell map after `filter_cells(P)`: the entries whose cell satisfies `P`, in order. -/
theorem filter_cells_cells_eq (g : Grid) (P : Cell → Bool) :
    (g.filter_cells P).cells._cells = g.cells._cells.filter (fun kc => P kc.2) := by
  simp [Grid.filter_cells, filterCellsLoop_cells]

theorem mem_filter_cells_cells (g : Grid) (P : Cell → Bool) (kc : Int × Cell) :
    kc ∈ (g.filter_cells P).cells._cells ↔ (kc ∈ g.cells._cells ∧ P kc.2 = true) := by
  rw [filter_cells_cells_eq, List.mem_filter]

/-- C1. After `filter_cells(P)` the realized cells are exactly the cells realized before
the call that satisfy `P`: every remaining cell satisfies `P`, no cell satisfying `P` is
removed, and each retained cell stays under its old key with its index and vertex list
(indeed every field) unchanged, in the same iteration order. -/
theorem filter_cells_retains_exactly (g : Grid) (P : Cell → Bool) :
    (∀ key cell, (key, cell) ∈ (g.filter_cells P).cells._cells → P cell = true) ∧
    (∀ key cell, (key, cell) ∈ g.cells._cells → P cell = true →
      (key, cell) ∈ (g.filter_cells P).cells._cells) ∧
    (∀ key cell, (key, cell) ∈ (g.filter_cells P).cells._cells → (key, cell) ∈ g.cells._cells) ∧
    (g.filter_cells P).cells._cells = g.cells._cells.filter (fun kc => P kc.2) := by
  refine ⟨?_, ?_, ?_, filter_cells_cells_eq g P⟩
  · intro key cell h
    exact ((mem_filter_cells_cells g P (key, cell)).1 h).2
  · intro key cell h hP
    exact (mem_filter_cells_cells g P (key, cell)).2 ⟨h, hP⟩
  · intro key cell h
    exact ((mem_filter_cells_cells g P (key, cell)).1 h).1

/-- Witness for C1: filtering `twoCellGrid` with "index is 1" keeps cell 1, unchanged, and
removes cell 0. -/
theorem filter_cells_retains_exactly_witness :
    (1, (⟨[⟨1, 1, 0⟩, ⟨2, 1, 1⟩], 1, 0, -1, -1, -1⟩ : Cell)) ∈ twoCellGrid.cells._cells ∧
    (1, (⟨[⟨1, 1, 0⟩, ⟨2, 1, 1⟩], 1, 0, -1, -1, -1⟩ : Cell))
      ∈ (twoCellGrid.filter_cells (fun c => c.index == 1)).cells._cells ∧
    (twoCellGrid.filter_cells (fun c => c.index == 1)).cells._cells
      = [(1, ⟨[⟨1, 1, 0⟩, ⟨2, 1, 1⟩], 1, 0, -1, -1, -1⟩)] :=
  ⟨by decide,
    (filter_cells_retains_exactly twoCellGrid (fun c => c.index == 1)).2.1 1
      ⟨[⟨1, 1, 0⟩, ⟨2, 1, 1⟩], 1, 0, -1, -1, -1⟩ (by decide) (by decide),
    by decide⟩

theorem mem_insertGoodVertices (vs : List Vertex) (good : List Int) (n : Int) :
    n ∈ insertGoodVertices good vs ↔ n ∈ good ∨ ∃ v ∈ vs, toInt v.index = n := by
  induction vs generalizing good with
  | nil => simp [insertGoodVertices]
  | cons v rest ih =>
    have := ih (good.insert (toInt v.index))
    simp only [insertGoodVertices, List.foldl_cons] at this ⊢
    rw [this]
    simp only [List.mem_insert_iff, List.mem_cons, exists_eq_or_imp]
    constructor
    · rintro ((h | h) | h)
      · exact Or.inr (Or.inl h.symm)
      · exact Or.inl h
      · exact Or.inr (Or.inr h)
    · rintro (h | h | h)
      · exact Or.inl (Or.inr h)
      · exact Or.inl (Or.inl h.symm)
      · exact Or.inr h

theorem mem_filterCellsLoop_good (P : Cell → Bool) (l : List (Int × Cell)) (mx : Int)
    (good : List Int) (n : Int) :
    n ∈ (filterCellsLoop P l mx good).good_vertices ↔
      n ∈ good ∨ ∃ kc ∈ l, P kc.2 = true ∧ ∃ v ∈ kc.2._vertices, toInt v.index = n := by
  induction l generalizing mx good with
  | nil => simp [filterCellsLoop]
  | cons kc rest ih =>
    obtain ⟨key, cell⟩ := kc
    by_cases hP : P cell = true
    · simp only [filterCellsLoop, hP, if_true, ih, mem_insertGoodVertices, List.mem_cons,
        exists_eq_or_imp, true_and]
      constructor
      · rintro ((h | h) | h)
        · exact Or.inl h
        · exact Or.inr (Or.inl h)
        · exact Or.inr (Or.inr h)
      · rintro (h | h | h)
        · exact Or.inl (Or.inl h)
        · exact Or.inl (Or.inr h)
        · exact Or.inr h
    · have hP' : P cell = false := by simpa using hP
      simp only [filterCellsLoop, hP', Bool.false_eq_true, if_false, ih, List.mem_cons,
        exists_eq_or_imp, false_and, false_or]

theorem filterVerticesLoop_fst (good : List Int) (l : List (Int × Vertex)) (mx : Int) :
    (filterVerticesLoop good l mx).1 = l.filter (fun kv => decide (toInt kv.2.index ∈ good)) := by
  induction l generalizing mx with
  | nil => rfl
  | cons kv rest ih =>
    obtain ⟨key, vertex⟩ := kv
    by_cases h : toInt vertex.index ∈ good
    · simp [filterVerticesLoop, h, ih]
    · simp [filterVerticesLoop, h, ih]

/-- What `filter_cells` keeps of the vertex map: the vertices whose index, narrowed to `int`,
equals the narrowed index of a vertex of a retained cell. -/
theorem filter_cells_vertices_iff (g : Grid) (P : Cell → Bool) (key : Int) (vertex : Vertex) :
    (key, vertex) ∈ (g.filter_cells P).vertices._cells ↔
      ((key, vertex) ∈ g.vertices._cells ∧
        ∃ kc ∈ (g.filter_cells P).cells._cells, ∃ w ∈ kc.2._vertices,
          toInt w.index = toInt vertex.index) := by
  rw [filter_cells_cells_eq]
  simp only [Grid.filter_cells, filterVerticesLoop_fst, List.mem_filter, decide_eq_true_eq,
    mem_filterCellsLoop_good, List.not_mem_nil, false_or]
  constructor
  · rintro ⟨h1, kc, hkc, hP, w, hw, hwv⟩
    exact ⟨h1, kc, ⟨hkc, hP⟩, w, hw, hwv⟩
  · rintro ⟨h1, kc, ⟨hkc, hP⟩, w, hw, hwv⟩
    exact ⟨h1, kc, hkc, hP, w, hw, hwv⟩

theorem toInt_of_fits (z : Int) (h1 : -2147483648 ≤ z) (h2 : z ≤ 2147483647) : toInt z = z := by
  unfold toInt
  norm_num
  omega

/-- No orphan vertices when every vertex index is representable as an `int`: each vertex
left in the vertex map has the index of a vertex of some remaining cell. -/
theorem filter_cells_no_orphans_of_int_indices (g : Grid) (P : Cell → Bool)
    (hv : ∀ kv ∈ g.vertices._cells, -2147483648 ≤ kv.2.index ∧ kv.2.index ≤ 2147483647)
    (hc : ∀ kc ∈ g.cells._cells, ∀ w ∈ kc.2._vertices,
      -2147483648 ≤ w.index ∧ w.index ≤ 2147483647) :
    ∀ kv ∈ (g.filter_cells P).vertices._cells,
      ∃ kc ∈ (g.filter_cells P).cells._cells, ∃ w ∈ kc.2._vertices, w.index = kv.2.index := by
  rintro ⟨key, vertex⟩ hkv
  obtain ⟨hmem, kc, hkc, w, hw, hwv⟩ := (filter_cells_vertices_iff g P key vertex).1 hkv
  refine ⟨kc, hkc, w, hw, ?_⟩
  have hkc' : kc ∈ g.cells._cells := ((mem_filter_cells_cells g P kc).1 hkc).1
  rw [toInt_of_fits _ (hc kc hkc' w hw).1 (hc kc hkc' w hw).2,
    toInt_of_fits _ (hv _ hmem).1 (hv _ hmem).2] at hwv
  exact hwv

/-- If no cell satisfies `P`, `filter_cells(P)` empties the vertex map. -/
theorem filter_cells_vertices_empty (g : Grid) (P : Cell → Bool)
    (hP : ∀ kc ∈ g.cells._cells, P kc.2 = false) :
    (g.filter_cells P).vertices._cells = [] := by
  apply List.eq_nil_iff_forall_not_mem.2
  rintro ⟨key, vertex⟩ hkv
  obtain ⟨_, kc, hkc, _⟩ := (filter_cells_vertices_iff g P key vertex).1 hkv
  have := (mem_filter_cells_cells g P kc).1 hkc
  have h2 := hP _ this.1
  simp [this.2] at h2

/-- C2, evaluated at `orphanGrid` with the predicate that keeps every cell: the cell and
both vertices remain, and the remaining vertex with index 5 is not a vertex of any
remaining cell (the only cell has the single vertex of index `2^32 + 5`). -/
theorem filter_cells_orphan_at_orphanGrid :
    (∀ kc ∈ orphanGrid.cells._cells, ∀ w ∈ kc.2._vertices,
      (w.index, w) ∈ orphanGrid.vertices._cells) ∧
    (orphanGrid.filter_cells (fun _ => true)).vertices._cells
      = [(5, vertex5), (4294967301, vertexBig)] ∧
    (orphanGrid.filter_cells (fun _ => true)).cells._cells
      = [(0, ⟨[vertexBig], 0, 0, -1, -1, -1⟩)] ∧
    ¬ ∃ kc ∈ (orphanGrid.filter_cells (fun _ => true)).cells._cells,
        ∃ w ∈ kc.2._vertices, w.index = vertex5.index := by
  refine ⟨?_, ?_, ?_, ?_⟩
  · decide
  · decide
  · decide
  · decide

/-! ## GridMap -/

theorem GridMap.find?_eq_none_iff {T : Type} (m : GridMap T) (n : Int) :
    m.find? n = none ↔ ∀ kv ∈ m._cells, kv.1 ≠ n := by
  simp [GridMap.find?, List.find?_eq_none]

theorem GridMap.find?_eq_some_mem {T : Type} (m : GridMap T) (n : Int) (t : T)
    (h : m.find? n = some t) : (n, t) ∈ m._cells := by
  simp only [GridMap.find?, Option.map_eq_some'] at h
  obtain ⟨kv, hkv, rfl⟩ := h
  have h1 := List.find?_some hkv
  have h2 := List.mem_of_find?_eq_some hkv
  have h3 : kv.1 = n := by simpa using h1
  rw [← h3]
  exact h2

theorem GridMap.add_of_find?_none {T : Type} [Indexed T] (m : GridMap T) (cell stored : T)
    (hs : stored = if Indexed.index cell < 0 then Indexed.setIndex cell (m._cells.length : Int)
      else cell)
    (h : m.find? (Indexed.index stored) = none) :
    m.add cell = ({ m with
        _max_realized_index := max m._max_realized_index (Indexed.index stored)
        _cells := m._cells ++ [(Indexed.index stored, stored)] }, .ok stored) := by
  subst hs
  unfold GridMap.add
  simp only
  split
  · next old hold =>
    have h2 : m.find? (Indexed.index (if Indexed.index cell < 0 then
        Indexed.setIndex cell (m._cells.length : Int) else cell)) = some old := hold
    rw [h] at h2
    cases h2
  · rfl

theorem GridMap.add_of_find?_some {T : Type} [Indexed T] (m : GridMap T) (cell stored old : T)
    (hs : stored = if Indexed.index cell < 0 then Indexed.setIndex cell (m._cells.length : Int)
      else cell)
    (h : m.find? (Indexed.index stored) = some old) :
    m.add cell = ({ m with
        _max_realized_index := max m._max_realized_index (Indexed.index stored) },
      .error (.duplicateIdentifier (Indexed.index stored))) := by
  subst hs
  unfold GridMap.add
  simp only
  split
  · rfl
  · next hnone =>
    have h2 : m.find? (Indexed.index (if Indexed.index cell < 0 then
        Indexed.setIndex cell (m._cells.length : Int) else cell)) = none := hnone
    rw [h] at h2
    cases h2

theorem GridMap.add_cases {T : Type} [Indexed T] (m : GridMap T) (cell : T) :
    ∃ stored, (m.add cell).1._max_realized_index
        = max m._max_realized_index (Indexed.index stored) ∧
      (m.add cell).1._nfull = m._nfull ∧
      ((m.add cell).1._cells = m._cells ∨
        (m.add cell).1._cells = m._cells ++ [(Indexed.index stored, stored)]) := by
  refine ⟨if Indexed.index cell < 0 then Indexed.setIndex cell (m._cells.length : Int)
      else cell, ?_⟩
  cases h : m.find? (Indexed.index (if Indexed.index cell < 0 then
      Indexed.setIndex cell (m._cells.length : Int) else cell)) with
  | none => rw [GridMap.add_of_find?_none m cell _ rfl h]; exact ⟨rfl, rfl, Or.inr rfl⟩
  | some old => rw [GridMap.add_of_find?_some m cell _ old rfl h]; exact ⟨rfl, rfl, Or.inl rfl⟩

/-- Every key of a reachable map is at most the running maximum realized index. -/
theorem GridMap.Reachable.key_le_max {T : Type} [Indexed T] {m : GridMap T}
    (h : m.Reachable) : ∀ kv ∈ m._cells, kv.1 ≤ m._max_realized_index := by
  induction h with
  | empty => simp [GridMap.empty]
  | add m cell _ ih =>
    obtain ⟨stored, hmax, _, hcells⟩ := GridMap.add_cases m cell
    intro kv hkv
    rw [hmax]
    rcases hcells with hc | hc
    · rw [hc] at hkv
      exact le_trans (ih kv hkv) (le_max_left _ _)
    · rw [hc] at hkv
      rcases List.mem_append.1 hkv with h1 | h1
      · exact le_trans (ih kv h1) (le_max_left _ _)
      · simp only [List.mem_singleton] at h1
        rw [h1]
        exact le_max_right _ _
  | erase m pos _ ih =>
    intro kv hkv
    exact ih kv (List.mem_of_mem_eraseIdx hkv)
  | clear m _ _ => simp [GridMap.clear]
  | setNfull m n _ ih => exact ih

/-- C3. In a `GridMap` that already holds an entity under identifier `n ≥ 0`, `add` of a
second entity with explicit index `n` raises the duplicate-identifier error and leaves the
map as it was: `n` still maps to the first entity, and `nrealized()` and the running maximum
realized index are unchanged. -/
theorem GridMap.add_duplicate_fails {T : Type} [Indexed T] (m : GridMap T) (hm : m.Reachable)
    (n : Int) (hn : 0 ≤ n) (first second : T) (hfirst : m.find? n = some first)
    (hsecond : Indexed.index second = n) :
    (m.add second).2 = .error (.duplicateIdentifier n) ∧
    (m.add second).1 = m ∧
    (m.add second).1.find? n = some first ∧
    (m.add second).1.nrealized = m.nrealized ∧
    (m.add second).1._max_realized_index = m._max_realized_index := by
  have hs : second = if Indexed.index second < 0 then
      Indexed.setIndex second (m._cells.length : Int) else second := by
    rw [if_neg]; rw [hsecond]; omega
  have hle : n ≤ m._max_realized_index :=
    hm.key_le_max (n, first) (GridMap.find?_eq_some_mem m n first hfirst)
  have hadd := GridMap.add_of_find?_some m second second first hs (by rw [hsecond]; exact hfirst)
  rw [hsecond, max_eq_left hle] at hadd
  have hm' : (m.add second).1 = m := by rw [hadd]
  refine ⟨by rw [hadd], hm', ?_, ?_, ?_⟩
  · rw [hm']; exact hfirst
  · rw [hm']
  · rw [hm']

/-- Witness for C3: `mapOne` holds a vertex under identifier 1; adding another vertex with
index 1 fails and changes nothing. -/
theorem GridMap.add_duplicate_fails_witness :
    mapOne.Reachable ∧ (0 : Int) ≤ 1 ∧ mapOne.find? 1 = some ⟨1, 0, 0⟩ ∧
    ((mapOne.add (⟨1, 5, 6⟩ : Vertex)).2 = .error (.duplicateIdentifier 1) ∧
      (mapOne.add (⟨1, 5, 6⟩ : Vertex)).1 = mapOne ∧
      (mapOne.add (⟨1, 5, 6⟩ : Vertex)).1.find? 1 = some ⟨1, 0, 0⟩ ∧
      (mapOne.add (⟨1, 5, 6⟩ : Vertex)).1.nrealized = mapOne.nrealized ∧
      (mapOne.add (⟨1, 5, 6⟩ : Vertex)).1._max_realized_index = mapOne._max_realized_index) :=
  ⟨GridMap.Reachable.add _ _ GridMap.Reachable.empty, by decide, by rfl,
    GridMap.add_duplicate_fails mapOne (GridMap.Reachable.add _ _ GridMap.Reachable.empty)
      1 (by decide) ⟨1, 0, 0⟩ ⟨1, 5, 6⟩ (by rfl) rfl⟩

/-- The value `nfull()` returns is the field `_nfull`, whatever it holds. -/
theorem GridMap.nfull_eq_field {T : Type} (m : GridMap T) : m.nfull = m._nfull := by
  simp [GridMap.nfull]

/-- In a map whose `_nfull` was never assigned (only `add` and `erase` were called),
`nfull()` is `2^64 - 1`. -/
theorem GridMap.nfull_of_never_set {T : Type} [Indexed T] {m : GridMap T}
    (h : m.ReachableAddErase) : m.nfull = 18446744073709551615 := by
  rw [GridMap.nfull_eq_field]
  induction h with
  | empty => rfl
  | add m cell _ ih =>
    obtain ⟨_, _, hn, _⟩ := GridMap.add_cases m cell
    rw [hn, ih]
  | erase m pos _ ih => exact ih

/-- C4, evaluated at the fresh map with entities 0, 3 and 7 added: the three entities are
realized, the running maximum index is 7, and `nfull()` returns `2^64 - 1`, not 8. -/
theorem GridMap.nfull_after_adding_0_3_7 :
    map037._cells.map Prod.fst = [0, 3, 7] ∧ map037._max_realized_index = 7 ∧
    map037.nfull = 18446744073709551615 ∧ map037.nfull ≠ 8 := by
  refine ⟨by decide, by decide, by decide, by decide⟩

/-- Counterexample to C5: `mapOne` is reached from the fresh map by one `add` (of a vertex
with explicit index 1); it holds one entity, so `add` of a vertex that supplies no index
assigns it identifier 1, which is taken, and the duplicate-identifier error is raised. -/
theorem GridMap.add_auto_index_collides :
    mapOne.ReachableAddErase ∧ Indexed.index (⟨-1, 0, 0⟩ : Vertex) < 0 ∧
    mapOne.find? 1 = some ⟨1, 0, 0⟩ ∧
    (mapOne.add (⟨-1, 0, 0⟩ : Vertex)).2 = .error (.duplicateIdentifier 1) :=
  ⟨GridMap.ReachableAddErase.add _ _ GridMap.ReachableAddErase.empty, by decide, by rfl, by rfl⟩

/-- After adds that never supplied an identifier the keys are `0, 1, ..., nrealized()-1`. -/
theorem GridMap.ReachableAuto.keys {T : Type} [Indexed T] {m : GridMap T}
    (h : m.ReachableAuto) :
    m._cells.map Prod.fst = (List.range m._cells.length).map Int.ofNat := by
  induction h with
  | empty => rfl
  | add m cell hneg _ ih =>
    have hfree : m.find? (Indexed.index (Indexed.setIndex cell (m._cells.length : Int)))
        = none := by
      rw [Indexed.index_setIndex, GridMap.find?_eq_none_iff]
      intro kv hkv heq
      have h1 : kv.1 ∈ m._cells.map Prod.fst := List.mem_map_of_mem _ hkv
      rw [ih] at h1
      simp only [List.mem_map, List.mem_range] at h1
      obtain ⟨a, ha, hak⟩ := h1
      simp only [Int.ofNat_eq_coe] at hak
      omega
    rw [GridMap.add_of_find?_none m cell _ (by rw [if_pos hneg]) hfree]
    simp only [List.map_append, List.map_cons, List.map_nil, List.length_append,
      List.length_singleton, List.range_succ, Indexed.index_setIndex, ih]
    simp

/-- C5 (amended). When no realized entity has identifier `nrealized()`, `add` of an entity
that supplies no identifier succeeds: the entity is stored under identifier `nrealized()`,
which no entity already in the map has, and afterwards the running maximum realized index is
at least that identifier. Every state reached from the fresh map by adds that never supplied
an identifier is such a state. -/
theorem GridMap.add_auto_index {T : Type} [Indexed T] :
    (∀ (m : GridMap T) (cell : T), Indexed.index cell < 0 →
      m.find? (m.nrealized : Int) = none →
      (m.add cell).2 = .ok (Indexed.setIndex cell (m.nrealized : Int)) ∧
      Indexed.index (Indexed.setIndex cell (m.nrealized : Int)) = (m.nrealized : Int) ∧
      (∀ kv ∈ m._cells, kv.1 ≠ (m.nrealized : Int)) ∧
      (m.add cell).1.find? (m.nrealized : Int)
        = some (Indexed.setIndex cell (m.nrealized : Int)) ∧
      (m.add cell).1.nrealized = m.nrealized + 1 ∧
      (m.nrealized : Int) ≤ (m.add cell).1._max_realized_index) ∧
    (∀ m : GridMap T, m.ReachableAuto → m.find? (m.nrealized : Int) = none) := by
  constructor
  · intro m cell hneg hfree
    have hidx : Indexed.index (Indexed.setIndex cell (m.nrealized : Int))
        = (m.nrealized : Int) := Indexed.index_setIndex _ _
    have hadd := GridMap.add_of_find?_none m cell (Indexed.setIndex cell (m.nrealized : Int))
      (by rw [if_pos hneg]; rfl) (by rw [hidx]; exact hfree)
    rw [hidx] at hadd
    refine ⟨by rw [hadd], hidx, (GridMap.find?_eq_none_iff m _).1 hfree, ?_, ?_, ?_⟩
    · rw [hadd]
      have hnone : List.find? (fun kv : Int × T => kv.1 == (m.nrealized : Int)) m._cells
          = none := by
        simpa [GridMap.find?] using hfree
      simp [GridMap.find?, List.find?_append, hnone]
    · rw [hadd]; simp [GridMap.nrealized]
    · rw [hadd]; exact le_max_right _ _
  · intro m hm
    rw [GridMap.find?_eq_none_iff]
    intro kv hkv heq
    have h1 : kv.1 ∈ m._cells.map Prod.fst := List.mem_map_of_mem _ hkv
    rw [hm.keys] at h1
    simp only [List.mem_map, List.mem_range, GridMap.nrealized] at h1 heq
    obtain ⟨a, ha, hak⟩ := h1
    simp only [Int.ofNat_eq_coe] at hak
    omega

/-- Witness for C5 (amended): `mapAuto2` was built by two adds without identifier; a third
such add stores the vertex under identifier 2. -/
theorem GridMap.add_auto_index_witness :
    Indexed.index (⟨-1, 7, 8⟩ : Vertex) < 0 ∧ mapAuto2.ReachableAuto ∧
    mapAuto2.find? (mapAuto2.nrealized : Int) = none ∧
    (mapAuto2.add (⟨-1, 7, 8⟩ : Vertex)).2 = .ok ⟨2, 7, 8⟩ ∧
    (2 : Int) ≤ (mapAuto2.add (⟨-1, 7, 8⟩ : Vertex)).1._max_realized_index := by
  have hr : mapAuto2.ReachableAuto :=
    GridMap.ReachableAuto.add _ _ (by decide)
      (GridMap.ReachableAuto.add _ _ (by decide) GridMap.ReachableAuto.empty)
  have hfree := (GridMap.add_auto_index (T := Vertex)).2 mapAuto2 hr
  have h := (GridMap.add_auto_index (T := Vertex)).1 mapAuto2 ⟨-1, 7, 8⟩ (by decide) hfree
  exact ⟨by decide, hr, hfree, h.1, h.2.2.2.2.2⟩

/-! ## Grid::ndata -/

/-- What `ndata()` produces: `vertices.nfull()` under L1, and no value otherwise. -/
theorem Grid.ndata_eq (g : Grid) :
    g.ndata = if g.parameterization = Parameterization.L1 then some g.vertices.nfull
      else none := by
  unfold Grid.ndata
  split <;> rfl

/-- C6, evaluated at `gridL0`: the parameterization is L0 and `cells.nfull()` is 10, yet
`ndata()` produces no value. -/
theorem Grid.ndata_at_gridL0 :
    gridL0.parameterization = Parameterization.L0 ∧ gridL0.cells.nfull = 10 ∧
    gridL0.ndata = none := by
  refine ⟨rfl, by decide, by decide⟩

/-! ## Cell::proj_area -/

/-- The loop of `proj_area` adds to `ret` one shoelace term per vertex, the point before
the first vertex being the one held in `x0`, `y0` on entry. -/
theorem foldl_areaStep_ret (proj : Option Proj) (l : List Vertex) (s : AreaState) :
    (l.foldl (areaStep proj) s).ret = s.ret + ∑ n in Finset.range l.length,
      ((if n = 0 then s.x0 else (projPoint proj (l.getD (n - 1) ⟨0, 0, 0⟩)).1)
          * (projPoint proj (l.getD n ⟨0, 0, 0⟩)).2
        - (projPoint proj (l.getD n ⟨0, 0, 0⟩)).1
          * (if n = 0 then s.y0 else (projPoint proj (l.getD (n - 1) ⟨0, 0, 0⟩)).2)) := by
  induction l generalizing s with
  | nil => simp
  | cons v rest ih =>
    rw [List.foldl_cons, ih, List.length_cons, Finset.sum_range_succ']
    simp only [areaStep, if_true, List.getD_cons_zero, List.getD_cons_succ, Nat.add_sub_cancel,
      Nat.succ_ne_zero, if_false]
    have hterm : ∀ n ∈ Finset.range rest.length,
        ((if n = 0 then (projPoint proj v).1
            else (projPoint proj (rest.getD (n - 1) ⟨0, 0, 0⟩)).1)
            * (projPoint proj (rest.getD n ⟨0, 0, 0⟩)).2
          - (projPoint proj (rest.getD n ⟨0, 0, 0⟩)).1
            * (if n = 0 then (projPoint proj v).2
              else (projPoint proj (rest.getD (n - 1) ⟨0, 0, 0⟩)).2))
        = ((projPoint proj ((v :: rest).getD n ⟨0, 0, 0⟩)).1
            * (projPoint proj (rest.getD n ⟨0, 0, 0⟩)).2
          - (projPoint proj (rest.getD n ⟨0, 0, 0⟩)).1
            * (projPoint proj ((v :: rest).getD n ⟨0, 0, 0⟩)).2) := by
      intro n _
      cases n with
      | zero => simp
      | succ k => simp
    rw [Finset.sum_congr rfl hterm]
    ring

theorem getLast?_eq_getD (l : List Vertex) (h : 1 ≤ l.length) :
    l.getLast? = some (l.getD (l.length - 1) ⟨0, 0, 0⟩) := by
  rw [List.getLast?_eq_getElem?, List.getD_eq_getElem?_getD]
  have hlt : l.length - 1 < l.length := by omega
  rw [List.getElem?_eq_getElem hlt]
  rfl

/-- The value of `proj_area` for a cell with at least one vertex: half the shoelace sum of
the (optionally projected) ring. -/
theorem Cell.proj_area_eq (c : Cell) (proj : Option Proj) (h : 1 ≤ c.size) :
    c.proj_area proj = some (c.shoelaceProj proj * (1 / 2)) := by
  unfold Cell.proj_area
  rw [getLast?_eq_getD c._vertices h]
  simp only [foldl_areaStep_ret, zero_add]
  congr 2
  unfold Cell.shoelaceProj Cell.size
  apply Finset.sum_congr rfl
  intro n _
  by_cases hn : n = 0
  · simp [hn, Cell.ringPoint, Cell.prevIx, Cell.size]
  · simp [hn, Cell.ringPoint, Cell.prevIx]

/-- C7. In exact arithmetic, without projection, `proj_area` of a cell with `n ≥ 1` vertices
is one half of the sum over `i < n` of `x_{i-1} * y_i - x_i * y_{i-1}`, where the vertex before
vertex 0 is vertex `n-1`. -/
theorem Cell.proj_area_shoelace (c : Cell) (h : 1 ≤ c.size) :
    c.proj_area none = some ((1 / 2) * ∑ i in Finset.range c.size,
      (c.vx (c.prevIx i) * c.vy i - c.vx i * c.vy (c.prevIx i))) := by
  rw [Cell.proj_area_eq c none h, mul_comm]
  rfl

/-- Witness for C7: the counter-clockwise unit square has four vertices and `proj_area`
gives 1. -/
theorem Cell.proj_area_shoelace_witness :
    1 ≤ unitSquareCCW.size ∧
    unitSquareCCW.proj_area none = some ((1 / 2) * ∑ i in Finset.range unitSquareCCW.size,
      (unitSquareCCW.vx (unitSquareCCW.prevIx i) * unitSquareCCW.vy i
        - unitSquareCCW.vx i * unitSquareCCW.vy (unitSquareCCW.prevIx i))) ∧
    unitSquareCCW.proj_area none = some 1 := by
  refine ⟨by decide, Cell.proj_area_shoelace unitSquareCCW (by decide), ?_⟩
  simp [Cell.proj_area, unitSquareCCW, areaStep, projPoint]
  norm_num

/-- Counterexample to C8: the clockwise unit square has four vertices and `proj_area`
returns `-1`, which is negative and differs from the unsigned area 1. The coordinates and
every intermediate value are small integers, which `double` holds exactly. -/
theorem Cell.proj_area_clockwise_negative :
    3 ≤ unitSquareCW.size ∧ unitSquareCW.proj_area none = some (-1) ∧
    unitSquareCW.shoelaceProj none = -2 ∧
    ¬ ∃ a : ℚ, unitSquareCW.proj_area none = some a ∧ 0 ≤ a := by
  have hval : unitSquareCW.proj_area none = some (-1) := by
    simp [Cell.proj_area, unitSquareCW, areaStep, projPoint]
    norm_num
  refine ⟨by decide, hval, ?_, ?_⟩
  · have h := Cell.proj_area_eq unitSquareCW none (by decide)
    rw [hval] at h
    have h2 := Option.some.inj h
    linarith
  · rintro ⟨a, ha, hpos⟩
    rw [hval] at ha
    have h2 := Option.some.inj ha
    linarith

/-- C8 (amended). In exact arithmetic, with the coordinates and the sum as rational numbers,
for every cell with at least three vertices `proj_area` returns the signed area of the
(optionally projected) ring: half the shoelace sum. Its absolute value is half the absolute
value of the shoelace sum, it is `≥ 0` exactly when the shoelace sum is `≥ 0`, and it is
negative exactly when the shoelace sum is negative. -/
theorem Cell.proj_area_signed (c : Cell) (proj : Option Proj) (h : 3 ≤ c.size) :
    ∃ a : ℚ, c.proj_area proj = some a ∧ a = c.shoelaceProj proj / 2 ∧
      |a| = |c.shoelaceProj proj| / 2 ∧
      (0 ≤ a ↔ 0 ≤ c.shoelaceProj proj) ∧ (a < 0 ↔ c.shoelaceProj proj < 0) := by
  refine ⟨c.shoelaceProj proj * (1 / 2), Cell.proj_area_eq c proj (by omega), by ring, ?_, ?_, ?_⟩
  · rw [abs_mul, abs_of_pos (by norm_num : (0 : ℚ) < 1 / 2)]; ring
  · constructor <;> intro h1 <;> linarith
  · constructor <;> intro h1 <;> linarith

/-- Witness for C8 (amended): the clockwise unit square. -/
theorem Cell.proj_area_signed_witness :
    3 ≤ unitSquareCW.size ∧
    ∃ a : ℚ, unitSquareCW.proj_area none = some a ∧ a = unitSquareCW.shoelaceProj none / 2 ∧
      |a| = |unitSquareCW.shoelaceProj none| / 2 ∧
      (0 ≤ a ↔ 0 ≤ unitSquareCW.shoelaceProj none) ∧
      (a < 0 ↔ unitSquareCW.shoelaceProj none < 0) :=
  ⟨by decide, Cell.proj_area_signed unitSquareCW none (by decide)⟩

/-! ## Hntr::matrix -/

theorem mem_intRange (lo hi x : Int) : x ∈ intRange lo hi ↔ lo ≤ x ∧ x ≤ hi := by
  simp only [intRange, List.mem_map, List.mem_range, Int.ofNat_eq_coe]
  constructor
  · rintro ⟨n, hn, rfl⟩
    omega
  · rintro ⟨h1, h2⟩
    refine ⟨(x - lo).toNat, ?_, ?_⟩ <;> omega

theorem nodup_intRange (lo hi : Int) : (intRange lo hi).Nodup := by
  unfold intRange
  apply List.Nodup.map _ (List.nodup_range _)
  intro a b hab
  simp only [Int.ofNat_eq_coe] at hab
  omega

/-- A `for` loop whose body appends `g i` to the accumulator appends the concatenation of
the `g i` over the iterations. -/
theorem forLoopAux_append {α : Type} (g : Int → List α) (body : Int → List α → List α)
    (hb : ∀ i acc, body i acc = acc ++ g i) (n : Nat) (lo : Int) (acc : List α) :
    forLoopAux body n lo acc
      = acc ++ ((List.range n).map (fun (k : Nat) => lo + Int.ofNat k)).flatMap g := by
  induction n generalizing lo acc with
  | zero => simp [forLoopAux]
  | succ n ih =>
    rw [forLoopAux, ih, hb, List.range_succ_eq_map]
    simp only [List.map_cons, List.map_map, List.flatMap_cons, List.append_assoc,
      Int.ofNat_eq_coe, Nat.cast_zero, add_zero]
    congr 3
    apply List.map_congr_left
    intro k _
    simp only [Function.comp, Nat.cast_succ]
    ring

theorem forLoop_append {α : Type} (g : Int → List α) (body : Int → List α → List α)
    (hb : ∀ i acc, body i acc = acc ++ g i) (lo hi : Int) (acc : List α) :
    forLoop lo hi body acc = acc ++ (intRange lo hi).flatMap g := by
  unfold forLoop intRange
  exact forLoopAux_append g body hb _ lo acc

/-- The code's two-step correction of `F` is the longitude fraction. -/
theorem Hntr.lonFraction_eq (h : Hntr) (IB IAREV : Int) :
    (if IAREV = h.IMAX IB then
        (if IAREV = h.IMIN IB then (1 : ℚ) - h.FMIN IB else 1) - h.FMAX IB
      else (if IAREV = h.IMIN IB then (1 : ℚ) - h.FMIN IB else 1))
      = h.lonFraction IB IAREV := by
  unfold Hntr.lonFraction
  split_ifs <;> ring

/-- The code's two-step correction of `G` is the latitude fraction. -/
theorem Hntr.latFraction_eq (h : Hntr) (JB JA : Int) :
    (if JA = h.JMAX JB then
        (if JA = h.JMIN JB then h.SINA JA - h.SINA (JA - 1) - h.GMIN JB
          else h.SINA JA - h.SINA (JA - 1)) - h.GMAX JB
      else (if JA = h.JMIN JB then h.SINA JA - h.SINA (JA - 1) - h.GMIN JB
          else h.SINA JA - h.SINA (JA - 1)))
      = h.latFraction JB JA := by
  unfold Hntr.latFraction
  split_ifs <;> ring

/-- `Hntr::matrix` appends to the accumulator the entries of the overlap pairs, in visiting
order. -/
theorem Hntr.matrix_eq_overlapList (h : Hntr) (accum : List Entry) (Bindex_clip : Int → Bool)
    (WTB : Int → ℚ) :
    h.matrix accum Bindex_clip WTB
      = accum ++ (h.overlapList Bindex_clip).map (h.entryOf WTB) := by
  unfold Hntr.matrix Hntr.overlapList
  rw [forLoop_append (fun JB => ((intRange 1 h.Bgrid.im).flatMap fun IB =>
      if Bindex_clip (IB + h.Bgrid.im * (JB - 1) - 1) = true then
        (intRange (h.JMIN JB) (h.JMAX JB)).flatMap fun JA =>
          (intRange (h.IMIN IB) (h.IMAX IB)).map fun IAREV => h.entryOf WTB ⟨JB, IB, JA, IAREV⟩
      else []))]
  · congr 1
    simp only [List.map_flatMap]
    apply List.flatMap_congr
    intro JB _
    apply List.flatMap_congr
    intro IB _
    split_ifs
    · simp only [List.map_flatMap, List.map_map]
      rfl
    · rfl
  · intro JB acc
    apply forLoop_append
    intro IB acc
    by_cases hclip : Bindex_clip (IB + h.Bgrid.im * (JB - 1) - 1) = true
    · simp only [hclip, Bool.not_true, Bool.false_eq_true, if_false, if_true]
      apply forLoop_append
      intro JA acc
      rw [forLoop_append (fun IAREV => [h.entryOf WTB ⟨JB, IB, JA, IAREV⟩])]
      · congr 1
        induction (intRange (h.IMIN IB) (h.IMAX IB)) with
        | nil => rfl
        | cons a l ih => simp [List.flatMap_cons, ih]
      · intro IAREV acc
        simp only [Hntr.entryOf, Hntr.lonFraction_eq, Hntr.latFraction_eq]
    · have hclip' : Bindex_clip (IB + h.Bgrid.im * (JB - 1) - 1) = false := by
        simpa using hclip
      simp [hclip']

/-- Lists built by concatenating duplicate-free pieces, each piece tagged with the element
it was built from, are duplicate-free. -/
theorem nodup_flatMap_of_key {α β : Type} (key : β → α) (l : List α) (f : α → List β)
    (hl : l.Nodup) (hf : ∀ x ∈ l, (f x).Nodup) (hk : ∀ x ∈ l, ∀ b ∈ f x, key b = x) :
    (l.flatMap f).Nodup := by
  rw [List.nodup_flatMap]
  refine ⟨hf, ?_⟩
  have hne : List.Pairwise (fun a b => a ≠ b) l := hl
  refine List.Pairwise.imp_of_mem ?_ hne
  intro a b ha hb hab x hxa hxb
  exact hab ((hk a ha x hxa).symm.trans (hk b hb x hxb))

theorem Hntr.mem_overlapList (h : Hntr) (Bindex_clip : Int → Bool) (o : Overlap) :
    o ∈ h.overlapList Bindex_clip ↔ h.IsOverlap Bindex_clip o := by
  obtain ⟨JB, IB, JA, IAREV⟩ := o
  simp only [Hntr.overlapList, Hntr.IsOverlap, List.mem_flatMap, mem_intRange]
  constructor
  · rintro ⟨jb, ⟨h1, h2⟩, ib, ⟨h3, h4⟩, hmem⟩
    split_ifs at hmem with hclip
    · simp only [List.mem_flatMap, List.mem_map, mem_intRange, Overlap.mk.injEq] at hmem
      obtain ⟨ja, ⟨h5, h6⟩, ia, ⟨h7, h8⟩, rfl, rfl, rfl, rfl⟩ := hmem
      exact ⟨h1, h2, h3, h4, hclip, h5, h6, h7, h8⟩
    · simp at hmem
  · rintro ⟨h1, h2, h3, h4, hclip, h5, h6, h7, h8⟩
    refine ⟨JB, ⟨h1, h2⟩, IB, ⟨h3, h4⟩, ?_⟩
    rw [if_pos hclip]
    simp only [List.mem_flatMap, List.mem_map, mem_intRange]
    exact ⟨JA, ⟨h5, h6⟩, IAREV, ⟨h7, h8⟩, rfl⟩

theorem Hntr.nodup_overlapList (h : Hntr) (Bindex_clip : Int → Bool) :
    (h.overlapList Bindex_clip).Nodup := by
  unfold Hntr.overlapList
  apply nodup_flatMap_of_key Overlap.JB _ _ (nodup_intRange _ _)
  · intro JB _
    apply nodup_flatMap_of_key Overlap.IB _ _ (nodup_intRange _ _)
    · intro IB _
      split_ifs
      · apply nodup_flatMap_of_key Overlap.JA _ _ (nodup_intRange _ _)
        · intro JA _
          apply List.Nodup.map _ (nodup_intRange _ _)
          intro a b hab
          exact (Overlap.mk.inj hab).2.2.2
        · intro JA _ b hb
          simp only [List.mem_map] at hb
          obtain ⟨_, _, rfl⟩ := hb
          rfl
      · exact List.nodup_nil
    · intro IB _ b hb
      split_ifs at hb
      · simp only [List.mem_flatMap, List.mem_map] at hb
        obtain ⟨_, _, _, _, rfl⟩ := hb
        rfl
      · simp at hb
  · intro JB _ b hb
    simp only [List.mem_flatMap] at hb
    obtain ⟨IB, _, hb⟩ := hb
    split_ifs at hb
    · simp only [List.mem_flatMap, List.mem_map] at hb
      obtain ⟨_, _, _, _, rfl⟩ := hb
      rfl
    · simp at hb

/-- C9. `Hntr::matrix` adds to the accumulator exactly one entry per overlap pair, that is
per destination cell `(IB, JB)` passing the filter, source row `JA` in `[JMIN(JB), JMAX(JB)]`
and unfolded source column `IAREV` in `[IMIN(IB), IMAX(IB)]`, and no other entry: the entries
added are the images of a duplicate-free list holding exactly the overlap pairs. The entry of
a pair has value `WTB(IJB) * F * G` with `F` and `G` the longitude and latitude fractions. -/
theorem Hntr.matrix_one_entry_per_overlap (h : Hntr) (accum : List Entry)
    (Bindex_clip : Int → Bool) (WTB : Int → ℚ) :
    ∃ overlaps : List Overlap,
      overlaps.Nodup ∧ (∀ o, o ∈ overlaps ↔ h.IsOverlap Bindex_clip o) ∧
      h.matrix accum Bindex_clip WTB = accum ++ overlaps.map (h.entryOf WTB) ∧
      (∀ o, (h.entryOf WTB o).value
        = WTB (o.IB + h.Bgrid.im * (o.JB - 1))
          * (1 - (if o.IAREV = h.IMIN o.IB then h.FMIN o.IB else 0)
               - (if o.IAREV = h.IMAX o.IB then h.FMAX o.IB else 0))
          * (h.SINA o.JA - h.SINA (o.JA - 1)
               - (if o.JA = h.JMIN o.JB then h.GMIN o.JB else 0)
               - (if o.JA = h.JMAX o.JB then h.GMAX o.JB else 0))) :=
  ⟨h.overlapList Bindex_clip, h.nodup_overlapList Bindex_clip, h.mem_overlapList Bindex_clip,
    h.matrix_eq_overlapList accum Bindex_clip WTB, fun _ => rfl⟩

/-- Folding of a column number `IAREV ≥ 1` onto a grid with `im > 0` columns. -/
theorem fold_column (im IAREV : Int) (him : 0 < im) (hrev : 1 ≤ IAREV) :
    Int.tmod (IAREV - 1) im = (IAREV - 1) % im ∧
    0 ≤ Int.tmod (IAREV - 1) im ∧ Int.tmod (IAREV - 1) im < im ∧
    Int.tmod (IAREV + im - 1) im = Int.tmod (IAREV - 1) im := by
  have h1 : Int.tmod (IAREV - 1) im = (IAREV - 1) % im :=
    Int.tmod_eq_emod (by omega) (le_of_lt him)
  have h2 : Int.tmod (IAREV + im - 1) im = (IAREV + im - 1) % im :=
    Int.tmod_eq_emod (by omega) (le_of_lt him)
  have h3 : (IAREV + im - 1) % im = (IAREV - 1) % im := by
    rw [show IAREV + im - 1 = IAREV - 1 + im by ring, Int.add_emod_self]
  refine ⟨h1, ?_, ?_, ?_⟩
  · rw [h1]; exact Int.emod_nonneg _ (ne_of_gt him)
  · rw [h1]; exact Int.emod_lt_of_pos _ him
  · rw [h2, h3, h1]

/-- A 0-based index `(a - 1) + n * (b - 1)` with `1 ≤ a ≤ n` and `1 ≤ b ≤ m` lies in
`[0, n * m)`. -/
theorem index_in_range (n m a b : Int) (ha : 1 ≤ a) (han : a ≤ n) (hb : 1 ≤ b) (hbm : b ≤ m) :
    0 ≤ a + n * (b - 1) - 1 ∧ a + n * (b - 1) - 1 < n * m := by
  have hn : 0 ≤ n := by omega
  have h1 : 0 ≤ n * (b - 1) := mul_nonneg hn (by omega)
  have h2 : n * (b - 1) ≤ n * (m - 1) := mul_le_mul_of_nonneg_left (by omega) hn
  have h3 : n * (m - 1) = n * m - n := by ring
  constructor
  · omega
  · omega

/-- C10. With grid A well formed, `1 ≤ JMIN(JB) ≤ JMAX(JB) ≤ Agrid.jm` and
`1 ≤ IMIN(IB) ≤ IMAX(IB)` for every destination row and column, every entry `Hntr::matrix`
emits has its row index in `[0, Bgrid.im * Bgrid.jm)` and its column index in
`[0, Agrid.im * Agrid.jm)`; and for every `IAREV ≥ 1` the folded column
`IA = 1 + ((IAREV-1) mod Agrid.im)` lies in `[1, Agrid.im]` and is the same for `IAREV` and
`IAREV + Agrid.im`. -/
theorem Hntr.matrix_indices_in_range (h : Hntr) (hA : h.Agrid.WellFormed) (hok : h.RangesOk)
    (accum : List Entry) (Bindex_clip : Int → Bool) (WTB : Int → ℚ) :
    (∃ emitted : List Entry, h.matrix accum Bindex_clip WTB = accum ++ emitted ∧
      ∀ e ∈ emitted, 0 ≤ e.row ∧ e.row < h.Bgrid.im * h.Bgrid.jm ∧
        0 ≤ e.col ∧ e.col < h.Agrid.im * h.Agrid.jm) ∧
    (∀ IAREV : Int, 1 ≤ IAREV →
      1 + Int.tmod (IAREV - 1) h.Agrid.im = 1 + (IAREV - 1) % h.Agrid.im ∧
      1 ≤ 1 + Int.tmod (IAREV - 1) h.Agrid.im ∧
      1 + Int.tmod (IAREV - 1) h.Agrid.im ≤ h.Agrid.im ∧
      1 + Int.tmod (IAREV + h.Agrid.im - 1) h.Agrid.im
        = 1 + Int.tmod (IAREV - 1) h.Agrid.im) := by
  constructor
  · refine ⟨_, h.matrix_eq_overlapList accum Bindex_clip WTB, ?_⟩
    intro e he
    obtain ⟨o, ho, rfl⟩ := List.mem_map.1 he
    obtain ⟨h1, h2, h3, h4, _, h5, h6, h7, _⟩ := (h.mem_overlapList Bindex_clip o).1 ho
    obtain ⟨hj1, _, hj3⟩ := hok.1 o.JB h1 h2
    obtain ⟨hi1, _⟩ := hok.2 o.IB h3 h4
    have hrow := index_in_range h.Bgrid.im h.Bgrid.jm o.IB o.JB h3 h4 h1 h2
    obtain ⟨_, hf1, hf2, _⟩ := fold_column h.Agrid.im o.IAREV hA.1 (by omega)
    have hcol := index_in_range h.Agrid.im h.Agrid.jm
      (1 + Int.tmod (o.IAREV - 1) h.Agrid.im) o.JA (by omega) (by omega) (by omega) (by omega)
    exact ⟨hrow.1, hrow.2, hcol.1, hcol.2⟩
  · intro IAREV hrev
    obtain ⟨hf0, hf1, hf2, hf3⟩ := fold_column h.Agrid.im IAREV hA.1 hrev
    refine ⟨by rw [hf0], by omega, by omega, by rw [hf3]⟩

/-- Witness for C10: the tables `hntr42`, whose ranges lie inside the 4 by 2 source grid. -/
theorem Hntr.matrix_indices_in_range_witness :
    hntr42.Agrid.WellFormed ∧ hntr42.RangesOk ∧
    ∀ e ∈ hntr42.matrix [] (fun _ => true) (fun _ => 1),
      0 ≤ e.row ∧ e.row < 2 * 2 ∧ 0 ≤ e.col ∧ e.col < 4 * 2 := by
  have hA : hntr42.Agrid.WellFormed := ⟨by decide, by decide⟩
  have hok : hntr42.RangesOk := by
    constructor
    · intro JB h1 h2
      simp only [hntr42] at h2 ⊢
      omega
    · intro IB h1 h2
      simp only [hntr42] at h2 ⊢
      omega
  refine ⟨hA, hok, ?_⟩
  obtain ⟨emitted, hem, hall⟩ :=
    (Hntr.matrix_indices_in_range hntr42 hA hok [] (fun _ => true) (fun _ => 1)).1
  intro e he
  rw [hem, List.nil_append] at he
  exact hall e he

/-! ## Hntr::matrix: row sums and the filter -/

theorem hntr42_overlapList :
    hntr42.overlapList (fun _ => true)
      = [⟨1, 1, 1, 1⟩, ⟨1, 1, 1, 2⟩, ⟨1, 2, 1, 3⟩, ⟨1, 2, 1, 4⟩,
         ⟨2, 1, 2, 1⟩, ⟨2, 1, 2, 2⟩, ⟨2, 2, 2, 3⟩, ⟨2, 2, 2, 4⟩] := by
  decide

/-- The entries `Hntr::matrix` emits for the tables `hntr42` with uniform destination
weight `w`: two entries of value `w` in each of the four destination rows. -/
theorem hntr42_matrix (w : ℚ) :
    hntr42.matrix [] (fun _ => true) (fun _ => w)
      = [⟨0, 0, w⟩, ⟨0, 1, w⟩, ⟨1, 2, w⟩, ⟨1, 3, w⟩,
         ⟨2, 4, w⟩, ⟨2, 5, w⟩, ⟨3, 6, w⟩, ⟨3, 7, w⟩] := by
  rw [Hntr.matrix_eq_overlapList, hntr42_overlapList]
  simp [Hntr.entryOf, Hntr.lonFraction, Hntr.latFraction, hntr42, Int.tmod]
  norm_num

/-- Counterexample to C11: with the tables of the 4 by 2 source grid and the 2 by 2
destination grid and destination weights 1, the entries of destination row 0 are two entries
of value 1; they sum to 2, which is not within `1e-9` of 1. -/
theorem Hntr.matrix_row_sum_not_one :
    entriesOfRow (hntr42.matrix [] (fun _ => true) (fun _ => 1)) 0 = [⟨0, 0, 1⟩, ⟨0, 1, 1⟩] ∧
    rowSum (hntr42.matrix [] (fun _ => true) (fun _ => 1)) 0 = 2 ∧
    ¬ |rowSum (hntr42.matrix [] (fun _ => true) (fun _ => 1)) 0 - 1| ≤ 1 / 1000000000 := by
  have h0 : entriesOfRow (hntr42.matrix [] (fun _ => true) (fun _ => 1)) 0
      = [⟨0, 0, 1⟩, ⟨0, 1, 1⟩] := by
    rw [hntr42_matrix]
    simp [entriesOfRow, List.filter_cons]
  have h1 : rowSum (hntr42.matrix [] (fun _ => true) (fun _ => 1)) 0 = 2 := by
    rw [rowSum, h0]
    norm_num
  refine ⟨h0, h1, ?_⟩
  rw [h1]
  norm_num

/-- C11 (amended). With the tables of the 4 by 2 source grid and the 2 by 2 destination grid
and uniform destination weights `w`, the entries `Hntr::matrix` emits for each of the four
destination rows sum to `2 * w`: to 2 for weights 1, and to exactly 1 for weights `1/2`. -/
theorem Hntr.matrix_row_sums_hntr42 :
    (∀ w : ℚ,
      rowSum (hntr42.matrix [] (fun _ => true) (fun _ => w)) 0 = 2 * w ∧
      rowSum (hntr42.matrix [] (fun _ => true) (fun _ => w)) 1 = 2 * w ∧
      rowSum (hntr42.matrix [] (fun _ => true) (fun _ => w)) 2 = 2 * w ∧
      rowSum (hntr42.matrix [] (fun _ => true) (fun _ => w)) 3 = 2 * w) ∧
    (rowSum (hntr42.matrix [] (fun _ => true) (fun _ => 1)) 0 = 2 ∧
      rowSum (hntr42.matrix [] (fun _ => true) (fun _ => 1)) 1 = 2 ∧
      rowSum (hntr42.matrix [] (fun _ => true) (fun _ => 1)) 2 = 2 ∧
      rowSum (hntr42.matrix [] (fun _ => true) (fun _ => 1)) 3 = 2) ∧
    (rowSum (hntr42.matrix [] (fun _ => true) (fun _ => 1 / 2)) 0 = 1 ∧
      rowSum (hntr42.matrix [] (fun _ => true) (fun _ => 1 / 2)) 1 = 1 ∧
      rowSum (hntr42.matrix [] (fun _ => true) (fun _ => 1 / 2)) 2 = 1 ∧
      rowSum (hntr42.matrix [] (fun _ => true) (fun _ => 1 / 2)) 3 = 1) := by
  have hw : ∀ w : ℚ,
      rowSum (hntr42.matrix [] (fun _ => true) (fun _ => w)) 0 = 2 * w ∧
      rowSum (hntr42.matrix [] (fun _ => true) (fun _ => w)) 1 = 2 * w ∧
      rowSum (hntr42.matrix [] (fun _ => true) (fun _ => w)) 2 = 2 * w ∧
      rowSum (hntr42.matrix [] (fun _ => true) (fun _ => w)) 3 = 2 * w := by
    intro w
    rw [hntr42_matrix]
    refine ⟨?_, ?_, ?_, ?_⟩ <;>
      simp [rowSum, entriesOfRow, List.filter_cons] <;> ring
  refine ⟨hw, ?_, ?_⟩
  · have h := hw 1
    norm_num at h
    exact h
  · have h := hw (1 / 2)
    norm_num at h
    exact h

/-- Filtering a concatenation of tagged pieces by the tag keeps the piece of that tag. -/
theorem filter_flatMap_of_key {α β : Type} [DecidableEq α] (key : β → α) (l : List α)
    (f : α → List β) (hl : l.Nodup) (hk : ∀ x ∈ l, ∀ b ∈ f x, key b = x) (a : α) :
    (l.flatMap f).filter (fun b => decide (key b = a)) = if a ∈ l then f a else [] := by
  induction l with
  | nil => simp
  | cons x xs ih =>
    have hx : ∀ b ∈ f x, key b = x := hk x (List.mem_cons_self _ _)
    have ih' := ih (List.nodup_cons.1 hl).2 (fun y hy => hk y (List.mem_cons_of_mem _ hy))
    rw [List.flatMap_cons, List.filter_append, ih']
    by_cases hax : a = x
    · subst hax
      have hnot : a ∉ xs := (List.nodup_cons.1 hl).1
      have hfa : (f a).filter (fun b => decide (key b = a)) = f a := by
        rw [List.filter_eq_self]
        intro b hb
        simp [hx b hb]
      simp [hnot, hfa]
    · have hfx : (f x).filter (fun b => decide (key b = a)) = [] := by
        rw [List.filter_eq_nil_iff]
        intro b hb
        simp only [decide_eq_true_eq]
        rw [hx b hb]
        exact fun h => hax h.symm
      simp [hfx, hax]

theorem length_flatMap_const {α β : Type} (l : List α) (f : α → List β) (n : Nat)
    (hf : ∀ x ∈ l, (f x).length = n) : (l.flatMap f).length = l.length * n := by
  induction l with
  | nil => simp
  | cons x xs ih =>
    rw [List.flatMap_cons, List.length_append, hf x (List.mem_cons_self _ _),
      ih (fun y hy => hf y (List.mem_cons_of_mem _ hy)), List.length_cons]
    ring

theorem length_intRange (lo hi : Int) : (intRange lo hi).length = (hi + 1 - lo).toNat := by
  simp [intRange]

/-- Two cells of a grid with `n` columns that have the same 0-based index are the same cell. -/
theorem cell_index_inj (n a b a' b' : Int) (ha : 1 ≤ a) (han : a ≤ n) (ha' : 1 ≤ a')
    (han' : a' ≤ n) (h : a' + n * (b' - 1) - 1 = a - 1 + n * (b - 1)) : a' = a ∧ b' = b := by
  have hb : b' = b := by
    rcases lt_trichotomy b' b with hlt | heq | hgt
    · exfalso
      have h1 : n * 1 ≤ n * (b - b') := mul_le_mul_of_nonneg_left (by omega) (by omega)
      have h2 : n * (b - b') = n * (b - 1) - n * (b' - 1) := by ring
      omega
    · exact heq
    · exfalso
      have h1 : n * 1 ≤ n * (b' - b) := mul_le_mul_of_nonneg_left (by omega) (by omega)
      have h2 : n * (b' - b) = n * (b' - 1) - n * (b - 1) := by ring
      omega
  subst hb
  exact ⟨by omega, rfl⟩

/-- The overlap pairs of one destination cell inside grid B, as a sublist of the visiting
order: none when the filter rejects the cell, else one per source row and source column of
the two ranges. -/
theorem Hntr.overlapList_of_cell (h : Hntr) (Bindex_clip : Int → Bool) (JB IB : Int)
    (hJ1 : 1 ≤ JB) (hJ2 : JB ≤ h.Bgrid.jm) (hI1 : 1 ≤ IB) (hI2 : IB ≤ h.Bgrid.im) :
    (h.overlapList Bindex_clip).filter
        (fun o => decide ((h.entryOf (fun _ => 0) o).row = IB - 1 + h.Bgrid.im * (JB - 1)))
      = if Bindex_clip (IB - 1 + h.Bgrid.im * (JB - 1)) = true then
          (intRange (h.JMIN JB) (h.JMAX JB)).flatMap fun JA =>
            (intRange (h.IMIN IB) (h.IMAX IB)).map fun IAREV => ⟨JB, IB, JA, IAREV⟩
        else [] := by
  have hpred : (h.overlapList Bindex_clip).filter
        (fun o => decide ((h.entryOf (fun _ => 0) o).row = IB - 1 + h.Bgrid.im * (JB - 1)))
      = ((h.overlapList Bindex_clip).filter (fun o => decide (o.JB = JB))).filter
          (fun o => decide (o.IB = IB)) := by
    rw [List.filter_filter]
    apply List.filter_congr
    intro o ho
    obtain ⟨_, _, h3, h4, _⟩ := (h.mem_overlapList Bindex_clip o).1 ho
    simp only [Hntr.entryOf, Bool.decide_and, decide_eq_decide]
    rw [← Bool.decide_and, decide_eq_decide]
    constructor
    · intro heq
      exact cell_index_inj h.Bgrid.im IB JB o.IB o.JB hI1 hI2 h3 h4 heq
    · rintro ⟨h1, h2⟩
      rw [h1, h2]
      ring
  rw [hpred]
  unfold Hntr.overlapList
  rw [filter_flatMap_of_key Overlap.JB _ _ (nodup_intRange _ _), if_pos ((mem_intRange _ _ _).2 ⟨hJ1, hJ2⟩),
    filter_flatMap_of_key Overlap.IB _ _ (nodup_intRange _ _), if_pos ((mem_intRange _ _ _).2 ⟨hI1, hI2⟩)]
  · have hidx : IB + h.Bgrid.im * (JB - 1) - 1 = IB - 1 + h.Bgrid.im * (JB - 1) := by ring
    rw [hidx]
  · intro ib _ b hb
    split_ifs at hb
    · simp only [List.mem_flatMap, List.mem_map] at hb
      obtain ⟨_, _, _, _, rfl⟩ := hb
      rfl
    · simp at hb
  · intro jb _ b hb
    simp only [List.mem_flatMap] at hb
    obtain ⟨ib, _, hb⟩ := hb
    split_ifs at hb
    · simp only [List.mem_flatMap, List.mem_map] at hb
      obtain ⟨_, _, _, _, rfl⟩ := hb
      rfl
    · simp at hb

/-- The entries of one destination row among the entries `Hntr::matrix` emits: none when the
filter rejects the cell, else as many as the product of the lengths of the two loops. -/
theorem Hntr.length_entriesOfRow (h : Hntr) (Bindex_clip : Int → Bool) (WTB : Int → ℚ)
    (JB IB : Int) (hJ1 : 1 ≤ JB) (hJ2 : JB ≤ h.Bgrid.jm) (hI1 : 1 ≤ IB) (hI2 : IB ≤ h.Bgrid.im) :
    (entriesOfRow ((h.overlapList Bindex_clip).map (h.entryOf WTB))
        (IB - 1 + h.Bgrid.im * (JB - 1))).length
      = if Bindex_clip (IB - 1 + h.Bgrid.im * (JB - 1)) = true then
          (h.JMAX JB - h.JMIN JB + 1).toNat * (h.IMAX IB - h.IMIN IB + 1).toNat
        else 0 := by
  have hcell := h.overlapList_of_cell Bindex_clip JB IB hJ1 hJ2 hI1 hI2
  have hfilter : entriesOfRow ((h.overlapList Bindex_clip).map (h.entryOf WTB))
        (IB - 1 + h.Bgrid.im * (JB - 1))
      = ((h.overlapList Bindex_clip).filter
          (fun o => decide ((h.entryOf (fun _ => 0) o).row
            = IB - 1 + h.Bgrid.im * (JB - 1)))).map (h.entryOf WTB) := by
    rw [entriesOfRow, List.filter_map]
    rfl
  rw [hfilter, List.length_map, hcell]
  split_ifs
  · rw [length_flatMap_const _ _ (h.IMAX IB - h.IMIN IB + 1).toNat, length_intRange]
    · congr 2
      ring
    · intro JA _
      rw [List.length_map, length_intRange]
      congr 1
      ring
  · rfl

/-- C12. `Hntr::matrix` consults the filter with the 0-based index
`(IB-1) + Bgrid.im*(JB-1)` of the destination cell: every emitted entry has a row index `r`
with `Bindex_clip(r)` true, a destination cell of grid B for which the filter returns false
contributes no entry, and a cell for which it returns true contributes exactly
`(JMAX(JB)-JMIN(JB)+1) * (IMAX(IB)-IMIN(IB)+1)` entries, the tables holding for the cell
the first and the last intersecting source row and column, `JMIN(JB) ≤ JMAX(JB)` and
`IMIN(IB) ≤ IMAX(IB)`. -/
theorem Hntr.matrix_filter_counts (h : Hntr) (accum : List Entry) (Bindex_clip : Int → Bool)
    (WTB : Int → ℚ) :
    ∃ emitted : List Entry, h.matrix accum Bindex_clip WTB = accum ++ emitted ∧
      (∀ e ∈ emitted, Bindex_clip e.row = true) ∧
      (∀ JB IB : Int, 1 ≤ JB → JB ≤ h.Bgrid.jm → 1 ≤ IB → IB ≤ h.Bgrid.im →
        (Bindex_clip (IB - 1 + h.Bgrid.im * (JB - 1)) = false →
          entriesOfRow emitted (IB - 1 + h.Bgrid.im * (JB - 1)) = []) ∧
        (Bindex_clip (IB - 1 + h.Bgrid.im * (JB - 1)) = true →
          h.JMIN JB ≤ h.JMAX JB → h.IMIN IB ≤ h.IMAX IB →
            ((entriesOfRow emitted (IB - 1 + h.Bgrid.im * (JB - 1))).length : Int)
              = (h.JMAX JB - h.JMIN JB + 1) * (h.IMAX IB - h.IMIN IB + 1))) := by
  refine ⟨_, h.matrix_eq_overlapList accum Bindex_clip WTB, ?_, ?_⟩
  · intro e he
    obtain ⟨o, ho, rfl⟩ := List.mem_map.1 he
    obtain ⟨_, _, _, _, hclip, _⟩ := (h.mem_overlapList Bindex_clip o).1 ho
    exact hclip
  · intro JB IB hJ1 hJ2 hI1 hI2
    have hlen := h.length_entriesOfRow Bindex_clip WTB JB IB hJ1 hJ2 hI1 hI2
    constructor
    · intro hclip
      rw [hclip] at hlen
      exact List.length_eq_zero.1 (by simpa using hlen)
    · intro hclip hj hi
      rw [if_pos hclip] at hlen
      rw [hlen, Nat.cast_mul, Int.toNat_of_nonneg (by omega), Int.toNat_of_nonneg (by omega)]

/-- Witness for C12: the tables `hntr42` with the filter that rejects the destination cell
of index 1; the cell `(IB, JB) = (1, 2)` of index 2 passes, its ranges are `JMIN = JMAX = 2`
and `IMIN = 1 ≤ IMAX = 2`, and it contributes 1 * 2 entries. -/
theorem Hntr.matrix_filter_counts_witness :
    (1 : Int) ≤ 2 ∧ (2 : Int) ≤ hntr42.Bgrid.jm ∧ (1 : Int) ≤ 1 ∧ (1 : Int) ≤ hntr42.Bgrid.im ∧
    hntr42.JMIN 2 ≤ hntr42.JMAX 2 ∧ hntr42.IMIN 1 ≤ hntr42.IMAX 1 ∧
    ∃ emitted : List Entry,
      hntr42.matrix [] (fun r => r != 1) (fun _ => 1) = [] ++ emitted ∧
      ((entriesOfRow emitted (1 - 1 + hntr42.Bgrid.im * (2 - 1))).length : Int)
        = (hntr42.JMAX 2 - hntr42.JMIN 2 + 1) * (hntr42.IMAX 1 - hntr42.IMIN 1 + 1) ∧
      (hntr42.JMAX 2 - hntr42.JMIN 2 + 1) * (hntr42.IMAX 1 - hntr42.IMIN 1 + 1) = 1 * 2 := by
  refine ⟨by decide, by decide, by decide, by decide, by decide, by decide, ?_⟩
  obtain ⟨emitted, hem, _, hcount⟩ :=
    Hntr.matrix_filter_counts hntr42 [] (fun r => r != 1) (fun _ => 1)
  refine ⟨emitted, hem, ?_, by decide⟩
  exact (hcount 2 1 (by decide) (by decide) (by decide) (by decide)).2 (by decide)
    (by decide) (by decide)

/-! ## GridMap: sorted and at -/

/-- The cases of `add`, with the reason of each: the cell map is unchanged, or the identifier
was free and the entity is appended under it. -/
theorem GridMap.add_cells_cases {T : Type} [Indexed T] (m : GridMap T) (cell : T) :
    (m.add cell).1._cells = m._cells ∨
    ∃ stored, m.find? (Indexed.index stored) = none ∧
      (m.add cell).1._cells = m._cells ++ [(Indexed.index stored, stored)] := by
  cases h : m.find? (Indexed.index (if Indexed.index cell < 0 then
      Indexed.setIndex cell (m._cells.length : Int) else cell)) with
  | none =>
    right
    refine ⟨_, h, ?_⟩
    rw [GridMap.add_of_find?_none m cell _ rfl h]
  | some old =>
    left
    rw [GridMap.add_of_find?_some m cell _ old rfl h]

/-- In every reachable map the keys are pairwise distinct and each key is the `index` of the
entity stored under it. -/
theorem GridMap.Reachable.keys_wf {T : Type} [Indexed T] {m : GridMap T} (h : m.Reachable) :
    (m._cells.map Prod.fst).Nodup ∧ ∀ kv ∈ m._cells, kv.1 = Indexed.index kv.2 := by
  induction h with
  | empty => simp [GridMap.empty]
  | add m cell _ ih =>
    rcases GridMap.add_cells_cases m cell with hc | ⟨stored, hfree, hc⟩
    · rw [hc]; exact ih
    · rw [hc]
      constructor
      · rw [List.map_append, List.nodup_append]
        refine ⟨ih.1, by simp, ?_⟩
        intro k hk hk'
        simp only [List.map_cons, List.map_nil, List.mem_singleton] at hk'
        obtain ⟨kv, hkv, rfl⟩ := List.mem_map.1 hk
        exact (GridMap.find?_eq_none_iff m _).1 hfree kv hkv hk'
      · intro kv hkv
        rcases List.mem_append.1 hkv with h1 | h1
        · exact ih.2 kv h1
        · simp only [List.mem_singleton] at h1
          rw [h1]
  | erase m pos _ ih =>
    constructor
    · exact List.Nodup.sublist
        ((List.eraseIdx_sublist m._cells pos).map Prod.fst) ih.1
    · intro kv hkv
      exact ih.2 kv (List.mem_of_mem_eraseIdx hkv)
  | clear m _ _ => simp [GridMap.clear]
  | setNfull m n _ ih => exact ih

/-- In every reachable map the stored entities have pairwise distinct `index` fields. -/
theorem GridMap.Reachable.index_nodup {T : Type} [Indexed T] {m : GridMap T}
    (h : m.Reachable) : ((m._cells.map Prod.snd).map Indexed.index).Nodup := by
  have hk := h.keys_wf
  have heq : (m._cells.map Prod.snd).map Indexed.index = m._cells.map Prod.fst := by
    rw [List.map_map]
    apply List.map_congr_left
    intro kv hkv
    exact (hk.2 kv hkv).symm
  rw [heq]
  exact hk.1

/-- A list sorted by `index` whose `index` fields are pairwise distinct is strictly
ascending. -/
theorem pairwise_index_lt {T : Type} [Indexed T] (l : List T)
    (hs : l.Pairwise (fun a b => Indexed.index a ≤ Indexed.index b))
    (hn : (l.map Indexed.index).Nodup) :
    l.Pairwise (fun a b => Indexed.index a < Indexed.index b) := by
  have hne : l.Pairwise (fun a b => Indexed.index a ≠ Indexed.index b) := by
    have := hn
    rw [List.Nodup, List.pairwise_map] at this
    exact this
  exact (hs.and hne).imp (fun h => lt_of_le_of_ne h.1 h.2)

/-- Two strictly ascending lists with the same elements are equal. -/
theorem eq_of_perm_of_index_lt {T : Type} [Indexed T] (l₁ l₂ : List T) (hp : l₁.Perm l₂)
    (h₁ : l₁.Pairwise (fun a b => Indexed.index a < Indexed.index b))
    (h₂ : l₂.Pairwise (fun a b => Indexed.index a < Indexed.index b)) : l₁ = l₂ := by
  haveI : IsAntisymm T (fun a b => Indexed.index a < Indexed.index b) :=
    ⟨fun a b hab hba => absurd hab (not_lt.2 (le_of_lt hba))⟩
  exact List.eq_of_perm_of_sorted hp h₁ h₂

theorem GridMap.sorted_perm {T : Type} [Indexed T] (m : GridMap T) :
    m.sorted.Perm (m._cells.map Prod.snd) :=
  List.perm_insertionSort _ _

theorem GridMap.sorted_le {T : Type} [Indexed T] (m : GridMap T) :
    m.sorted.Pairwise (fun a b => Indexed.index a ≤ Indexed.index b) := by
  haveI : IsTotal T (fun a b => Indexed.index a ≤ Indexed.index b) :=
    ⟨fun a b => le_total _ _⟩
  haveI : IsTrans T (fun a b => Indexed.index a ≤ Indexed.index b) :=
    ⟨fun a b c hab hbc => le_trans hab hbc⟩
  exact List.sorted_insertionSort _ _

theorem GridMap.sorted_lt {T : Type} [Indexed T] (m : GridMap T) (hm : m.Reachable) :
    m.sorted.Pairwise (fun a b => Indexed.index a < Indexed.index b) := by
  apply pairwise_index_lt _ m.sorted_le
  exact (List.Perm.nodup_iff (m.sorted_perm.map Indexed.index)).2 hm.index_nodup

/-- C13. For every reachable `GridMap`, `sorted()` contains each realized entity exactly once
(it is a permutation of the stored entities, of length `nrealized()`), it is strictly
ascending in `index`, and it does not depend on the iteration order of the map: it is the only
strictly ascending arrangement of the entities, and a map holding the same entries in another
order has the same `sorted()`. -/
theorem GridMap.sorted_spec {T : Type} [Indexed T] (m : GridMap T) (hm : m.Reachable) :
    m.sorted.Perm (m._cells.map Prod.snd) ∧
    m.sorted.length = m.nrealized ∧
    m.sorted.Pairwise (fun a b => Indexed.index a < Indexed.index b) ∧
    (∀ l : List T, l.Perm (m._cells.map Prod.snd) →
      l.Pairwise (fun a b => Indexed.index a < Indexed.index b) → l = m.sorted) ∧
    (∀ m' : GridMap T, m'._cells.Perm m._cells → m'.sorted = m.sorted) := by
  have hlt := m.sorted_lt hm
  refine ⟨m.sorted_perm, ?_, hlt, ?_, ?_⟩
  · rw [m.sorted_perm.length_eq, List.length_map]
    rfl
  · intro l hp hl
    exact eq_of_perm_of_index_lt l m.sorted (hp.trans m.sorted_perm.symm) hl hlt
  · intro m' hp
    have hp' : m'.sorted.Perm m.sorted :=
      (m'.sorted_perm.trans (hp.map Prod.snd)).trans m.sorted_perm.symm
    have hn : (m'.sorted.map Indexed.index).Nodup :=
      (List.Perm.nodup_iff ((hp'.trans m.sorted_perm).map Indexed.index)).2 hm.index_nodup
    exact eq_of_perm_of_index_lt _ _ hp' (pairwise_index_lt _ m'.sorted_le hn) hlt

/-- Witness for C13: the map iterated in the order 7, 0, 3 is sorted to 0, 3, 7. -/
theorem GridMap.sorted_spec_witness :
    map703.Reachable ∧ map703._cells.map Prod.fst = [7, 0, 3] ∧
    map703.sorted.map Vertex.index = [0, 3, 7] ∧
    map703.sorted.length = map703.nrealized ∧
    map703.sorted.Pairwise (fun a b => Indexed.index a < Indexed.index b) := by
  have hr : map703.Reachable :=
    GridMap.Reachable.add _ _ (GridMap.Reachable.add _ _
      (GridMap.Reachable.add _ _ GridMap.Reachable.empty))
  have h := GridMap.sorted_spec map703 hr
  exact ⟨hr, by decide, by decide, h.2.1, h.2.2.1⟩

/-- In a list with pairwise distinct keys, lookup of a present key returns its entry. -/
theorem find?_of_mem_nodup_keys {T : Type} (l : List (Int × T)) (hl : (l.map Prod.fst).Nodup)
    (n : Int) (t : T) (hmem : (n, t) ∈ l) :
    l.find? (fun kv => kv.1 == n) = some (n, t) := by
  induction l with
  | nil => simp at hmem
  | cons kv rest ih =>
    rw [List.map_cons, List.nodup_cons] at hl
    rcases List.mem_cons.1 hmem with h1 | h1
    · rw [← h1]
      simp
    · have hne : kv.1 ≠ n := by
        intro heq
        apply hl.1
        rw [heq]
        exact List.mem_map.2 ⟨(n, t), h1, rfl⟩
      rw [List.find?_cons_of_neg _ (by simpa using hne)]
      exact ih hl.2 h1

/-- C14. For every reachable `GridMap` (built by `add` and `erase`) and every integer `n`,
`at(n)` fails with the not-found error exactly when no realized entity has identifier `n`;
when a realized entity has `index` field `n`, `at(n)` returns that entity; whatever `at(n)`
returns is a realized entity with `index` field `n`; and every key of the map equals the
`index` of the entity stored under it. -/
theorem GridMap.at_spec {T : Type} [Indexed T] (m : GridMap T) (hm : m.Reachable) (n : Int) :
    (m.«at» n = .error (.notFound n) ↔ ∀ kv ∈ m._cells, Indexed.index kv.2 ≠ n) ∧
    (∀ kv ∈ m._cells, Indexed.index kv.2 = n → m.«at» n = .ok kv.2) ∧
    (∀ e, m.«at» n = .ok e → Indexed.index e = n ∧ (n, e) ∈ m._cells) ∧
    (∀ kv ∈ m._cells, kv.1 = Indexed.index kv.2) := by
  have hk := hm.keys_wf
  have hfound : ∀ kv ∈ m._cells, Indexed.index kv.2 = n → m.find? n = some kv.2 := by
    intro kv hkv hidx
    have hkey : kv.1 = n := (hk.2 kv hkv).trans hidx
    have hmem : (n, kv.2) ∈ m._cells := by
      rw [← hkey]
      exact hkv
    simp only [GridMap.find?, find?_of_mem_nodup_keys m._cells hk.1 n kv.2 hmem, Option.map_some']
  have hok : ∀ e, m.«at» n = .ok e → m.find? n = some e := by
    intro e he
    unfold GridMap.«at» at he
    cases hf : m.find? n with
    | none => rw [hf] at he; cases he
    | some t => rw [hf] at he; cases he; rfl
  refine ⟨?_, ?_, ?_, hk.2⟩
  · constructor
    · intro herr kv hkv hidx
      have h1 := hfound kv hkv hidx
      unfold GridMap.«at» at herr
      rw [h1] at herr
      cases herr
    · intro hall
      have hnone : m.find? n = none := by
        rw [GridMap.find?_eq_none_iff]
        intro kv hkv hkey
        exact hall kv hkv ((hk.2 kv hkv).symm.trans hkey)
      unfold GridMap.«at»
      rw [hnone]
  · intro kv hkv hidx
    unfold GridMap.«at»
    rw [hfound kv hkv hidx]
  · intro e he
    have hmem := GridMap.find?_eq_some_mem m n e (hok e he)
    exact ⟨(hk.2 (n, e) hmem).symm, hmem⟩

/-- Witness for C14: in `map703`, `at(3)` returns the vertex of index 3 and `at(5)` fails. -/
theorem GridMap.at_spec_witness :
    map703.Reachable ∧ map703.«at» 3 = .ok ⟨3, 4, 4⟩ ∧ map703.«at» 5 = .error (.notFound 5) := by
  have hr : map703.Reachable :=
    GridMap.Reachable.add _ _ (GridMap.Reachable.add _ _
      (GridMap.Reachable.add _ _ GridMap.Reachable.empty))
  refine ⟨hr, ?_, ?_⟩
  · exact (GridMap.at_spec map703 hr 3).2.1 (3, ⟨3, 4, 4⟩) (by decide) rfl
  · exact (GridMap.at_spec map703 hr 5).1.2 (by decide)

/-! ## Grid::filter_cells: frozen sizes -/

/-- C15. `filter_cells(P)` leaves the reported problem size unchanged: `cells.nfull()` and
`vertices.nfull()` return after the call what they returned before it. -/
theorem filter_cells_nfull (g : Grid) (P : Cell → Bool) :
    (g.filter_cells P).cells.nfull = g.cells.nfull ∧
    (g.filter_cells P).vertices.nfull = g.vertices.nfull := by
  simp [Grid.filter_cells, GridMap.nfull]

/-! ## Grid::nc_write -/

theorem doubleToLong_half : doubleToLong (1 / 2) = 0 := by
  unfold doubleToLong
  rw [if_pos (by norm_num), Int.floor_eq_iff]
  norm_num

/-- C16, evaluated at `triangleGrid`, whose cell references vertices of the grid only and has
native area `1/2`: reading back what `nc_write` emitted gives the same vertices and a cell with
the same index, `(i, j, k)` and vertices, but with native area 0. -/
theorem Grid.read_back_native_area_at_triangleGrid :
    (∀ kc ∈ triangleGrid.cells._cells, ∀ w ∈ kc.2._vertices,
      (w.index, w) ∈ triangleGrid.vertices._cells) ∧
    triangleGrid.nc_write.cells_native_area = [1 / 2] ∧
    triangleGrid.cells.sorted
      = [⟨[⟨0, 0, 0⟩, ⟨1, 1, 0⟩, ⟨2, 0, 1⟩], 0, 1 / 2, 0, 0, -1⟩] ∧
    triangleGrid.readBackVertices = some triangleGrid.vertices.sorted ∧
    triangleGrid.readBackCells
      = some [⟨[⟨0, 0, 0⟩, ⟨1, 1, 0⟩, ⟨2, 0, 1⟩], 0, 0, 0, 0, -1⟩] := by
  refine ⟨by decide, rfl, rfl, by decide, ?_⟩
  have h : triangleGrid.readBackCells
      = some [⟨[⟨0, 0, 0⟩, ⟨1, 1, 0⟩, ⟨2, 0, 1⟩], 0, (doubleToLong (1 / 2) : ℚ), 0, 0, -1⟩] := by
    rfl
  rw [h, doubleToLong_half]
  simp

/-! ## Grid::ncio: version -/

/-- C18. In read mode `Grid::ncio` raises the unsupported-version error whenever the stored
version differs from 2 and raises no error when it is 2; in write mode it stores version 2,
whatever was stored before. -/
theorem Grid.ncio_version_spec :
    (∀ stored : Int, stored ≠ 2 →
      Grid.ncio_version 'r' stored = .error (.unsupportedVersion stored)) ∧
    Grid.ncio_version 'r' 2 = .ok 2 ∧
    (∀ stored : Int, Grid.ncio_version 'w' stored = .ok 2) := by
  refine ⟨?_, ?_, ?_⟩
  · intro stored hne
    simp [Grid.ncio_version, get_or_put_att, hne]
  · simp [Grid.ncio_version, get_or_put_att]
  · intro stored
    simp [Grid.ncio_version, get_or_put_att]

/-- Witness for C18: a store of version 1 is refused in read mode. -/
theorem Grid.ncio_version_spec_witness :
    (1 : Int) ≠ 2 ∧ Grid.ncio_version 'r' 1 = .error (.unsupportedVersion 1) :=
  ⟨by decide, Grid.ncio_version_spec.1 1 (by decide)⟩

/-! ## checksum_interp -/

/-- The value `checksum_interp` returns is `false` for every matrix and tolerance. -/
theorem checksum_interp_false (mat : VectorSparseMatrix) (epsilon : ℚ) :
    (checksum_interp mat epsilon).1 = false := rfl

/-- C19, evaluated at the 1 by 1 matrix `identity1` with tolerance `1e-9`: the only row sums to
1, the loop prints nothing and leaves its flag `ret` true, and `checksum_interp` returns
`false`. -/
theorem checksum_interp_at_identity1 :
    identity1.sum_per_row_map = [(0, 1)] ∧
    (checksumLoop identity1 (1 / 1000000000)).ret = true ∧
    checksum_interp identity1 (1 / 1000000000) = (false, []) := by
  have hrows : identity1.sum_per_row_map = [(0, 1)] := by
    simp [VectorSparseMatrix.sum_per_row_map, identity1, rowSum, entriesOfRow]
  have hloop : checksumLoop identity1 (1 / 1000000000) = { ret := true, printed := [] } := by
    unfold checksumLoop
    rw [hrows]
    simp [checksumStep]
  refine ⟨hrows, ?_, ?_⟩
  · rw [hloop]
  · unfold checksum_interp
    rw [hloop]

/-! ## MatrixMaker::ice_to_hp: the initial guess -/

theorem forLoopAux_eq_foldl {σ : Type} (body : Int → σ → σ) (n : Nat) (lo : Int) (s : σ) :
    forLoopAux body n lo s
      = ((List.range n).map (fun (k : Nat) => lo + Int.ofNat k)).foldl (fun s i => body i s) s := by
  induction n generalizing lo s with
  | zero => rfl
  | succ n ih =>
    rw [forLoopAux, ih, List.range_succ_eq_map]
    simp only [List.map_cons, List.map_map, List.foldl_cons, Int.ofNat_eq_coe, Nat.cast_zero,
      add_zero]
    congr 1
    apply List.map_congr_left
    intro k _
    simp only [Function.comp, Nat.cast_succ]
    ring

/-- A `for` loop is the left fold of its body over the values of the loop variable. -/
theorem forLoop_eq_foldl {σ : Type} (body : Int → σ → σ) (lo hi : Int) (s : σ) :
    forLoop lo hi body s = (intRange lo hi).foldl (fun s i => body i s) s := by
  unfold forLoop intRange
  exact forLoopAux_eq_foldl body _ lo s

/-- C24. In a grid in which every vertex referenced by a cell is realized in the vertex map,
after `filter_cells(P)` every vertex referenced by a remaining cell is still realized in the
vertex map, under the same key and with unchanged index and coordinates. -/
theorem filter_cells_no_dangling (g : Grid) (P : Cell → Bool)
    (hwf : ∀ kc ∈ g.cells._cells, ∀ w ∈ kc.2._vertices, ∃ key, (key, w) ∈ g.vertices._cells) :
    (∀ kc ∈ (g.filter_cells P).cells._cells, ∀ w ∈ kc.2._vertices,
      ∃ key, (key, w) ∈ (g.filter_cells P).vertices._cells) ∧
    (∀ kc ∈ (g.filter_cells P).cells._cells, ∀ w ∈ kc.2._vertices,
      ∀ key, (key, w) ∈ g.vertices._cells → (key, w) ∈ (g.filter_cells P).vertices._cells) := by
  have hkeep : ∀ kc ∈ (g.filter_cells P).cells._cells, ∀ w ∈ kc.2._vertices,
      ∀ key, (key, w) ∈ g.vertices._cells → (key, w) ∈ (g.filter_cells P).vertices._cells := by
    intro kc hkc w hw key hmem
    exact (filter_cells_vertices_iff g P key w).2 ⟨hmem, kc, hkc, w, hw, rfl⟩
  refine ⟨?_, hkeep⟩
  intro kc hkc w hw
  obtain ⟨key, hmem⟩ := hwf kc ((mem_filter_cells_cells g P kc).1 hkc).1 w hw
  exact ⟨key, hkeep kc hkc w hw key hmem⟩

/-- Witness for C24: `twoCellGrid` filtered with "index is 1" keeps the vertices 1 and 2 of the
remaining cell. -/
theorem filter_cells_no_dangling_witness :
    (∀ kc ∈ twoCellGrid.cells._cells, ∀ w ∈ kc.2._vertices,
      ∃ key, (key, w) ∈ twoCellGrid.vertices._cells) ∧
    (twoCellGrid.filter_cells (fun c => c.index == 1)).vertices._cells
      = [(1, ⟨1, 1, 0⟩), (2, ⟨2, 1, 1⟩)] ∧
    (∀ kc ∈ (twoCellGrid.filter_cells (fun c => c.index == 1)).cells._cells,
      ∀ w ∈ kc.2._vertices,
        ∃ key, (key, w) ∈ (twoCellGrid.filter_cells (fun c => c.index == 1)).vertices._cells) := by
  have hwf : ∀ kc ∈ twoCellGrid.cells._cells, ∀ w ∈ kc.2._vertices,
      ∃ key, (key, w) ∈ twoCellGrid.vertices._cells := by
    have hidx : ∀ kc ∈ twoCellGrid.cells._cells, ∀ w ∈ kc.2._vertices,
        (w.index, w) ∈ twoCellGrid.vertices._cells := by
      decide
    exact fun kc hkc w hw => ⟨w.index, hidx kc hkc w hw⟩
  exact ⟨hwf, by decide,
    (filter_cells_no_dangling twoCellGrid (fun c => c.index == 1) hwf).1⟩

/-! ## Hntr::matrix: the row sum factors -/

theorem sum_map_range_eq_finset (f : Nat → ℚ) (n : Nat) :
    ((List.range n).map f).sum = ∑ k in Finset.range n, f k := by
  induction n with
  | zero => rfl
  | succ n ih => rw [List.sum_range_succ, Finset.sum_range_succ, ih]

/-- Sum of a function over the integers `lo, ..., hi`. -/
theorem sum_intRange (f : Int → ℚ) (lo hi : Int) :
    ((intRange lo hi).map f).sum
      = ∑ k in Finset.range (hi + 1 - lo).toNat, f (lo + (k : Int)) := by
  unfold intRange
  rw [List.map_map, sum_map_range_eq_finset]
  rfl

/-- The longitude fractions of a non-empty range add up to the number of columns less the two
end corrections. -/
theorem Hntr.sum_lonFraction (h : Hntr) (IB : Int) (hI : h.IMIN IB ≤ h.IMAX IB) :
    ((intRange (h.IMIN IB) (h.IMAX IB)).map (fun IAREV => h.lonFraction IB IAREV)).sum
      = ((h.IMAX IB - h.IMIN IB + 1 : Int) : ℚ) - h.FMIN IB - h.FMAX IB := by
  rw [sum_intRange]
  obtain ⟨n, hn⟩ : ∃ n : Nat, (h.IMAX IB + 1 - h.IMIN IB).toNat = n + 1 :=
    ⟨(h.IMAX IB - h.IMIN IB).toNat, by omega⟩
  have hmax : h.IMAX IB = h.IMIN IB + (n : Int) := by omega
  rw [hn]
  simp only [Hntr.lonFraction, Finset.sum_sub_distrib, Finset.sum_const, Finset.card_range,
    nsmul_eq_mul, mul_one]
  have h1 : ∑ k in Finset.range (n + 1),
      (if h.IMIN IB + (k : Int) = h.IMIN IB then h.FMIN IB else 0) = h.FMIN IB := by
    rw [Finset.sum_eq_single 0]
    · simp
    · intro k _ hk
      rw [if_neg]
      omega
    · intro h0
      exact absurd (Finset.mem_range.2 (Nat.succ_pos n)) h0
  have h2 : ∑ k in Finset.range (n + 1),
      (if h.IMIN IB + (k : Int) = h.IMAX IB then h.FMAX IB else 0) = h.FMAX IB := by
    rw [Finset.sum_eq_single n]
    · rw [if_pos hmax.symm]
    · intro k _ hk
      rw [if_neg]
      omega
    · intro h0
      exact absurd (Finset.mem_range.2 (Nat.lt_succ_self n)) h0
  rw [h1, h2, hmax]
  push_cast
  ring

/-- The latitude fractions of a non-empty range telescope. -/
theorem Hntr.sum_latFraction (h : Hntr) (JB : Int) (hJ : h.JMIN JB ≤ h.JMAX JB) :
    ((intRange (h.JMIN JB) (h.JMAX JB)).map (fun JA => h.latFraction JB JA)).sum
      = h.SINA (h.JMAX JB) - h.SINA (h.JMIN JB - 1) - h.GMIN JB - h.GMAX JB := by
  rw [sum_intRange]
  obtain ⟨n, hn⟩ : ∃ n : Nat, (h.JMAX JB + 1 - h.JMIN JB).toNat = n + 1 :=
    ⟨(h.JMAX JB - h.JMIN JB).toNat, by omega⟩
  have hmax : h.JMAX JB = h.JMIN JB + (n : Int) := by omega
  rw [hn]
  simp only [Hntr.latFraction, Finset.sum_sub_distrib]
  have h0 : ∑ k in Finset.range (n + 1),
      (h.SINA (h.JMIN JB + (k : Int)) - h.SINA (h.JMIN JB + (k : Int) - 1))
      = h.SINA (h.JMIN JB + (n : Int)) - h.SINA (h.JMIN JB - 1) := by
    have htel := Finset.sum_range_sub (fun k : Nat => h.SINA (h.JMIN JB + (k : Int) - 1)) (n + 1)
    simp only [Nat.cast_add, Nat.cast_one, Nat.cast_zero, add_zero] at htel
    have hshift : ∀ k : Nat, h.JMIN JB + ((k : Int) + 1) - 1 = h.JMIN JB + (k : Int) := by
      intro k
      ring
    simp only [hshift] at htel
    exact htel
  rw [Finset.sum_sub_distrib] at h0
  have h1 : ∑ k in Finset.range (n + 1),
      (if h.JMIN JB + (k : Int) = h.JMIN JB then h.GMIN JB else 0) = h.GMIN JB := by
    rw [Finset.sum_eq_single 0]
    · simp
    · intro k _ hk
      rw [if_neg]
      omega
    · intro h0
      exact absurd (Finset.mem_range.2 (Nat.succ_pos n)) h0
  have h2 : ∑ k in Finset.range (n + 1),
      (if h.JMIN JB + (k : Int) = h.JMAX JB then h.GMAX JB else 0) = h.GMAX JB := by
    rw [Finset.sum_eq_single n]
    · rw [if_pos hmax.symm]
    · intro k _ hk
      rw [if_neg]
      omega
    · intro h0
      exact absurd (Finset.mem_range.2 (Nat.lt_succ_self n)) h0
  rw [h0, h1, h2, hmax]

theorem sum_map_flatMap {α β : Type} (l : List α) (f : α → List β) (g : β → ℚ) :
    ((l.flatMap f).map g).sum = (l.map (fun x => ((f x).map g).sum)).sum := by
  induction l with
  | nil => rfl
  | cons a rest ih => simp [List.flatMap_cons, ih]

theorem sum_map_mul_left {α : Type} (l : List α) (c : ℚ) (f : α → ℚ) :
    (l.map (fun x => c * f x)).sum = c * (l.map f).sum := by
  induction l with
  | nil => simp
  | cons a rest ih => simp [ih, mul_add]

theorem sum_map_mul_right {α : Type} (l : List α) (c : ℚ) (f : α → ℚ) :
    (l.map (fun x => f x * c)).sum = (l.map f).sum * c := by
  induction l with
  | nil => simp
  | cons a rest ih => simp [ih, add_mul]

/-- The entries of one destination row among the entries `Hntr::matrix` emits: the images of
the overlap pairs of the cell. -/
theorem Hntr.entriesOfRow_eq (h : Hntr) (Bindex_clip : Int → Bool) (WTB : Int → ℚ)
    (JB IB : Int) (hJ1 : 1 ≤ JB) (hJ2 : JB ≤ h.Bgrid.jm) (hI1 : 1 ≤ IB) (hI2 : IB ≤ h.Bgrid.im) :
    entriesOfRow ((h.overlapList Bindex_clip).map (h.entryOf WTB))
        (IB - 1 + h.Bgrid.im * (JB - 1))
      = (if Bindex_clip (IB - 1 + h.Bgrid.im * (JB - 1)) = true then
          (intRange (h.JMIN JB) (h.JMAX JB)).flatMap fun JA =>
            (intRange (h.IMIN IB) (h.IMAX IB)).map fun IAREV => ⟨JB, IB, JA, IAREV⟩
        else []).map (h.entryOf WTB) := by
  rw [← h.overlapList_of_cell Bindex_clip JB IB hJ1 hJ2 hI1 hI2, entriesOfRow, List.filter_map]
  rfl

/-- C25. In exact arithmetic, for a destination cell `(IB, JB)` of grid B that passes the
filter and has non-empty ranges `IMIN(IB) ≤ IMAX(IB)` and `JMIN(JB) ≤ JMAX(JB)`, the values
`Hntr::matrix` emits for the cell's row sum to
`WTB(IJB) * ((IMAX(IB)-IMIN(IB)+1) - FMIN(IB) - FMAX(IB))
  * (SINA(JMAX(JB)) - SINA(JMIN(JB)-1) - GMIN(JB) - GMAX(JB))`. -/
theorem Hntr.matrix_row_sum_factors (h : Hntr) (accum : List Entry) (Bindex_clip : Int → Bool)
    (WTB : Int → ℚ) (JB IB : Int) (hJ1 : 1 ≤ JB) (hJ2 : JB ≤ h.Bgrid.jm) (hI1 : 1 ≤ IB)
    (hI2 : IB ≤ h.Bgrid.im) (hclip : Bindex_clip (IB - 1 + h.Bgrid.im * (JB - 1)) = true)
    (hI : h.IMIN IB ≤ h.IMAX IB) (hJ : h.JMIN JB ≤ h.JMAX JB) :
    ∃ emitted : List Entry, h.matrix accum Bindex_clip WTB = accum ++ emitted ∧
      rowSum emitted (IB - 1 + h.Bgrid.im * (JB - 1))
        = WTB (IB + h.Bgrid.im * (JB - 1))
          * (((h.IMAX IB - h.IMIN IB + 1 : Int) : ℚ) - h.FMIN IB - h.FMAX IB)
          * (h.SINA (h.JMAX JB) - h.SINA (h.JMIN JB - 1) - h.GMIN JB - h.GMAX JB) := by
  refine ⟨_, h.matrix_eq_overlapList accum Bindex_clip WTB, ?_⟩
  rw [rowSum, h.entriesOfRow_eq Bindex_clip WTB JB IB hJ1 hJ2 hI1 hI2, if_pos hclip,
    List.map_map, sum_map_flatMap]
  have hinner : ∀ JA : Int,
      (((intRange (h.IMIN IB) (h.IMAX IB)).map fun IAREV => (⟨JB, IB, JA, IAREV⟩ : Overlap)).map
          (Entry.value ∘ h.entryOf WTB)).sum
        = WTB (IB + h.Bgrid.im * (JB - 1))
            * (((h.IMAX IB - h.IMIN IB + 1 : Int) : ℚ) - h.FMIN IB - h.FMAX IB)
            * h.latFraction JB JA := by
    intro JA
    rw [List.map_map, ← h.sum_lonFraction IB hI, ← sum_map_mul_left, ← sum_map_mul_right]
    rfl
  simp only [hinner]
  rw [sum_map_mul_left, h.sum_latFraction JB hJ]

/-- Witness for C25: the cell `(IB, JB) = (1, 2)` of the tables `hntr42`, with weights 1: the
row of index 2 sums to `1 * (2 - 0 - 0) * (1 - 0 - 0 - 0)`. -/
theorem Hntr.matrix_row_sum_factors_witness :
    (1 : Int) ≤ 2 ∧ (2 : Int) ≤ hntr42.Bgrid.jm ∧ (1 : Int) ≤ 1 ∧ (1 : Int) ≤ hntr42.Bgrid.im ∧
    hntr42.IMIN 1 ≤ hntr42.IMAX 1 ∧ hntr42.JMIN 2 ≤ hntr42.JMAX 2 ∧
    ∃ emitted : List Entry, hntr42.matrix [] (fun _ => true) (fun _ => 1) = [] ++ emitted ∧
      rowSum emitted (1 - 1 + hntr42.Bgrid.im * (2 - 1))
        = 1 * (((hntr42.IMAX 1 - hntr42.IMIN 1 + 1 : Int) : ℚ) - hntr42.FMIN 1 - hntr42.FMAX 1)
          * (hntr42.SINA (hntr42.JMAX 2) - hntr42.SINA (hntr42.JMIN 2 - 1)
              - hntr42.GMIN 2 - hntr42.GMAX 2) :=
  ⟨by decide, by decide, by decide, by decide, by decide, by decide,
    Hntr.matrix_row_sum_factors hntr42 [] (fun _ => true) (fun _ => 1) 2 1
      (by decide) (by decide) (by decide) (by decide) rfl (by decide) (by decide)⟩

/-! ## Cell::proj_area: reversal and rotation of the ring -/

theorem crossTerm_antisymm (p q : ℚ × ℚ) : crossTerm q p = -crossTerm p q := by
  unfold crossTerm
  ring

/-- The loop of `proj_area` without projection adds the shoelace terms of the path from the
point held in `x0`, `y0` through the vertices. -/
theorem foldl_areaStep_chainSum (l : List Vertex) (s : AreaState) :
    (l.foldl (areaStep none) s).ret = s.ret + chainSum (s.x0, s.y0) (l.map Vertex.point) := by
  induction l generalizing s with
  | nil => simp [chainSum]
  | cons v rest ih =>
    rw [List.foldl_cons, ih]
    simp only [areaStep, projPoint, List.map_cons, chainSum, crossTerm, Vertex.point]
    ring

/-- `proj_area` without projection is half the ring sum of the vertices' points. -/
theorem Cell.proj_area_ringSum (c : Cell) :
    c.proj_area none
      = if c._vertices = [] then none
        else some (ringSum (c._vertices.map Vertex.point) * (1 / 2)) := by
  unfold Cell.proj_area ringSum
  cases hl : c._vertices.getLast? with
  | none =>
    rw [if_pos (List.getLast?_eq_none_iff.1 hl)]
  | some last =>
    have hne : c._vertices ≠ [] := by
      intro h0
      rw [h0] at hl
      cases hl
    have hlast : (c._vertices.map Vertex.point).getLast? = some last.point := by
      rw [List.getLast?_map, hl]
      rfl
    rw [if_neg hne, hlast]
    simp only [foldl_areaStep_chainSum, projPoint, zero_add]
    rfl

theorem chainSum_append_singleton (p q : ℚ × ℚ) (l : List (ℚ × ℚ)) :
    chainSum p (l ++ [q]) = chainSum p l + crossTerm (l.getLast?.getD p) q := by
  induction l generalizing p with
  | nil => simp [chainSum]
  | cons a rest ih =>
    rw [List.cons_append, chainSum, ih, chainSum, List.getLast?_cons]
    simp only [Option.getD_some]
    ring

/-- Moving the first point of a ring to the end does not change the ring sum. -/
theorem ringSum_rotate_one (a : ℚ × ℚ) (l : List (ℚ × ℚ)) :
    ringSum (l ++ [a]) = ringSum (a :: l) := by
  unfold ringSum
  rw [List.getLast?_concat, List.getLast?_cons]
  simp only
  rw [chainSum_append_singleton, chainSum]
  ring

theorem ringSum_rotate (l : List (ℚ × ℚ)) (k : Nat) : ringSum (l.rotate k) = ringSum l := by
  induction k generalizing l with
  | zero => rw [List.rotate_zero]
  | succ k ih =>
    cases l with
    | nil => rw [List.rotate_nil]
    | cons a rest => rw [List.rotate_cons_succ, ih, ringSum_rotate_one]

theorem pathSum_append_singleton (q : ℚ × ℚ) (l : List (ℚ × ℚ)) :
    pathSum (l ++ [q])
      = pathSum l + (match l.getLast? with | none => 0 | some last => crossTerm last q) := by
  cases l with
  | nil => simp [pathSum, chainSum]
  | cons a rest =>
    rw [List.cons_append, pathSum, pathSum, chainSum_append_singleton, List.getLast?_cons]

theorem pathSum_cons (p : ℚ × ℚ) (l : List (ℚ × ℚ)) :
    pathSum (p :: l)
      = (match l.head? with | none => 0 | some q => crossTerm p q) + pathSum l := by
  cases l with
  | nil => simp [pathSum, chainSum]
  | cons q rest => simp [pathSum, chainSum]

/-- Walking a path backwards negates its sum. -/
theorem pathSum_reverse (l : List (ℚ × ℚ)) : pathSum l.reverse = -pathSum l := by
  induction l with
  | nil => simp [pathSum]
  | cons p rest ih =>
    rw [List.reverse_cons, pathSum_append_singleton, ih, List.getLast?_reverse, pathSum_cons]
    cases rest.head? with
    | none => simp
    | some q =>
      simp only
      rw [crossTerm_antisymm p q]
      ring

theorem ringSum_eq (l : List (ℚ × ℚ)) :
    ringSum l
      = (match l.getLast?, l.head? with
          | some last, some first => crossTerm last first
          | _, _ => 0) + pathSum l := by
  cases l with
  | nil => simp [ringSum, pathSum]
  | cons a rest =>
    unfold ringSum
    rw [List.getLast?_cons]
    simp only [List.head?_cons, chainSum, pathSum]

/-- Reversing a ring negates the ring sum. -/
theorem ringSum_reverse (l : List (ℚ × ℚ)) : ringSum l.reverse = -ringSum l := by
  rw [ringSum_eq, ringSum_eq l, pathSum_reverse, List.getLast?_reverse, List.head?_reverse]
  cases hl : l.getLast? with
  | none =>
    have : l = [] := List.getLast?_eq_none_iff.1 hl
    subst this
    simp
  | some last =>
    cases hh : l.head? with
    | none =>
      have : l = [] := List.head?_eq_none_iff.1 hh
      subst this
      simp at hl
    | some first =>
      simp only
      rw [crossTerm_antisymm last first]
      ring

/-- C26. In exact arithmetic and with no projection, reversing the order of a cell's vertices
negates the value `proj_area` returns, and rotating the starting vertex of the ring leaves it
unchanged. -/
theorem Cell.proj_area_reverse_rotate (c : Cell) :
    (∀ a : ℚ, c.proj_area none = some a →
      ({ c with _vertices := c._vertices.reverse } : Cell).proj_area none = some (-a)) ∧
    (∀ k : Nat,
      ({ c with _vertices := c._vertices.rotate k } : Cell).proj_area none = c.proj_area none) := by
  constructor
  · intro a ha
    rw [Cell.proj_area_ringSum] at ha ⊢
    by_cases hnil : c._vertices = []
    · rw [if_pos hnil] at ha
      cases ha
    · rw [if_neg hnil] at ha
      have hrev : c._vertices.reverse ≠ [] := fun h => hnil (List.reverse_eq_nil_iff.1 h)
      simp only
      rw [if_neg hrev, List.map_reverse, ringSum_reverse]
      have h2 := Option.some.inj ha
      rw [← h2]
      congr 1
      ring
  · intro k
    rw [Cell.proj_area_ringSum, Cell.proj_area_ringSum]
    simp only
    by_cases hnil : c._vertices = []
    · rw [hnil, List.rotate_nil]
    · have hrot : c._vertices.rotate k ≠ [] := by
        intro h
        exact hnil (List.rotate_eq_nil_iff.1 h)
      rw [if_neg hnil, if_neg hrot, List.map_rotate, ringSum_rotate]

/-- Witness for C26: the counter-clockwise unit square has area 1; with its vertices in
reverse order `proj_area` returns `-1`. -/
theorem Cell.proj_area_reverse_rotate_witness :
    unitSquareCCW.proj_area none = some 1 ∧
    ({ unitSquareCCW with _vertices := unitSquareCCW._vertices.reverse } : Cell).proj_area none
      = some (-1) := by
  have h1 : unitSquareCCW.proj_area none = some 1 := by
    simp [Cell.proj_area, unitSquareCCW, areaStep, projPoint]
    norm_num
  exact ⟨h1, (Cell.proj_area_reverse_rotate unitSquareCCW).1 1 h1⟩

/-! ## I3XTranslator -/

/-- Decoding of `i3x = i1 * nhc + k` by the division of `int`. -/
theorem tdiv_decode (nhc i1 k : Int) (hn : 0 < nhc) (hi1 : 0 ≤ i1) (hk0 : 0 ≤ k) (hk : k < nhc) :
    Int.tdiv (i1 * nhc + k) nhc = i1 ∧ i1 * nhc + k - i1 * nhc = k := by
  have hnn : 0 ≤ i1 * nhc := mul_nonneg hi1 (le_of_lt hn)
  constructor
  · rw [Int.tdiv_eq_ediv (by omega) (le_of_lt hn), add_comm,
      Int.add_mul_ediv_right _ _ (ne_of_gt hn), Int.ediv_eq_zero_of_lt hk0 hk]
    ring
  · ring

theorem le_maxHeightClass_aux (hc : HCIndex) (used3 : List Int) (m : Int) :
    m ≤ used3.foldl (fun max_k p3 => max (hc.index_to_ik p3).2 max_k) m ∧
    ∀ i3 ∈ used3, (hc.index_to_ik i3).2
      ≤ used3.foldl (fun max_k p3 => max (hc.index_to_ik p3).2 max_k) m := by
  induction used3 generalizing m with
  | nil => simp
  | cons p rest ih =>
    obtain ⟨h1, h2⟩ := ih (max (hc.index_to_ik p).2 m)
    rw [List.foldl_cons]
    constructor
    · exact le_trans (le_max_right _ _) h1
    · intro i3 hi3
      rcases List.mem_cons.1 hi3 with h | h
      · rw [h]
        exact le_trans (le_max_left _ _) h1
      · exact h2 i3 h

/-- The `nhc` chosen in `ice_to_hp` is positive and exceeds the height class of every used
height point. -/
theorem trans3x_nhc (hc : HCIndex) (used3 : List Int) :
    0 < (trans3x hc used3).nhc ∧
    ∀ i3 ∈ used3, (hc.index_to_ik i3).2 < (trans3x hc used3).nhc := by
  obtain ⟨h1, h2⟩ := le_maxHeightClass_aux hc used3 0
  constructor
  · show 0 < maxHeightClass hc used3 + 1
    unfold maxHeightClass
    omega
  · intro i3 hi3
    show (hc.index_to_ik i3).2 < maxHeightClass hc used3 + 1
    have := h2 i3 hi3
    unfold maxHeightClass
    omega

/-- C28. For every `nhc > 0`, `i1 ≥ 0` and `0 ≤ k < nhc`, when `index_to_ik` inverts
`ik_to_index` at `(i1, k)`, the translator with that `nhc` maps `i3 = ik_to_index(i1, k)` to
`i3x = i1 * nhc + k`, decodes `i3x` to the same `(i1, k)` by `i1 = i3x / nhc`,
`k = i3x - i1 * nhc`, and `i3x_to_i3(i3_to_i3x(i3)) = i3`. The `nhc = max_k + 1` chosen in
`ice_to_hp` is positive and exceeds the height class of every used height point, so that
used height points (on which `ik_to_index` inverts `index_to_ik` and whose height class is
non-negative) with distinct `i3` get distinct `i3x`. -/
theorem I3XTranslator.roundtrip (hc : HCIndex) (nhc i1 k : Int) (used3 : List Int)
    (hn : 0 < nhc) (hi1 : 0 ≤ i1) (hk0 : 0 ≤ k) (hk : k < nhc)
    (hinv : hc.index_to_ik (hc.ik_to_index i1 k) = (i1, k))
    (hused : ∀ i3 ∈ used3, 0 ≤ (hc.index_to_ik i3).2 ∧
      hc.ik_to_index (hc.index_to_ik i3).1 (hc.index_to_ik i3).2 = i3) :
    ((⟨hc, nhc⟩ : I3XTranslator).i3_to_i3x (hc.ik_to_index i1 k) = i1 * nhc + k ∧
      Int.tdiv (i1 * nhc + k) nhc = i1 ∧ i1 * nhc + k - i1 * nhc = k ∧
      (⟨hc, nhc⟩ : I3XTranslator).i3x_to_i3
          ((⟨hc, nhc⟩ : I3XTranslator).i3_to_i3x (hc.ik_to_index i1 k))
        = hc.ik_to_index i1 k) ∧
    (trans3x hc used3).nhc = maxHeightClass hc used3 + 1 ∧
    0 < (trans3x hc used3).nhc ∧
    (∀ i3 ∈ used3, (hc.index_to_ik i3).2 < (trans3x hc used3).nhc) ∧
    (∀ i3 ∈ used3, ∀ i3' ∈ used3,
      (trans3x hc used3).i3_to_i3x i3 = (trans3x hc used3).i3_to_i3x i3' → i3 = i3') := by
  constructor
  · obtain ⟨hd, hr⟩ := tdiv_decode nhc i1 k hn hi1 hk0 hk
    have hx : (⟨hc, nhc⟩ : I3XTranslator).i3_to_i3x (hc.ik_to_index i1 k) = i1 * nhc + k := by
      simp only [I3XTranslator.i3_to_i3x, hinv]
    refine ⟨hx, hd, hr, ?_⟩
    rw [hx]
    simp only [I3XTranslator.i3x_to_i3, hd, hr]
  · obtain ⟨hpos, hlt⟩ := trans3x_nhc hc used3
    refine ⟨rfl, hpos, hlt, ?_⟩
    intro i3 hi3 i3' hi3' heq
    simp only [I3XTranslator.i3_to_i3x] at heq
    have hn : (trans3x hc used3).hc_index = hc := rfl
    rw [hn] at heq
    have ha := (hused i3 hi3).1
    have hb := hlt i3 hi3
    have ha' := (hused i3' hi3').1
    have hb' := hlt i3' hi3'
    have hdiv : (hc.index_to_ik i3).1 = (hc.index_to_ik i3').1 := by
      have e1 : ((hc.index_to_ik i3).1 * (trans3x hc used3).nhc + (hc.index_to_ik i3).2)
          / (trans3x hc used3).nhc = (hc.index_to_ik i3).1 := by
        rw [add_comm, Int.add_mul_ediv_right _ _ (ne_of_gt hpos), Int.ediv_eq_zero_of_lt ha hb]
        ring
      have e2 : ((hc.index_to_ik i3').1 * (trans3x hc used3).nhc + (hc.index_to_ik i3').2)
          / (trans3x hc used3).nhc = (hc.index_to_ik i3').1 := by
        rw [add_comm, Int.add_mul_ediv_right _ _ (ne_of_gt hpos), Int.ediv_eq_zero_of_lt ha' hb']
        ring
      rw [← e1, ← e2, heq]
    have hmod : (hc.index_to_ik i3).2 = (hc.index_to_ik i3').2 := by
      rw [hdiv] at heq
      omega
    rw [← (hused i3 hi3).2, ← (hused i3' hi3').2, hdiv, hmod]

/-- Witness for C28: the height-class index `i3 = 4 * i1 + k` with `nhc = 3`, `i1 = 2`,
`k = 1` and the used height points 9, 2 and 6: `i3 = 9` is renumbered to `i3x = 7` and
decoded back to 9, and `max_k + 1 = 3`. -/
theorem I3XTranslator.roundtrip_witness :
    (⟨hcIndex4, 3⟩ : I3XTranslator).i3_to_i3x (hcIndex4.ik_to_index 2 1) = 2 * 3 + 1 ∧
    (⟨hcIndex4, 3⟩ : I3XTranslator).i3x_to_i3
        ((⟨hcIndex4, 3⟩ : I3XTranslator).i3_to_i3x (hcIndex4.ik_to_index 2 1))
      = hcIndex4.ik_to_index 2 1 ∧
    (trans3x hcIndex4 [9, 2, 6]).nhc = 3 ∧
    (∀ i3 ∈ [9, 2, 6], ∀ i3' ∈ [9, 2, 6],
      (trans3x hcIndex4 [9, 2, 6]).i3_to_i3x i3 = (trans3x hcIndex4 [9, 2, 6]).i3_to_i3x i3'
        → i3 = i3') := by
  have h := I3XTranslator.roundtrip hcIndex4 3 2 1 [9, 2, 6] (by decide) (by decide)
    (by decide) (by decide) (by decide) (by decide)
  exact ⟨h.1.1, h.1.2.2.2, by decide, h.2.2.2.2⟩

/-! ## The equality-constraint right-hand side of ice_to_hp -/

/-- The accumulation `qpt.C[i1p] -= f2p(i2p) * ii.val()` over `Sp`, from any start `C0`,
leaves at row `i1p` the start value minus the product `Sp * f2p` at that row. -/
theorem constraintRhs_fold (Sp : List Entry) (f2p : Int → ℚ) (C0 : Int → ℚ) (i1p : Int) :
    Sp.foldl (fun C ii => Function.update C ii.row (C ii.row - f2p ii.col * ii.value)) C0 i1p
      = C0 i1p - rowDot Sp f2p i1p := by
  induction Sp generalizing C0 with
  | nil => simp [rowDot, entriesOfRow]
  | cons e rest ih =>
    rw [List.foldl_cons, ih]
    by_cases h : e.row = i1p
    · subst h
      simp [rowDot, entriesOfRow, Function.update_same]
      ring
    · have h2 : i1p ≠ e.row := fun h3 => h h3.symm
      simp [rowDot, entriesOfRow, h, Function.update_noteq h2]

/-- Counterexample for C27: with the single entry `Sp(0, 0) = 2` and `f2p(0) = 3` the
product `Sp * f2p` at row 0 is 6, but `qpt.C[0]` is -6. -/
theorem constraintRhs_counterexample :
    rowDot [⟨0, 0, 2⟩] (fun _ => 3) 0 = 6 ∧
    constraintRhs [⟨0, 0, 2⟩] (fun _ => 3) 0 = -6 ∧
    constraintRhs [⟨0, 0, 2⟩] (fun _ => 3) 0 ≠ rowDot [⟨0, 0, 2⟩] (fun _ => 3) 0 := by
  have h1 : rowDot [⟨0, 0, 2⟩] (fun _ => 3) 0 = 6 := by
    simp [rowDot, entriesOfRow]
    norm_num
  have h2 : constraintRhs [⟨0, 0, 2⟩] (fun _ => 3) 0 = -6 := by
    simp [constraintRhs]
    norm_num
  refine ⟨h1, h2, ?_⟩
  rw [h1, h2]
  norm_num

/-- C27 (amended). In exact arithmetic, for every packed atmosphere row `i1p`, `qpt.C[i1p]`
is the negative of the sum over the entries of `Sp` in row `i1p` of
`Sp(i1p, i2p) * f2p(i2p)`, where `Sp` is the area-normalised packed matrix: each of its
values is the value before normalisation times `area1p_inv(i1p)`. -/
theorem constraintRhs_eq_neg (Sp0 : List Entry) (area1p_inv f2p : Int → ℚ) (i1p : Int) :
    constraintRhs (scaleRows Sp0 area1p_inv) f2p i1p
        = - rowDot (scaleRows Sp0 area1p_inv) f2p i1p ∧
    rowDot (scaleRows Sp0 area1p_inv) f2p i1p
        = area1p_inv i1p * rowDot Sp0 f2p i1p := by
  constructor
  · unfold constraintRhs
    rw [constraintRhs_fold]
    ring
  · induction Sp0 with
    | nil => simp [rowDot, entriesOfRow, scaleRows]
    | cons e rest ih =>
      simp only [rowDot, entriesOfRow, scaleRows] at ih ⊢
      by_cases h : e.row = i1p
      · simp only [List.map_cons, List.filter_cons, h, decide_True, if_true, List.sum_cons, ih]
        ring
      · simp only [List.map_cons, List.filter_cons, h, decide_False, Bool.false_eq_true,
          if_false, ih]

/-! ## parse_comma_list -/

theorem splitFields_ne_nil (s : List Char) : splitFields s ≠ [] := by
  cases s with
  | nil => simp [splitFields]
  | cons c cs =>
    simp only [splitFields]
    split <;> simp

theorem length_splitFields (s : List Char) : (splitFields s).length = s.count ',' + 1 := by
  induction s with
  | nil => simp [splitFields]
  | cons c cs ih =>
    simp only [splitFields]
    by_cases h : c = ','
    · subst h
      simp [ih]
    · have h2 : (splitFields cs).tail.length + 1 = (splitFields cs).length := by
        cases hs : splitFields cs with
        | nil => exact absurd hs (splitFields_ne_nil cs)
        | cons a b => simp
      simp only [h, if_false, List.length_cons, h2, ih]
      rw [List.count_cons_of_ne (fun h3 => h h3.symm)]

theorem splitFields_cons_ne (c : Char) (cs : List Char) (hc : c ≠ ',') :
    splitFields (c :: cs) = (c :: (splitFields cs).headD []) :: (splitFields cs).tail := by
  simp only [splitFields, hc, if_false]

/-- A comma-free prefix followed by a comma is the first field. -/
theorem splitFields_append_comma (f rest : List Char) (hf : ',' ∉ f) :
    splitFields (f ++ ',' :: rest) = f :: splitFields rest := by
  induction f with
  | nil => simp [splitFields]
  | cons c cs ih =>
    have hc : c ≠ ',' := fun h => hf (by simp [h])
    have hcs : ',' ∉ cs := fun h => hf (List.mem_cons_of_mem _ h)
    rw [List.cons_append, splitFields_cons_ne _ _ hc, ih hcs]
    rfl

/-- A comma-free string is its only field. -/
theorem splitFields_comma_free (f : List Char) (hf : ',' ∉ f) : splitFields f = [f] := by
  induction f with
  | nil => simp [splitFields]
  | cons c cs ih =>
    have hc : c ≠ ',' := fun h => hf (by simp [h])
    have hcs : ',' ∉ cs := fun h => hf (List.mem_cons_of_mem _ h)
    rw [splitFields_cons_ne _ _ hc, ih hcs]
    rfl

/-- What `getline` extracts: the first field, and the stream after its comma, or the end
of the stream. -/
theorem extractUntil_spec (s : List Char) :
    (∀ f rest, extractUntil ',' s = (f, some rest) →
      rest.length < s.length ∧ splitFields s = f :: splitFields rest) ∧
    (∀ f, extractUntil ',' s = (f, none) → splitFields s = [f]) := by
  induction s with
  | nil =>
    constructor
    · intro f rest h
      simp [extractUntil] at h
    · intro f h
      simp only [extractUntil, Prod.mk.injEq, and_true] at h
      simp [splitFields, ← h]
  | cons c cs ih =>
    by_cases hc : c = ','
    · subst hc
      constructor
      · intro f rest h
        simp only [extractUntil, if_true, Prod.mk.injEq, Option.some.injEq] at h
        obtain ⟨h1, h2⟩ := h
        subst h1 h2
        simp [splitFields]
      · intro f h
        simp [extractUntil] at h
    · constructor
      · intro f rest h
        simp only [extractUntil, hc, if_false, Prod.mk.injEq] at h
        obtain ⟨h1, h2⟩ := h
        obtain ⟨h3, h4⟩ := ih.1 (extractUntil ',' cs).1 rest (Prod.ext rfl h2)
        refine ⟨by simp only [List.length_cons]; omega, ?_⟩
        rw [splitFields_cons_ne _ _ hc, h4, ← h1]
        rfl
      · intro f h
        simp only [extractUntil, hc, if_false, Prod.mk.injEq] at h
        obtain ⟨h1, h2⟩ := h
        have h4 := ih.2 (extractUntil ',' cs).1 (Prod.ext rfl h2)
        rw [splitFields_cons_ne _ _ hc, h4, ← h1]
        rfl

/-- With more iterations allowed than the stream has characters left plus one, the loop
of `parse_comma_list` on a good stream returns the fields of the remaining characters
after the result so far. -/
theorem parseLoop_eq (fuel : Nat) (s : List Char) (result : List (List Char))
    (hfuel : s.length + 2 ≤ fuel) :
    parseLoop fuel (StringStream.ofString s) result = some (result ++ splitFields s) := by
  induction fuel generalizing s result with
  | zero => omega
  | succ n ih =>
    have hgood : (StringStream.ofString s).good = true := rfl
    simp only [parseLoop, hgood, if_true]
    rcases hx : extractUntil ',' s with ⟨f, _ | rest⟩
    · have hsp := (extractUntil_spec s).2 f hx
      have hg : getline (StringStream.ofString s) ','
          = ({ buf := [], eofbit := true, failbit := f.isEmpty }, f) := by
        simp only [getline, StringStream.ofString, hx]
      rw [hg, hsp]
      cases n with
      | zero => omega
      | succ m => simp [parseLoop, StringStream.good]
    · obtain ⟨hlen, hsp⟩ := (extractUntil_spec s).1 f rest hx
      have hg : getline (StringStream.ofString s) ',' = (StringStream.ofString rest, f) := by
        simp only [getline, StringStream.ofString, hx]
      rw [hg, hsp, ih rest (result ++ [f]) (by omega)]
      simp

theorem parse_comma_list_eq (s : List Char) : parse_comma_list s = some (splitFields s) := by
  unfold parse_comma_list
  rw [parseLoop_eq _ s [] (le_refl _)]
  simp

/-- The loop of `netcdf_define` appends to `sheet_names` a string whose fields are the
names. -/
theorem sheetNamesLoop_spec (names : List (List Char)) (hne : names ≠ [])
    (hfree : ∀ name ∈ names, ',' ∉ name) (acc : List Char) :
    ∃ joined, sheetNamesLoop names acc = some (acc ++ joined) ∧ splitFields joined = names := by
  induction names generalizing acc with
  | nil => exact absurd rfl hne
  | cons name rest ih =>
    cases rest with
    | nil =>
      exact ⟨name, rfl, splitFields_comma_free name (hfree name (List.mem_cons_self _ _))⟩
    | cons next rest2 =>
      obtain ⟨j, hj1, hj2⟩ := ih (by simp)
        (fun n hn => hfree n (List.mem_cons_of_mem _ hn)) (acc ++ name ++ [','])
      refine ⟨name ++ ',' :: j, ?_, ?_⟩
      · simp only [sheetNamesLoop, hj1]
        simp
      · rw [splitFields_append_comma name j (hfree name (List.mem_cons_self _ _)), hj2]

/-- C30. For every non-empty list of ice-sheet names none of which contains a comma,
`netcdf_define` builds a `sheetnames` attribute and `parse_comma_list` applied to it
returns exactly the original list in order; for every string, `parse_comma_list` returns
as many fields as the string has commas, plus one; and the empty string gives one empty
field. -/
theorem parse_comma_list_roundtrip (names : List (List Char)) (hne : names ≠ [])
    (hfree : ∀ name ∈ names, ',' ∉ name) :
    (∃ joined, sheetNames names = some joined ∧ parse_comma_list joined = some names) ∧
    (∀ s : List Char, ∃ fields, parse_comma_list s = some fields ∧
      fields.length = s.count ',' + 1) ∧
    parse_comma_list [] = some [[]] := by
  refine ⟨?_, ?_, ?_⟩
  · obtain ⟨j, hj1, hj2⟩ := sheetNamesLoop_spec names hne hfree []
    refine ⟨j, ?_, ?_⟩
    · simpa [sheetNames] using hj1
    · rw [parse_comma_list_eq, hj2]
  · intro s
    exact ⟨splitFields s, parse_comma_list_eq s, length_splitFields s⟩
  · rw [parse_comma_list_eq]
    rfl

/-- Witness for C30: the names `gr` and `an` are joined to `gr,an` and parsed back; the
string `a,,b,` with three commas has the four fields `a`, the empty field, `b` and the
empty field. -/
theorem parse_comma_list_roundtrip_witness :
    sheetNames [['g', 'r'], ['a', 'n']] = some ['g', 'r', ',', 'a', 'n'] ∧
    parse_comma_list ['g', 'r', ',', 'a', 'n'] = some [['g', 'r'], ['a', 'n']] ∧
    parse_comma_list ['a', ',', ',', 'b', ','] = some [['a'], [], ['b'], []] ∧
    (∃ joined, sheetNames [['g', 'r'], ['a', 'n']] = some joined ∧
      parse_comma_list joined = some [['g', 'r'], ['a', 'n']]) :=
  ⟨by decide, by decide, by decide,
    (parse_comma_list_roundtrip [['g', 'r'], ['a', 'n']] (by decide) (by decide)).1⟩

/-! ## The packed vector spaces of ice_to_hp -/

/-- A packed index returned by `a2b` for a used identifier is below `nb()` and is mapped
back by `b2a`. -/
theorem IndexTranslator.a2b_of_mem {σ α : Type} [DecidableEq α] (size_a : σ) (used : List α)
    (x : α) (hx : x ∈ used) :
    ∃ i, (IndexTranslator.init size_a used).a2b x = some i ∧
      i < (IndexTranslator.init size_a used).nb ∧
      (IndexTranslator.init size_a used).b2a i = some x := by
  have hlt : used.indexOf x < used.length := List.indexOf_lt_length.2 hx
  refine ⟨used.indexOf x, ?_, hlt, ?_⟩
  · simp only [IndexTranslator.a2b, IndexTranslator.init, hx, if_true]
  · simp only [IndexTranslator.b2a, IndexTranslator.init]
    rw [List.getElem?_eq_getElem hlt, List.getElem_indexOf]

/-- Each packed index below `nb()` is the packed index of one used identifier. -/
theorem IndexTranslator.b2a_of_lt {σ α : Type} [DecidableEq α] (size_a : σ) (used : List α)
    (hnd : used.Nodup) (i : Nat) (hi : i < used.length) :
    ∃ x, (IndexTranslator.init size_a used).b2a i = some x ∧ x ∈ used ∧
      (IndexTranslator.init size_a used).a2b x = some i := by
  have hmem : used[i] ∈ used := List.getElem_mem hi
  refine ⟨used[i], ?_, hmem, ?_⟩
  · simp only [IndexTranslator.b2a, IndexTranslator.init]
    exact List.getElem?_eq_getElem hi
  · simp only [IndexTranslator.a2b, IndexTranslator.init, hmem, if_true]
    rw [List.indexOf_getElem hnd]

/-- A left fold whose steps only enlarge the state, in the sense of `le`, and record the
element just visited. -/
theorem foldl_record {σ β : Type} (le : σ → σ → Prop) (hrefl : ∀ u, le u u)
    (htrans : ∀ u v w, le u v → le v w → le u w) (f : σ → β → σ) (P : β → σ → Prop)
    (hstep : ∀ u x, le u (f u x) ∧ P x (f u x))
    (hmono : ∀ x u v, P x u → le u v → P x v) (l : List β) (u : σ) :
    le u (l.foldl f u) ∧ ∀ x ∈ l, P x (l.foldl f u) := by
  induction l generalizing u with
  | nil => exact ⟨hrefl u, fun x hx => absurd hx (List.not_mem_nil x)⟩
  | cons a rest ih =>
    obtain ⟨h1, h2⟩ := ih (f u a)
    rw [List.foldl_cons]
    refine ⟨htrans _ _ _ (hstep u a).1 h1, ?_⟩
    intro x hx
    rcases List.mem_cons.1 hx with h | h
    · rw [h]
      exact hmono a _ _ (hstep u a).2 h1
    · exact h2 x h

theorem UsedSets.le_refl (u : UsedSets) : u.le u :=
  ⟨fun _ h => h, fun _ h => h, fun _ h => h⟩

theorem UsedSets.le_trans (u v w : UsedSets) (h1 : u.le v) (h2 : v.le w) : u.le w :=
  ⟨fun _ h => h2.1 (h1.1 h), fun _ h => h2.2.1 (h1.2.1 h), fun _ h => h2.2.2 (h1.2.2 h)⟩

theorem subset_insert_self {α : Type} [DecidableEq α] (a : α) (l : List α) :
    l ⊆ l.insert a :=
  fun _ h => List.mem_insert_iff.2 (Or.inr h)

theorem usedOfRM0_spec (RM0 : List Entry) (u : UsedSets) :
    u.le (usedOfRM0 RM0 u) ∧
    ∀ ii ∈ RM0, ii.row ∈ (usedOfRM0 RM0 u).used1 ∧ ii.col ∈ (usedOfRM0 RM0 u).used3 := by
  unfold usedOfRM0
  refine foldl_record UsedSets.le UsedSets.le_refl UsedSets.le_trans _
    (fun ii u => ii.row ∈ u.used1 ∧ ii.col ∈ u.used3) ?_ ?_ RM0 u
  · intro u x
    exact ⟨⟨subset_insert_self _ _, fun _ h => h, subset_insert_self _ _⟩,
      List.mem_insert_self _ _, List.mem_insert_self _ _⟩
  · intro x u v h hle
    exact ⟨hle.1 h.1, hle.2.2 h.2⟩

theorem usedOfS_spec (index : Int) (S : List Entry) (u : UsedSets) :
    u.le (usedOfS index S u) ∧
    ∀ ii ∈ S, ii.row ∈ (usedOfS index S u).used1 ∧
      (index, ii.col) ∈ (usedOfS index S u).used2 := by
  unfold usedOfS
  refine foldl_record UsedSets.le UsedSets.le_refl UsedSets.le_trans _
    (fun ii u => ii.row ∈ u.used1 ∧ (index, ii.col) ∈ u.used2) ?_ ?_ S u
  · intro u x
    exact ⟨⟨subset_insert_self _ _, fun _ h => List.mem_insert_iff.2 (Or.inr h), fun _ h => h⟩,
      List.mem_insert_self _ _, List.mem_insert_self _ _⟩
  · intro x u v h hle
    exact ⟨hle.1 h.1, hle.2.1 h.2⟩

theorem usedOfXM_spec (index : Int) (XM : List Entry) (u : UsedSets) :
    u.le (usedOfXM index XM u) ∧
    ∀ ii ∈ XM, (index, ii.row) ∈ (usedOfXM index XM u).used2 ∧
      ii.col ∈ (usedOfXM index XM u).used3 := by
  unfold usedOfXM
  refine foldl_record UsedSets.le UsedSets.le_refl UsedSets.le_trans _
    (fun ii u => (index, ii.row) ∈ u.used2 ∧ ii.col ∈ u.used3) ?_ ?_ XM u
  · intro u x
    exact ⟨⟨fun _ h => h, fun _ h => List.mem_insert_iff.2 (Or.inr h), subset_insert_self _ _⟩,
      List.mem_insert_self _ _, List.mem_insert_self _ _⟩
  · intro x u v h hle
    exact ⟨hle.2.1 h.1, hle.2.2 h.2⟩

/-- Every row and column of `RM0` and of the matrices of the ice sheets is in the used set
of its vector space. -/
theorem usedSets_spec (RM0 : List Entry) (sheets : List SheetMatrices) :
    (∀ ii ∈ RM0, ii.row ∈ (usedSets RM0 sheets).used1 ∧
      ii.col ∈ (usedSets RM0 sheets).used3) ∧
    ∀ sheet ∈ sheets,
      (∀ ii ∈ sheet.S, ii.row ∈ (usedSets RM0 sheets).used1 ∧
        (sheet.index, ii.col) ∈ (usedSets RM0 sheets).used2) ∧
      (∀ ii ∈ sheet.XM, (sheet.index, ii.row) ∈ (usedSets RM0 sheets).used2 ∧
        ii.col ∈ (usedSets RM0 sheets).used3) := by
  have h := foldl_record UsedSets.le UsedSets.le_refl UsedSets.le_trans
    (fun u (sheet : SheetMatrices) =>
      usedOfXM sheet.index sheet.XM (usedOfS sheet.index sheet.S u))
    (fun sheet u =>
      (∀ ii ∈ sheet.S, ii.row ∈ u.used1 ∧ (sheet.index, ii.col) ∈ u.used2) ∧
      (∀ ii ∈ sheet.XM, (sheet.index, ii.row) ∈ u.used2 ∧ ii.col ∈ u.used3))
    (fun u sheet => by
      have hS := usedOfS_spec sheet.index sheet.S u
      have hX := usedOfXM_spec sheet.index sheet.XM (usedOfS sheet.index sheet.S u)
      refine ⟨UsedSets.le_trans _ _ _ hS.1 hX.1, ?_, hX.2⟩
      intro ii hii
      exact ⟨hX.1.1 (hS.2 ii hii).1, hX.1.2.1 (hS.2 ii hii).2⟩)
    (fun sheet u v h hle =>
      ⟨fun ii hii => ⟨hle.1 (h.1 ii hii).1, hle.2.1 (h.1 ii hii).2⟩,
        fun ii hii => ⟨hle.2.1 (h.2 ii hii).1, hle.2.2 (h.2 ii hii).2⟩⟩)
    sheets (usedOfRM0 RM0 ⟨[], [], []⟩)
  have h0 := usedOfRM0_spec RM0 ⟨[], [], []⟩
  refine ⟨fun ii hii => ⟨h.1.1 (h0.2 ii hii).1, h.1.2.2 (h0.2 ii hii).2⟩, h.2⟩

/-- Every renumbered used height point is in `used3x`. -/
theorem usedSet3x_spec (t : I3XTranslator) (used3 : List Int) :
    ∀ p3 ∈ used3, t.i3_to_i3x p3 ∈ usedSet3x t used3 := by
  unfold usedSet3x
  exact (foldl_record (fun (u v : List Int) => u ⊆ v) (fun _ _ h => h)
    (fun _ _ _ h1 h2 _ h => h2 (h1 h)) _ (fun p3 u => t.i3_to_i3x p3 ∈ u)
    (fun u x => ⟨subset_insert_self _ _, List.mem_insert_self _ _⟩)
    (fun x u v h hle => hle h) used3 []).2

theorem inPacked_of_mem {σ τ α β : Type} [DecidableEq α] [DecidableEq β] (s : σ) (s2 : τ)
    (usedA : List α) (usedB : List β) (a : α) (b : β) (v : ℚ) (ha : a ∈ usedA)
    (hb : b ∈ usedB) :
    InPacked (IndexTranslator.init s usedA).nb (IndexTranslator.init s2 usedB).nb
      ((IndexTranslator.init s usedA).a2b a, (IndexTranslator.init s2 usedB).a2b b, v) := by
  obtain ⟨i, hi1, hi2, _⟩ := IndexTranslator.a2b_of_mem s usedA a ha
  obtain ⟨j, hj1, hj2, _⟩ := IndexTranslator.a2b_of_mem s2 usedB b hb
  exact ⟨⟨i, hi1, hi2⟩, ⟨j, hj1, hj2⟩⟩

/-- C21. For every full-domain size and every used set, given as a list without
repetition, the index translator initialised with them is a bijection between the used set
and the packed indices below its size: `nb()` is the number of used identifiers, `a2b` maps
every used identifier to a packed index below `nb()` that `b2a` maps back to it, and `b2a`
maps every packed index below `nb()` to a used identifier that `a2b` maps back to it. Hence
in `ice_to_hp` every row and column translated for `RMp`, `Sp` and `XMp` is found and lies
below `n1p`, `n2p`, `n3p` as the matrix dimensions ask. -/
theorem IndexTranslator.bijection {σ α : Type} [DecidableEq α] (size_a : σ) (used : List α)
    (hnd : used.Nodup) :
    ((IndexTranslator.init size_a used).nb = used.length ∧
      (∀ x ∈ used, ∃ i, (IndexTranslator.init size_a used).a2b x = some i ∧
        i < (IndexTranslator.init size_a used).nb ∧
        (IndexTranslator.init size_a used).b2a i = some x) ∧
      (∀ i, i < used.length → ∃ x, (IndexTranslator.init size_a used).b2a i = some x ∧
        x ∈ used ∧ (IndexTranslator.init size_a used).a2b x = some i)) ∧
    (∀ (hc : HCIndex) (n1 n3 : Int) (RM0 : List Entry) (sheets : List SheetMatrices),
      (∀ e ∈ (packedSpaces hc n1 n3 RM0 sheets).translateRM RM0,
        InPacked (packedSpaces hc n1 n3 RM0 sheets).n1p
          (packedSpaces hc n1 n3 RM0 sheets).n3p e) ∧
      (∀ sheet ∈ sheets,
        (∀ e ∈ (packedSpaces hc n1 n3 RM0 sheets).translateS sheet.index sheet.S,
          InPacked (packedSpaces hc n1 n3 RM0 sheets).n1p
            (packedSpaces hc n1 n3 RM0 sheets).n2p e) ∧
        (∀ e ∈ (packedSpaces hc n1 n3 RM0 sheets).translateXM sheet.index sheet.XM,
          InPacked (packedSpaces hc n1 n3 RM0 sheets).n2p
            (packedSpaces hc n1 n3 RM0 sheets).n3p e))) := by
  refine ⟨⟨rfl, fun x hx => IndexTranslator.a2b_of_mem size_a used x hx,
    fun i hi => IndexTranslator.b2a_of_lt size_a used hnd i hi⟩, ?_⟩
  intro hc n1 n3 RM0 sheets
  obtain ⟨hRM, hsheets⟩ := usedSets_spec RM0 sheets
  have h3x := usedSet3x_spec (trans3x hc (usedSets RM0 sheets).used3)
    (usedSets RM0 sheets).used3
  refine ⟨?_, ?_⟩
  · intro e he
    obtain ⟨ii, hii, rfl⟩ := List.mem_map.1 he
    exact inPacked_of_mem _ _ _ _ _ _ _ (hRM ii hii).1 (h3x _ (hRM ii hii).2)
  · intro sheet hsheet
    obtain ⟨hS, hXM⟩ := hsheets sheet hsheet
    refine ⟨?_, ?_⟩
    · intro e he
      obtain ⟨ii, hii, rfl⟩ := List.mem_map.1 he
      exact inPacked_of_mem _ _ _ _ _ _ _ (hS ii hii).1 (hS ii hii).2
    · intro e he
      obtain ⟨ii, hii, rfl⟩ := List.mem_map.1 he
      exact inPacked_of_mem _ _ _ _ _ _ _ (hXM ii hii).1 (h3x _ (hXM ii hii).2)

/-- Witness for C21: the used set `{5, 2, 9}` of a domain of size 10 has three packed
indices; the identifier 9 has packed index 2 and packed index 2 is the identifier 9. -/
theorem IndexTranslator.bijection_witness :
    [(5 : Int), 2, 9].Nodup ∧
    (IndexTranslator.init (10 : Int) [(5 : Int), 2, 9]).nb = 3 ∧
    (IndexTranslator.init (10 : Int) [(5 : Int), 2, 9]).a2b 9 = some 2 ∧
    (IndexTranslator.init (10 : Int) [(5 : Int), 2, 9]).b2a 2 = some 9 ∧
    (∀ e ∈ (packedSpaces hcIndex4 10 40 [⟨5, 9, 1⟩] [sheet7]).translateRM [⟨5, 9, 1⟩],
      InPacked (packedSpaces hcIndex4 10 40 [⟨5, 9, 1⟩] [sheet7]).n1p
        (packedSpaces hcIndex4 10 40 [⟨5, 9, 1⟩] [sheet7]).n3p e) :=
  ⟨by decide, (IndexTranslator.bijection (10 : Int) [(5 : Int), 2, 9] (by decide)).1.1,
    by decide, by decide,
    ((IndexTranslator.bijection (10 : Int) [(5 : Int), 2, 9] (by decide)).2
      hcIndex4 10 40 [⟨5, 9, 1⟩] [sheet7]).1⟩

/-! ## regrid1 -/

theorem foldl_pair_sum {α : Type} (l : List α) (f g : α → ℚ) (acc : ℚ × ℚ) :
    l.foldl (fun acc x => (acc.1 + f x, acc.2 + g x)) acc
      = (acc.1 + (l.map f).sum, acc.2 + (l.map g).sum) := by
  induction l generalizing acc with
  | nil => simp
  | cons a rest ih =>
    rw [List.foldl_cons, ih]
    simp only [List.map_cons, List.sum_cons, add_assoc]

theorem foldl_flatMap_eq {α β σ : Type} (l : List α) (g : α → List β) (f : σ → β → σ) (s : σ) :
    (l.flatMap g).foldl f s = l.foldl (fun s x => (g x).foldl f s) s := by
  induction l generalizing s with
  | nil => rfl
  | cons a rest ih => rw [List.flatMap_cons, List.foldl_append, ih, List.foldl_cons]

/-- A sequence of assignments `B(key y) = val y` leaves at the key of any of its elements
the value of that element, when elements with the same key have the same value. -/
theorem foldl_update_mem {κ : Type} (key : κ → Int) (val : κ → ℚ) (l : List κ) (B : Int → ℚ)
    (x : κ) (hx : x ∈ l) (hkey : ∀ y ∈ l, key y = key x → val y = val x) :
    (l.foldl (fun B y => Function.update B (key y) (val y)) B) (key x) = val x := by
  induction l using List.reverseRecOn with
  | nil => exact absurd hx (List.not_mem_nil x)
  | append_singleton init a ih =>
    rw [List.foldl_append, List.foldl_cons, List.foldl_nil]
    by_cases hk : key a = key x
    · rw [← hk, Function.update_same]
      exact hkey a (by simp) hk
    · rw [Function.update_noteq (fun h => hk h.symm)]
      have hx2 : x ∈ init := by
        rcases List.mem_append.1 hx with h | h
        · exact h
        · rw [List.mem_singleton] at h
          exact absurd (by rw [h]) hk
      exact ih hx2 (fun y hy => hkey y (List.mem_append_left _ hy))

/-- The two inner loops of `regrid1` add to `WEIGHT` and `VALUE` the totals over the source
cells overlapping the destination cell. -/
theorem Hntr.regrid1_acc (h : Hntr) (WTA A : Int → ℚ) (JB IB : Int) (acc : ℚ × ℚ) :
    forLoop (h.JMIN JB) (h.JMAX JB) (fun JA acc =>
        forLoop (h.IMIN IB) (h.IMAX IB) (fun IAREV acc =>
          (acc.1 + (if IAREV = h.IMAX IB then
                (if IAREV = h.IMIN IB then (1 : ℚ) - h.FMIN IB else 1) - h.FMAX IB
              else (if IAREV = h.IMIN IB then (1 : ℚ) - h.FMIN IB else 1))
              * (if JA = h.JMAX JB then
                  (if JA = h.JMIN JB then h.SINA JA - h.SINA (JA - 1) - h.GMIN JB
                    else h.SINA JA - h.SINA (JA - 1)) - h.GMAX JB
                else (if JA = h.JMIN JB then h.SINA JA - h.SINA (JA - 1) - h.GMIN JB
                    else h.SINA JA - h.SINA (JA - 1)))
              * WTA (1 + Int.tmod (IAREV - 1) h.Agrid.im + h.Agrid.im * (JA - 1)),
            acc.2 + (if IAREV = h.IMAX IB then
                (if IAREV = h.IMIN IB then (1 : ℚ) - h.FMIN IB else 1) - h.FMAX IB
              else (if IAREV = h.IMIN IB then (1 : ℚ) - h.FMIN IB else 1))
              * (if JA = h.JMAX JB then
                  (if JA = h.JMIN JB then h.SINA JA - h.SINA (JA - 1) - h.GMIN JB
                    else h.SINA JA - h.SINA (JA - 1)) - h.GMAX JB
                else (if JA = h.JMIN JB then h.SINA JA - h.SINA (JA - 1) - h.GMIN JB
                    else h.SINA JA - h.SINA (JA - 1)))
              * WTA (1 + Int.tmod (IAREV - 1) h.Agrid.im + h.Agrid.im * (JA - 1))
              * A (1 + Int.tmod (IAREV - 1) h.Agrid.im + h.Agrid.im * (JA - 1)))) acc) acc
      = (acc.1 + h.cellWeight WTA JB IB, acc.2 + h.cellValue WTA A JB IB) := by
  simp only [Hntr.lonFraction_eq, Hntr.latFraction_eq, forLoop_eq_foldl, foldl_pair_sum]
  simp only [Hntr.cellWeight, Hntr.cellValue, Hntr.cellOverlaps, sum_map_flatMap, List.map_map,
    Function.comp_def, Hntr.sourceIndex]
  congr 2
  · congr 1
    apply List.map_congr_left
    intro JA _
    congr 1
    apply List.map_congr_left
    intro IAREV _
    ring
  · congr 1
    apply List.map_congr_left
    intro JA _
    congr 1
    apply List.map_congr_left
    intro IAREV _
    ring

/-- A sequence of paired assignments is the pair of the two sequences of assignments. -/
theorem foldl_update_pair {κ : Type} (key : κ → Int) (val wt : κ → ℚ) (l : List κ)
    (BW : (Int → ℚ) × (Int → ℚ)) :
    l.foldl (fun BW y =>
        (Function.update BW.1 (key y) (val y), Function.update BW.2 (key y) (wt y))) BW
      = (l.foldl (fun B y => Function.update B (key y) (val y)) BW.1,
          l.foldl (fun W y => Function.update W (key y) (wt y)) BW.2) := by
  induction l generalizing BW with
  | nil => rfl
  | cons a rest ih => rw [List.foldl_cons, ih, List.foldl_cons, List.foldl_cons]

/-- A sequence of assignments leaves the elements at other keys alone. -/
theorem foldl_update_not_key {κ : Type} (key : κ → Int) (val : κ → ℚ) (l : List κ)
    (B : Int → ℚ) (k : Int) (hk : ∀ y ∈ l, key y ≠ k) :
    (l.foldl (fun B y => Function.update B (key y) (val y)) B) k = B k := by
  induction l generalizing B with
  | nil => rfl
  | cons a rest ih =>
    rw [List.foldl_cons, ih _ (fun y hy => hk y (List.mem_cons_of_mem _ hy)),
      Function.update_noteq (fun h => hk a (List.mem_cons_self _ _) h.symm)]

/-- The assignments of the pass of `regrid1` over the destination cells, in visiting
order. -/
theorem Hntr.regridCells_eq_foldl (h : Hntr) (WTA A : Int → ℚ)
    (BW : (Int → ℚ) × (Int → ℚ)) :
    h.regridCells WTA A BW
      = ((intRange 1 h.Bgrid.jm).flatMap fun JB =>
          (intRange 1 h.Bgrid.im).map fun IB => (JB, IB)).foldl
        (fun BW c =>
          (Function.update BW.1 (c.2 + h.Bgrid.im * (c.1 - 1))
            (if h.cellWeight WTA c.1 c.2 = 0 then h.DATMIS
              else h.cellValue WTA A c.1 c.2 / h.cellWeight WTA c.1 c.2),
           Function.update BW.2 (c.2 + h.Bgrid.im * (c.1 - 1)) (h.cellWeight WTA c.1 c.2)))
        BW := by
  unfold Hntr.regridCells
  simp only [Hntr.regrid1_acc, zero_add]
  simp only [forLoop_eq_foldl, foldl_flatMap_eq, List.foldl_map]

/-- The pass of `regrid1` over the destination cells stores the weighted mean, or `DATMIS`,
in every destination cell of grid B. -/
theorem Hntr.regridCells_value (h : Hntr) (WTA A : Int → ℚ) (BW : (Int → ℚ) × (Int → ℚ))
    (JB IB : Int) (hJ1 : 1 ≤ JB) (hJ2 : JB ≤ h.Bgrid.jm) (hI1 : 1 ≤ IB)
    (hI2 : IB ≤ h.Bgrid.im) :
    (h.regridCells WTA A BW).1 (IB + h.Bgrid.im * (JB - 1))
      = if h.cellWeight WTA JB IB = 0 then h.DATMIS
        else h.cellValue WTA A JB IB / h.cellWeight WTA JB IB := by
  rw [Hntr.regridCells_eq_foldl,
    foldl_update_pair (fun c : Int × Int => c.2 + h.Bgrid.im * (c.1 - 1))
      (fun c => if h.cellWeight WTA c.1 c.2 = 0 then h.DATMIS
        else h.cellValue WTA A c.1 c.2 / h.cellWeight WTA c.1 c.2)
      (fun c => h.cellWeight WTA c.1 c.2)]
  have hmem : (JB, IB) ∈ ((intRange 1 h.Bgrid.jm).flatMap fun JB =>
      (intRange 1 h.Bgrid.im).map fun IB => (JB, IB)) := by
    simp only [List.mem_flatMap, List.mem_map, mem_intRange]
    exact ⟨JB, ⟨hJ1, hJ2⟩, IB, ⟨hI1, hI2⟩, rfl⟩
  refine foldl_update_mem (fun c : Int × Int => c.2 + h.Bgrid.im * (c.1 - 1))
    (fun c => if h.cellWeight WTA c.1 c.2 = 0 then h.DATMIS
      else h.cellValue WTA A c.1 c.2 / h.cellWeight WTA c.1 c.2) _ BW.1 (JB, IB) hmem ?_
  intro c hc hkey
  simp only [List.mem_flatMap, List.mem_map, mem_intRange] at hc
  obtain ⟨JB2, _, IB2, ⟨h1, h2⟩, rfl⟩ := hc
  simp only at hkey
  obtain ⟨e1, e2⟩ := cell_index_inj h.Bgrid.im IB JB IB2 JB2 hI1 hI2 h1 h2 (by omega)
  simp only [e1, e2]

/-- The polar averaging of a row leaves the cells of the other rows of grid B alone. -/
theorem Hntr.polarMean_other_row (h : Hntr) (B W : Int → ℚ) (JP JB IB : Int)
    (hI1 : 1 ≤ IB) (hI2 : IB ≤ h.Bgrid.im) (hne : JB ≠ JP) :
    h.polarMean B W JP (IB + h.Bgrid.im * (JB - 1)) = B (IB + h.Bgrid.im * (JB - 1)) := by
  unfold Hntr.polarMean
  simp only [forLoop_eq_foldl]
  refine foldl_update_not_key (fun IB2 : Int => IB2 + h.Bgrid.im * (JP - 1)) (fun _ => _)
    _ B _ ?_
  intro IB2 hIB2 hkey
  rw [mem_intRange] at hIB2
  simp only at hkey
  obtain ⟨_, e2⟩ := cell_index_inj h.Bgrid.im IB JB IB2 JP hI1 hI2 hIB2.1 hIB2.2 (by omega)
  exact hne e2.symm

/-- Counterexample for C22: on two equal grids of 2 by 1 cells, with the field `[2, 4]` and
the weights `[1, 1]`, the weighted mean over the source cells overlapping the destination
cell 1 is `4 / 2 = 2`, which `regrid1` stores when `mean_polar` is false; with `mean_polar`
set the cell gets 3, the mean of its row. -/
theorem Hntr.regrid1_polar_counterexample :
    hntr22.cellWeight (fun _ => 1) 1 1 = 2 ∧
    hntr22.cellValue (fun _ => 1) field24 1 1 = 4 ∧
    hntr22.regrid1 (fun _ => 1) field24 (fun _ => 0) false 1 = 2 ∧
    hntr22.regrid1 (fun _ => 1) field24 (fun _ => 0) true 1 = 3 ∧
    hntr22.regrid1 (fun _ => 1) field24 (fun _ => 0) true 1
      ≠ hntr22.cellValue (fun _ => 1) field24 1 1 / hntr22.cellWeight (fun _ => 1) 1 1 := by
  have hmod : Int.tmod 1 2 = 1 := by decide
  have hW : hntr22.cellWeight (fun _ => 1) 1 1 = 2 := by
    simp [Hntr.cellWeight, Hntr.cellOverlaps, Hntr.lonFraction, Hntr.latFraction, hntr22,
      intRange, List.range_succ]
  have hV : hntr22.cellValue (fun _ => 1) field24 1 1 = 4 := by
    simp [Hntr.cellValue, Hntr.cellOverlaps, Hntr.lonFraction, Hntr.latFraction, hntr22,
      intRange, List.range_succ, Hntr.sourceIndex, field24]
    norm_num
  have hfalse : hntr22.regrid1 (fun _ => 1) field24 (fun _ => 0) false 1 = 2 := by
    simp [Hntr.regrid1, Hntr.regridCells, forLoop, forLoopAux, hntr22, field24,
      Function.update_apply, hmod]
  have htrue : hntr22.regrid1 (fun _ => 1) field24 (fun _ => 0) true 1 = 3 := by
    simp [Hntr.regrid1, Hntr.polarMean, Hntr.regridCells, forLoop, forLoopAux, hntr22, field24,
      Function.update_apply, hmod]
    norm_num
  refine ⟨hW, hV, hfalse, htrue, ?_⟩
  rw [htrue, hW, hV]
  norm_num

/-- C22 (amended). In exact arithmetic, for every source weight array `WTA`, source field
`A` and destination cell `(IB, JB)` of grid B, `regrid1` with `mean_polar` false, or with
`mean_polar` set at a cell outside the first and the last destination row, sets `B(IJB)`,
`IJB = IB + Bgrid.im * (JB - 1)`, to the weighted mean `sum(WTA*F*G*A) / sum(WTA*F*G)` over
the source cells overlapping the cell, and to `DATMIS` when that total weight is 0. -/
theorem Hntr.regrid1_weighted_mean (h : Hntr) (WTA A B : Int → ℚ) (mean_polar : Bool)
    (JB IB : Int) (hJ1 : 1 ≤ JB) (hJ2 : JB ≤ h.Bgrid.jm) (hI1 : 1 ≤ IB)
    (hI2 : IB ≤ h.Bgrid.im) (hrow : mean_polar = false ∨ (1 < JB ∧ JB < h.Bgrid.jm)) :
    h.regrid1 WTA A B mean_polar (IB + h.Bgrid.im * (JB - 1))
      = if h.cellWeight WTA JB IB = 0 then h.DATMIS
        else h.cellValue WTA A JB IB / h.cellWeight WTA JB IB := by
  have hval := h.regridCells_value WTA A (B, fun _ => 0) JB IB hJ1 hJ2 hI1 hI2
  unfold Hntr.regrid1
  cases hmp : mean_polar with
  | false => simpa using hval
  | true =>
    rcases hrow with hf | ⟨h1, h2⟩
    · rw [hmp] at hf
      exact absurd hf (by decide)
    · simp only [if_true]
      rw [Hntr.polarMean_other_row h _ _ h.Bgrid.jm JB IB hI1 hI2 (by omega),
        Hntr.polarMean_other_row h _ _ 1 JB IB hI1 hI2 (by omega)]
      exact hval

/-- Witness for C22 (amended): source grid of 2 by 1 cells, destination grid of one cell,
field `[2, 4]` and weights `[1, 1]`, `mean_polar` false: the total weight is 4, the
weighted total 12, and the destination value 3. -/
theorem Hntr.regrid1_weighted_mean_witness :
    hntr21.cellWeight (fun _ => 1) 1 1 = 4 ∧
    hntr21.cellValue (fun _ => 1) field24 1 1 = 12 ∧
    hntr21.regrid1 (fun _ => 1) field24 (fun _ => 0) false (1 + hntr21.Bgrid.im * (1 - 1))
      = 3 := by
  have hW : hntr21.cellWeight (fun _ => 1) 1 1 = 4 := by
    simp [Hntr.cellWeight, Hntr.cellOverlaps, Hntr.lonFraction, Hntr.latFraction, hntr21,
      intRange, List.range_succ]
    norm_num
  have hV : hntr21.cellValue (fun _ => 1) field24 1 1 = 12 := by
    have hmod : Int.tmod 1 2 = 1 := by decide
    simp [hmod, Hntr.cellValue, Hntr.cellOverlaps, Hntr.lonFraction, Hntr.latFraction, hntr21,
      intRange, List.range_succ, Hntr.sourceIndex, field24]
    norm_num
  refine ⟨hW, hV, ?_⟩
  rw [Hntr.regrid1_weighted_mean hntr21 (fun _ => 1) field24 (fun _ => 0) false 1 1
    (by decide) (by decide) (by decide) (by decide) (Or.inl rfl), hW, hV]
  norm_num

/-! ## remove_small_constraints -/

theorem readAt_of_lt (v : List Int) (i : Int) (h0 : 0 ≤ i) (h1 : i < v.length) :
    ∃ n, readAt v i = some n := by
  have h2 : i.toNat < v.length := by omega
  exact ⟨v[i.toNat], by simp only [readAt, h0, if_true, List.getElem?_eq_getElem h2]⟩

theorem readAt_set (v : List Int) (j r : Int) (x : Int) (hj0 : 0 ≤ j) (hj1 : j < v.length) :
    readAt (v.set j.toNat x) r = if r = j then some x else readAt v r := by
  unfold readAt
  by_cases hr : 0 ≤ r
  · simp only [hr, if_true, List.getElem?_set]
    by_cases hrj : r = j
    · subst hrj
      have h2 : r.toNat < v.length := by omega
      simp [h2]
    · have h3 : j.toNat ≠ r.toNat := by omega
      simp only [h3, if_false, hrj]
  · have hrj : r ≠ j := by omega
    simp only [hr, if_false, hrj]

theorem readAt_replicate (n : Nat) (r : Int) (h0 : 0 ≤ r) (h1 : r < n) :
    readAt (List.replicate n 0) r = some 0 := by
  have h2 : r.toNat < n := by omega
  simp only [readAt, h0, if_true, List.getElem?_replicate, h2]

/-- The counting loop, on entries whose rows are inside `row_count`, does not index out of
bounds and adds to each element the number of entries of its row that are not skipped. -/
theorem countLoop_spec (ds : DeleteSets) (entries : List Entry) (row_count : List Int)
    (hin : ∀ e ∈ entries, 0 ≤ e.row ∧ e.row < row_count.length) :
    ∃ rc, countLoop ds entries row_count = some rc ∧ rc.length = row_count.length ∧
      ∀ r n, readAt row_count r = some n →
        readAt rc r = some (n + (entriesOfRow (ds.kept entries) r).length) := by
  induction entries generalizing row_count with
  | nil =>
    refine ⟨row_count, rfl, rfl, ?_⟩
    intro r n h
    simp [DeleteSets.kept, entriesOfRow, h]
  | cons oi rest ih =>
    obtain ⟨h0, h1⟩ := hin oi (List.mem_cons_self _ _)
    have hrest : ∀ rc2 : List Int, rc2.length = row_count.length →
        ∀ e ∈ rest, 0 ≤ e.row ∧ e.row < rc2.length := by
      intro rc2 hlen e he
      rw [hlen]
      exact hin e (List.mem_cons_of_mem _ he)
    by_cases hs : ds.skips oi = true
    · obtain ⟨rc, hrc, hlen, hval⟩ := ih row_count (hrest row_count rfl)
      refine ⟨rc, ?_, hlen, ?_⟩
      · simp only [countLoop, countStep, hs, if_true, hrc]
      · intro r n h
        rw [hval r n h]
        simp [DeleteSets.kept, entriesOfRow, hs]
    · obtain ⟨n0, hn0⟩ := readAt_of_lt row_count oi.row h0 h1
      obtain ⟨rc, hrc, hlen, hval⟩ := ih (row_count.set oi.row.toNat (n0 + 1))
        (hrest _ (List.length_set _ _ _))
      refine ⟨rc, ?_, ?_, ?_⟩
      · simp only [countLoop, countStep, hs, hn0]
        simpa using hrc
      · rw [hlen, List.length_set]
      · intro r n h
        have hkept : ds.kept (oi :: rest) = oi :: ds.kept rest := by
          simp [DeleteSets.kept, hs]
        by_cases hr : r = oi.row
        · subst hr
          rw [hn0] at h
          cases h
          rw [hval oi.row (n0 + 1) (by rw [readAt_set _ _ _ _ h0 h1]; simp), hkept]
          simp [entriesOfRow]
          ring
        · rw [hval r n (by rw [readAt_set _ _ _ _ h0 h1]; simp [hr, h]), hkept]
          have hr2 : ¬ oi.row = r := fun h3 => hr h3.symm
          simp [entriesOfRow, hr2]

/-- The three outcomes of one iteration of the loop that adds to the deletion sets, for an
entry whose row is inside `row_count`: the entry is skipped, its row is large enough, or
its row and column are added to the sets. -/
theorem markStep_cases (row_count : List Int) (min_row_count : Int) (st : DeleteSets × Int)
    (oi : Entry) (h0 : 0 ≤ oi.row) (h1 : oi.row < row_count.length) :
    ∃ n, readAt row_count oi.row = some n ∧
      ((st.1.skips oi = true ∧ markStep row_count min_row_count st oi = some st) ∨
       (st.1.skips oi = false ∧ min_row_count ≤ n ∧
          markStep row_count min_row_count st oi = some st) ∨
       (st.1.skips oi = false ∧ n < min_row_count ∧
          markStep row_count min_row_count st oi
            = some (⟨st.1.delete_row.insert oi.row, st.1.delete_col.insert oi.col⟩,
                st.2 + 1))) := by
  obtain ⟨n, hn⟩ := readAt_of_lt row_count oi.row h0 h1
  refine ⟨n, hn, ?_⟩
  by_cases hs : st.1.skips oi = true
  · left
    exact ⟨hs, by simp only [markStep, hs, if_true]⟩
  · have hs2 : st.1.skips oi = false := by simpa using hs
    by_cases hlt : n < min_row_count
    · right; right
      refine ⟨hs2, hlt, ?_⟩
      simp only [markStep, hs2, hn, hlt, if_true]
      simp
    · right; left
      refine ⟨hs2, by omega, ?_⟩
      simp only [markStep, hs2, hn, hlt, if_false]
      simp

theorem not_mem_of_skips_false (ds : DeleteSets) (oi : Entry) (h : ds.skips oi = false) :
    oi.row ∉ ds.delete_row := by
  intro hmem
  simp [DeleteSets.skips, hmem] at h

/-- The loop that adds to the deletion sets, on entries whose rows are inside `row_count`,
does not index out of bounds; `num_deleted` and `delete_row` only grow, by rows of the
entries; every deletion adds a row that was not in `delete_row`; and when nothing was
deleted, the sets are unchanged and every entry that is not skipped has a row count of at
least `min_row_count`. -/
theorem markLoop_spec (row_count : List Int) (min_row_count : Int) (entries : List Entry)
    (st : DeleteSets × Int) (hin : ∀ e ∈ entries, 0 ≤ e.row ∧ e.row < row_count.length) :
    ∃ st2, markLoop row_count min_row_count entries st = some st2 ∧
      st.2 ≤ st2.2 ∧
      st.1.delete_row ⊆ st2.1.delete_row ∧
      (∀ r ∈ st2.1.delete_row, r ∈ st.1.delete_row ∨ ∃ e ∈ entries, e.row = r) ∧
      (st.1.delete_row.Nodup → st2.1.delete_row.Nodup ∧
        (st2.1.delete_row.length : Int) = st.1.delete_row.length + (st2.2 - st.2)) ∧
      (st2.2 = st.2 → st2 = st ∧ ∀ e ∈ entries, st.1.skips e = false →
        ∃ n, readAt row_count e.row = some n ∧ min_row_count ≤ n) := by
  induction entries generalizing st with
  | nil =>
    refine ⟨st, rfl, le_refl _, fun _ h => h, fun r h => Or.inl h, ?_, ?_⟩
    · intro hnd
      exact ⟨hnd, by omega⟩
    · intro _
      exact ⟨rfl, fun e he => absurd he (List.not_mem_nil e)⟩
  | cons oi rest ih =>
    obtain ⟨h0, h1⟩ := hin oi (List.mem_cons_self _ _)
    have hrest : ∀ e ∈ rest, 0 ≤ e.row ∧ e.row < row_count.length :=
      fun e he => hin e (List.mem_cons_of_mem _ he)
    obtain ⟨n, hn, hcase⟩ := markStep_cases row_count min_row_count st oi h0 h1
    rcases hcase with ⟨hs, hstep⟩ | ⟨hs, hge, hstep⟩ | ⟨hs, hlt, hstep⟩
    · obtain ⟨st2, hrun, hle, hsub, hfrom, hnd, hzero⟩ := ih st hrest
      refine ⟨st2, by simp only [markLoop, hstep, hrun], hle, hsub, ?_, hnd, ?_⟩
      · intro r hr
        rcases hfrom r hr with h | ⟨e, he, her⟩
        · exact Or.inl h
        · exact Or.inr ⟨e, List.mem_cons_of_mem _ he, her⟩
      · intro heq
        obtain ⟨h2, h3⟩ := hzero heq
        refine ⟨h2, ?_⟩
        intro e he hse
        rcases List.mem_cons.1 he with h | h
        · rw [h, hs] at hse
          exact absurd hse (by simp)
        · exact h3 e h hse
    · obtain ⟨st2, hrun, hle, hsub, hfrom, hnd, hzero⟩ := ih st hrest
      refine ⟨st2, by simp only [markLoop, hstep, hrun], hle, hsub, ?_, hnd, ?_⟩
      · intro r hr
        rcases hfrom r hr with h | ⟨e, he, her⟩
        · exact Or.inl h
        · exact Or.inr ⟨e, List.mem_cons_of_mem _ he, her⟩
      · intro heq
        obtain ⟨h2, h3⟩ := hzero heq
        refine ⟨h2, ?_⟩
        intro e he hse
        rcases List.mem_cons.1 he with h | h
        · rw [h]
          exact ⟨n, hn, hge⟩
        · exact h3 e h hse
    · obtain ⟨st2, hrun, hle, hsub, hfrom, hnd, hzero⟩ :=
        ih (⟨st.1.delete_row.insert oi.row, st.1.delete_col.insert oi.col⟩, st.2 + 1) hrest
      have hnot : oi.row ∉ st.1.delete_row := not_mem_of_skips_false st.1 oi hs
      simp only at hle hsub hfrom hnd hzero
      refine ⟨st2, by simp only [markLoop, hstep, hrun], by omega, ?_, ?_, ?_, ?_⟩
      · intro r hr
        exact hsub (List.mem_insert_iff.2 (Or.inr hr))
      · intro r hr
        rcases hfrom r hr with h | ⟨e, he, her⟩
        · rcases List.mem_insert_iff.1 h with h2 | h2
          · exact Or.inr ⟨oi, List.mem_cons_self _ _, h2.symm⟩
          · exact Or.inl h2
        · exact Or.inr ⟨e, List.mem_cons_of_mem _ he, her⟩
      · intro hnd0
        obtain ⟨h2, h3⟩ := hnd (hnd0.insert)
        refine ⟨h2, ?_⟩
        rw [h3, List.length_insert_of_not_mem hnot]
        push_cast
        ring
      · intro heq
        omega

/-- One round of the deletion loop on a matrix with rows in range: `row_count` is never
indexed out of bounds; `delete_row` grows by `num_deleted` rows of the matrix that were not
in it; and a round with `num_deleted = 0` leaves the sets unchanged and shows that every
entry that is not skipped lies in a row with at least `min_row_count` such entries. -/
theorem deletionRound_spec (mat : VectorSparseMatrix) (min_row_count : Int) (ds : DeleteSets)
    (hrows : mat.RowsInRange) :
    ∃ ds2 num_deleted, deletionRound mat min_row_count ds = some (ds2, num_deleted) ∧
      0 ≤ num_deleted ∧
      ds.delete_row ⊆ ds2.delete_row ∧
      (∀ r ∈ ds2.delete_row, r ∈ ds.delete_row ∨ ∃ e ∈ mat.entries, e.row = r) ∧
      (ds.delete_row.Nodup → ds2.delete_row.Nodup ∧
        (ds2.delete_row.length : Int) = ds.delete_row.length + num_deleted) ∧
      (num_deleted = 0 → ds2 = ds ∧ ∀ e ∈ mat.entries, ds.skips e = false →
        min_row_count ≤ (entriesOfRow (ds.kept mat.entries) e.row).length) := by
  have hin0 : ∀ e ∈ mat.entries,
      0 ≤ e.row ∧ e.row < ((List.replicate mat.nrow.toNat (0 : Int)).length : Int) := by
    intro e he
    obtain ⟨h0, h1⟩ := hrows e he
    rw [List.length_replicate]
    omega
  obtain ⟨rc, hrc, hlen, hval⟩ := countLoop_spec ds mat.entries _ hin0
  have hin1 : ∀ e ∈ mat.entries, 0 ≤ e.row ∧ e.row < (rc.length : Int) := by
    intro e he
    rw [hlen]
    exact hin0 e he
  obtain ⟨st2, hrun, hle, hsub, hfrom, hnd, hzero⟩ :=
    markLoop_spec rc min_row_count mat.entries (ds, 0) hin1
  simp only at hle hsub hfrom hnd hzero
  refine ⟨st2.1, st2.2, ?_, hle, hsub, hfrom, ?_, ?_⟩
  · simp only [deletionRound, hrc, hrun]
  · intro h
    obtain ⟨h2, h3⟩ := hnd h
    exact ⟨h2, by omega⟩
  · intro h
    obtain ⟨h2, h3⟩ := hzero h
    refine ⟨by rw [h2], ?_⟩
    intro e he hse
    obtain ⟨n, hn, hmin⟩ := h3 e he hse
    obtain ⟨h0, h1⟩ := hrows e he
    have h4 := hval e.row 0 (readAt_replicate _ _ h0 (by omega))
    rw [hn] at h4
    cases h4
    omega

/-- A list of distinct integers in `[0, n)` has at most `n` elements. -/
theorem length_le_of_nodup_range (l : List Int) (n : Int) (hnd : l.Nodup)
    (hin : ∀ r ∈ l, 0 ≤ r ∧ r < n) : l.length ≤ n.toNat := by
  have hsub : l ⊆ intRange 0 (n - 1) := by
    intro r hr
    rw [mem_intRange]
    have := hin r hr
    omega
  have h := (List.subperm_of_subset hnd hsub).length_le
  rw [length_intRange] at h
  have h2 : (n - 1 + 1 - 0).toNat = n.toNat := by
    congr 1
    ring
  omega

/-- The deletion loop on a matrix with rows in range, started after `rounds` rounds with
distinct deleted rows inside the matrix: with enough rounds allowed it stops, the number of
rounds is bounded through the number of rows not yet deleted, and at the end every entry
that is not skipped lies in a row with at least `min_row_count` such entries. -/
theorem deletionLoop_spec (mat : VectorSparseMatrix) (min_row_count : Int)
    (hrows : mat.RowsInRange) (fuel : Nat) :
    ∀ (ds : DeleteSets) (rounds : Nat), ds.delete_row.Nodup →
      (∀ r ∈ ds.delete_row, 0 ≤ r ∧ r < mat.nrow) →
      mat.nrow.toNat + 1 ≤ fuel + ds.delete_row.length →
      ∃ ds2 rounds2, deletionLoop mat min_row_count fuel ds rounds = .done ds2 rounds2 ∧
        rounds2 + ds.delete_row.length ≤ rounds + mat.nrow.toNat + 1 ∧
        (∀ e ∈ mat.entries, ds2.skips e = false →
          min_row_count ≤ (entriesOfRow (ds2.kept mat.entries) e.row).length) := by
  induction fuel with
  | zero =>
    intro ds rounds hnd hin hfuel
    have := length_le_of_nodup_range ds.delete_row mat.nrow hnd hin
    omega
  | succ fuel ih =>
    intro ds rounds hnd hin hfuel
    have hlen := length_le_of_nodup_range ds.delete_row mat.nrow hnd hin
    obtain ⟨ds1, k, hround, hk, hsub, hfrom, hnd1, hzero⟩ :=
      deletionRound_spec mat min_row_count ds hrows
    obtain ⟨hnd2, hlen2⟩ := hnd1 hnd
    by_cases hk0 : k = 0
    · obtain ⟨h2, h3⟩ := hzero hk0
      refine ⟨ds1, rounds + 1, ?_, by omega, ?_⟩
      · simp only [deletionLoop, hround, hk0, if_true]
      · rw [h2]
        exact h3
    · have hin1 : ∀ r ∈ ds1.delete_row, 0 ≤ r ∧ r < mat.nrow := by
        intro r hr
        rcases hfrom r hr with h | ⟨e, he, her⟩
        · exact hin r h
        · rw [← her]
          exact hrows e he
      obtain ⟨ds2, rounds2, hrun, hbound, hfinal⟩ := ih ds1 (rounds + 1) hnd2 hin1 (by omega)
      refine ⟨ds2, rounds2, ?_, by omega, hfinal⟩
      simp only [deletionLoop, hround, hk0, if_false, hrun]

/-- The copying loop, on entries without duplicate coordinates that are not yet stored,
appends the entries that are not skipped and leaves the dimensions alone. -/
theorem copyLoop_spec (ds : DeleteSets) (entries : List Entry) (out : VectorSparseMatrix)
    (hnd : (entries.map (fun e => (e.row, e.col))).Nodup)
    (hnew : ∀ e ∈ out.entries, (e.row, e.col) ∉ entries.map (fun e => (e.row, e.col))) :
    (copyLoop ds entries out).nrow = out.nrow ∧ (copyLoop ds entries out).ncol = out.ncol ∧
    (copyLoop ds entries out).entries = out.entries ++ ds.kept entries := by
  induction entries generalizing out with
  | nil => simp [copyLoop, DeleteSets.kept]
  | cons oi rest ih =>
    rw [List.map_cons, List.nodup_cons] at hnd
    obtain ⟨hoi, hnd2⟩ := hnd
    by_cases hs : ds.skips oi = true
    · have hnew2 : ∀ e ∈ out.entries, (e.row, e.col) ∉ rest.map (fun e => (e.row, e.col)) :=
        fun e he hmem => hnew e he (List.mem_cons_of_mem _ hmem)
      obtain ⟨h1, h2, h3⟩ := ih out hnd2 hnew2
      have hstep : copyLoop ds (oi :: rest) out = copyLoop ds rest out := by
        simp only [copyLoop, List.foldl_cons, hs, if_true]
      rw [hstep]
      refine ⟨h1, h2, ?_⟩
      rw [h3]
      simp [DeleteSets.kept, hs]
    · have hset : (out.set oi.row oi.col oi.value).entries = out.entries ++ [oi] := by
        simp only [VectorSparseMatrix.set]
        congr 1
        rw [List.filter_eq_self]
        intro e he
        have := hnew e he
        simp only [List.map_cons, List.mem_cons, not_or, Prod.mk.injEq] at this
        have h2 := this.1
        simp only [Bool.not_eq_true', Bool.and_eq_false_imp, decide_eq_true_eq,
          decide_eq_false_iff_not]
        intro hr hc
        exact h2 ⟨hr, hc⟩
      have hnew2 : ∀ e ∈ (out.set oi.row oi.col oi.value).entries,
          (e.row, e.col) ∉ rest.map (fun e => (e.row, e.col)) := by
        intro e he hmem
        rw [hset] at he
        rcases List.mem_append.1 he with h | h
        · exact hnew e h (List.mem_cons_of_mem _ hmem)
        · rw [List.mem_singleton] at h
          rw [h] at hmem
          exact hoi hmem
      obtain ⟨h1, h2, h3⟩ := ih (out.set oi.row oi.col oi.value) hnd2 hnew2
      have hstep : copyLoop ds (oi :: rest) out
          = copyLoop ds rest (out.set oi.row oi.col oi.value) := by
        simp only [copyLoop, List.foldl_cons, hs]
        simp
      rw [hstep]
      refine ⟨h1, h2, ?_⟩
      rw [h3, hset]
      simp [DeleteSets.kept, hs]

/-- C23. For every constraint matrix with row indices in `[0, nrow)` and without duplicate
coordinates, and every `min_row_count`, `remove_small_constraints` (with at least
`nrow + 1` rounds allowed) returns a matrix with the dimensions of the input, whose entries
are entries of the input, in the order of the input, with the same row, column and value,
and in which every row that has at least one entry has at least `min_row_count`
entries. -/
theorem remove_small_constraints_rows (mat : VectorSparseMatrix) (min_row_count : Int)
    (fuel : Nat) (hrows : mat.RowsInRange) (hnodup : mat.NoDuplicates)
    (hfuel : mat.nrow.toNat + 1 ≤ fuel) :
    ∃ out, remove_small_constraints fuel mat min_row_count = some out ∧
      out.nrow = mat.nrow ∧ out.ncol = mat.ncol ∧
      out.entries.Sublist mat.entries ∧
      (∀ e ∈ out.entries, e ∈ mat.entries) ∧
      (∀ r, (∃ e ∈ out.entries, e.row = r) →
        min_row_count ≤ (entriesOfRow out.entries r).length) := by
  obtain ⟨ds, rounds, hrun, _, hfinal⟩ := deletionLoop_spec mat min_row_count hrows fuel
    ⟨[], []⟩ 0 List.nodup_nil (fun r hr => absurd hr (List.not_mem_nil r))
    (by simp only [List.length_nil]; omega)
  obtain ⟨h1, h2, h3⟩ := copyLoop_spec ds mat.entries ⟨mat.nrow, mat.ncol, []⟩ hnodup
    (fun e he => absurd he (List.not_mem_nil e))
  simp only [List.nil_append] at h3
  refine ⟨copyLoop ds mat.entries ⟨mat.nrow, mat.ncol, []⟩, ?_, h1, h2, ?_, ?_, ?_⟩
  · simp only [remove_small_constraints, hrun]
  · rw [h3]
    exact List.filter_sublist _
  · intro e he
    rw [h3] at he
    exact (List.mem_filter.1 he).1
  · rintro r ⟨e, he, rfl⟩
    rw [h3] at he ⊢
    obtain ⟨hmem, hskip⟩ := List.mem_filter.1 he
    exact hfinal e hmem (by simpa using hskip)

/-- Witness for C23: with `min_row_count = 2` the matrix `constraints33` loses its row 1,
which has one entry, and keeps the rows 0 and 2 with two entries each. -/
theorem remove_small_constraints_rows_witness :
    constraints33.RowsInRange ∧ constraints33.NoDuplicates ∧
    remove_small_constraints 4 constraints33 2
      = some ⟨3, 3, [⟨0, 0, 1⟩, ⟨0, 1, 2⟩, ⟨2, 0, 4⟩, ⟨2, 1, 5⟩]⟩ ∧
    ∃ out, remove_small_constraints 4 constraints33 2 = some out ∧
      out.nrow = constraints33.nrow ∧ out.ncol = constraints33.ncol ∧
      out.entries.Sublist constraints33.entries ∧
      (∀ e ∈ out.entries, e ∈ constraints33.entries) ∧
      (∀ r, (∃ e ∈ out.entries, e.row = r) →
        (2 : Int) ≤ (entriesOfRow out.entries r).length) := by
  have hrows : constraints33.RowsInRange := by
    simp [VectorSparseMatrix.RowsInRange, constraints33]
  have hnodup : constraints33.NoDuplicates := by
    unfold VectorSparseMatrix.NoDuplicates constraints33
    decide
  exact ⟨hrows, hnodup, by rfl,
    remove_small_constraints_rows constraints33 2 4 hrows hnodup (by decide)⟩

/-- C29. For every matrix with `nrow ≥ 0` whose row indices lie in `[0, nrow)` and every
`min_row_count`, the deletion loop of `remove_small_constraints` stops whenever at least
`nrow + 1` rounds are allowed, after at most `nrow + 1` rounds; and from any deletion sets
a round never indexes `row_count` out of bounds, keeps the deleted rows, and, unless it is
the round that stops the loop (`num_deleted = 0`), adds a row to `delete_row` that was not
in it. -/
theorem deletionLoop_terminates (mat : VectorSparseMatrix) (min_row_count : Int)
    (hn : 0 ≤ mat.nrow) (hrows : mat.RowsInRange) :
    (∀ fuel, mat.nrow.toNat + 1 ≤ fuel →
      ∃ ds rounds, deletionLoop mat min_row_count fuel ⟨[], []⟩ 0 = .done ds rounds ∧
        (rounds : Int) ≤ mat.nrow + 1) ∧
    (∀ ds : DeleteSets, ds.delete_row.Nodup →
      ∃ ds2 num_deleted, deletionRound mat min_row_count ds = some (ds2, num_deleted) ∧
        ds.delete_row ⊆ ds2.delete_row ∧
        (num_deleted ≠ 0 → ∃ r ∈ ds2.delete_row, r ∉ ds.delete_row)) := by
  constructor
  · intro fuel hfuel
    obtain ⟨ds, rounds, hrun, hbound, _⟩ := deletionLoop_spec mat min_row_count hrows fuel
      ⟨[], []⟩ 0 List.nodup_nil (fun r hr => absurd hr (List.not_mem_nil r))
      (by simp only [List.length_nil]; omega)
    refine ⟨ds, rounds, hrun, ?_⟩
    simp only [List.length_nil] at hbound
    omega
  · intro ds hnd
    obtain ⟨ds2, k, hround, hk, hsub, _, hnd1, _⟩ :=
      deletionRound_spec mat min_row_count ds hrows
    obtain ⟨hnd2, hlen⟩ := hnd1 hnd
    refine ⟨ds2, k, hround, hsub, ?_⟩
    intro hk0
    by_contra hall
    have hsub2 : ds2.delete_row ⊆ ds.delete_row := by
      intro r hr
      by_contra hnot
      exact hall ⟨r, hr, hnot⟩
    have h := (List.subperm_of_subset hnd2 hsub2).length_le
    omega

/-- Witness for C29: on `constraints33` with `min_row_count = 2` the loop stops after 2
rounds, of the 4 allowed, with row 1 and column 2 deleted. -/
theorem deletionLoop_terminates_witness :
    (0 : Int) ≤ constraints33.nrow ∧ constraints33.RowsInRange ∧
    deletionLoop constraints33 2 4 ⟨[], []⟩ 0 = .done ⟨[1], [2]⟩ 2 ∧
    deletionRound constraints33 2 ⟨[], []⟩ = some (⟨[1], [2]⟩, 1) ∧
    ∃ ds rounds, deletionLoop constraints33 2 4 ⟨[], []⟩ 0 = .done ds rounds ∧
      (rounds : Int) ≤ constraints33.nrow + 1 := by
  have hrows : constraints33.RowsInRange := by
    simp [VectorSparseMatrix.RowsInRange, constraints33]
  exact ⟨by decide, hrows, by rfl, by rfl,
    (deletionLoop_terminates constraints33 2 (by decide) hrows).1 4 (by decide)⟩

end icebin
